import Mathlib

/-!
# Verification of the metamath-turing-machines compiler core

A shallow embedding, in Lean 4, of the compiler core of
`sorear/metamath-turing-machines` (`framework.py`): the `State.be` state
constructor, the `memo` decorator, `cfg_optimizer`, `make_dispatcher`,
`MachineBuilder.makesub` (layout, branch resolution, dispatch tree),
the register primitives (`reg_decr` with `register_common`), `transfer`,
and `Machine.compress`.  Each Python function is translated as directly
as possible; partial operations (Python `assert`, `KeyError`) become
`Option`/`Except`-valued definitions.
-/

set_option maxHeartbeats 1000000
set_option linter.unusedVariables false

namespace MTM

/-! ## State.be (framework.py, `State.be`)

A Turing state's transition data.  `next` references are either another
state (identified by an id) or the `Halt` sentinel.  Tape symbols are the
characters `'0'` and `'1'` exactly as in the Python source. -/

/-- Reference to a next state: `Halt` sentinel or a `State` (by identity). -/
inductive NextRef where
  | halt : NextRef
  | state (id : Nat) : NextRef
deriving DecidableEq, Repr

/-- The six transition fields that `State.be` fills in. -/
structure BeResult where
  name : String
  move0 : Int
  move1 : Int
  next0 : NextRef
  next1 : NextRef
  write0 : Char
  write1 : Char
deriving DecidableEq, Repr

/-- Embedding of `State.be`.  Each optional keyword argument is an
`Option`; `x or y` on these (never-falsy) values is `Option.orElse`, and
`write0 or write or '0'` / `write1 or write or '1'` supply the written
symbol defaults.  The `assert` statements become the `Option` guards. -/
def beE (name : String) (move : Option Int) (next : Option NextRef)
    (write : Option Char)
    (move0 : Option Int) (next0 : Option NextRef) (write0 : Option Char)
    (move1 : Option Int) (next1 : Option NextRef) (write1 : Option Char) :
    Option BeResult := do
  let m0 ← move0.orElse fun _ => move
  let m1 ← move1.orElse fun _ => move
  let n0 ← next0.orElse fun _ => next
  let n1 ← next1.orElse fun _ => next
  let w0 := ((write0.orElse fun _ => write).getD '0')
  let w1 := ((write1.orElse fun _ => write).getD '1')
  if m0 = -1 ∨ m0 = 1 then
    if m1 = -1 ∨ m1 = 1 then
      if w0 = '0' ∨ w0 = '1' then
        if w1 = '0' ∨ w1 = '1' then
          some ⟨name, m0, m1, n0, n1, w0, w1⟩
        else none
      else none
    else none
  else none

/-! ## The `memo` decorator (framework.py, `memo`)

The cache maps a key (wrapped function identity plus argument tuple) to
either `none` — the Python `None` "pending" marker written before the
recursive computation starts — or a finished value.  A key absent from
the association list models `key not in self._memos`.  The final
`if not self._memos[key]` truthiness test is the `falsy` parameter
(`None` is always falsy; every value the builder memoizes is truthy). -/

/-- Memo cache: association list from keys to `none` (pending) / values. -/
abbrev MemoTable (K V : Type) := List (K × Option V)

/-- Error produced by the `assert False` after `print("recursion detected", ...)`:
it reports the message together with the offending key (function name and
arguments). -/
structure MemoError (K : Type) where
  message : String
  key : K
deriving DecidableEq, Repr

/-- One call through the `memo` wrapper.  `compute` is the body `func`;
it receives the table with the pending marker installed and returns the
value and an updated table. -/
def memoCall {K V : Type} [DecidableEq K] (falsy : V → Bool)
    (tbl : MemoTable K V) (key : K)
    (compute : MemoTable K V → V × MemoTable K V) :
    Except (MemoError K) (V × MemoTable K V) :=
  match (tbl.lookup key : Option (Option V)) with
  | none =>
      -- key not present: install pending marker, compute, store result
      let pending : MemoTable K V := (key, none) :: tbl
      let (v, tbl₂) := compute pending
      let tbl₃ : MemoTable K V := (key, some v) :: tbl₂
      if falsy v then .error ⟨"recursion detected", key⟩ else .ok (v, tbl₃)
  | some none =>
      -- pending marker found: `not None` fires the assertion
      .error ⟨"recursion detected", key⟩
  | some (some v) =>
      if falsy v then .error ⟨"recursion detected", key⟩ else .ok (v, tbl)

/-! ## cfg_optimizer (framework.py, `cfg_optimizer`)

Operation-sequence elements are `Label`, `Goto` or a compiled part; the
optimizer only inspects `Label`/`Goto`, so parts are kept abstract here
and instantiated later.  Python dict lookups that can `KeyError` are
`Option`-valued. -/

/-- Lookup in an association list built with "last write wins" dict
semantics: we always insert at the front, so `lookup` finds the newest
binding first, matching Python dict overwrite behaviour. -/
abbrev DictN (β : Type) := List (Nat × β)
abbrev DictS (β : Type) := List (String × β)

/-- An element of an operation sequence, as seen by `cfg_optimizer`:
a `Label`, a `Goto`, or any other (real) part drawn from `α`. -/
inductive CfgPart (α : Type) where
  | label (name : String)
  | goto (name : String)
  | part (a : α)
deriving DecidableEq, Repr

namespace CfgPart

/-- First pass of `cfg_optimizer`: build `label_map` (label name → insn
counter), `rlabel_map` (counter → label name) and `goto_map` (counter →
goto target), walking the sequence with a counter that counts only
non-label elements.  `labels` accumulates label names until the next
real instruction.  Returns the three maps and the final counter, with
the trailing-labels flush applied. -/
def buildMaps {α : Type} (parts : List (CfgPart α)) :
    DictS Nat × DictN String × DictN String :=
  go parts 0 [] [] [] []
where
  go : List (CfgPart α) → Nat → List String →
      DictS Nat → DictN String → DictN String →
      DictS Nat × DictN String × DictN String
  | [], counter, labels, lm, rlm, gm =>
      (labels.foldl (fun m l => (l, counter) :: m) lm,
       labels.foldl (fun m l => (counter, l) :: m) rlm,
       gm)
  | .label l :: rest, counter, labels, lm, rlm, gm =>
      go rest counter (labels ++ [l]) lm rlm gm
  | .goto g :: rest, counter, labels, lm, rlm, gm =>
      go rest (counter + 1) []
        (labels.foldl (fun m l => (l, counter) :: m) lm)
        (labels.foldl (fun m l => (counter, l) :: m) rlm)
        ((counter, g) :: gm)
  | .part a :: rest, counter, labels, lm, rlm, gm =>
      go rest (counter + 1) []
        (labels.foldl (fun m l => (l, counter) :: m) lm)
        (labels.foldl (fun m l => (counter, l) :: m) rlm)
        gm

end CfgPart

/-- The inner `follow` of `cfg_optimizer`, with its `for _ in range(10)`
loop as explicit fuel: thread a jump through `goto_map`/`label_map` at
most `fuel` times, stopping early when the counter is not a goto.
`label_map[...]` can `KeyError`, hence `Option`. -/
def followAux (gm : DictN String) (lm : DictS Nat) :
    Nat → Nat → Option Nat
  | 0, count => some count
  | fuel + 1, count =>
    match gm.lookup count with
    | none => some count
    | some g =>
      match lm.lookup g with
      | none => none
      | some c => followAux gm lm fuel c

/-- `follow` as called by `cfg_optimizer`: exactly 10 hops of fuel. -/
def followE (gm : DictN String) (lm : DictS Nat) (count : Nat) :
    Option Nat :=
  followAux gm lm 10 count

/-- A single jump-threading hop: `count` is a goto, and its target label
is bound; the hop lands on the label's instruction counter. -/
def hopFn (gm : DictN String) (lm : DictS Nat) (c : Nat) : Option Nat :=
  (gm.lookup c).bind fun g => lm.lookup g

/-- `HopsTo gm lm k c r`: from counter `c`, exactly `k` successful
jump-threading hops end at counter `r`. -/
def HopsTo (gm : DictN String) (lm : DictS Nat) :
    Nat → Nat → Nat → Prop
  | 0, c, r => c = r
  | k + 1, c, r => ∃ m, hopFn gm lm c = some m ∧ HopsTo gm lm k m r

/-- Second pass of `cfg_optimizer`: rewrite or delete `Goto`s.
A deleted `Goto` (`parts[index] = None`) is simply dropped, matching the
final `tuple(p for p in parts if p)` filter; all other elements are
truthy and survive the filter. -/
def transformAux {α : Type} (gm : DictN String) (lm : DictS Nat)
    (rlm : DictN String) :
    List (CfgPart α) → Nat → Option (List (CfgPart α))
  | [], _ => some []
  | .label l :: rest, counter =>
      (transformAux gm lm rlm rest counter).map (.label l :: ·)
  | .goto g :: rest, counter => do
      let gname ← gm.lookup counter
      let direct ← lm.lookup gname
      let goes ← followAux gm lm 10 direct
      let nextGoes ←
        (match gm.lookup (counter + 1) with
         | none => some none
         | some _ => (followAux gm lm 10 (counter + 1)).map some)
      let tail ← transformAux gm lm rlm rest (counter + 1)
      if goes = counter + 1 ∨ some goes = nextGoes then
        pure tail
      else if direct ≠ goes then do
        let newLabel ← rlm.lookup goes
        pure (.goto newLabel :: tail)
      else
        pure (.goto g :: tail)
  | .part a :: rest, counter =>
      (transformAux gm lm rlm rest (counter + 1)).map (.part a :: ·)

/-- Embedding of `cfg_optimizer`. -/
def cfgOptimizerE {α : Type} (parts : List (CfgPart α)) :
    Option (List (CfgPart α)) :=
  match CfgPart.buildMaps parts with
  | (lm, rlm, gm) => transformAux gm lm rlm parts 0

/-! ## Subroutines, parts and sizes (framework.py, `Subroutine`, `Label`, `Goto`)

`SubR` is the flat view of a compiled `Subroutine`: an entry state, an
order (it occupies `2 ^ order` PC values), a name and the
`is_decrement` flag.  Each primitive Subroutine additionally carries a
semantic tag recording what its entry states do at the register-machine
level; the tag is the glue between the compiled layout and the
register-machine semantics used below. -/

/-- Register-machine meaning of a primitive Subroutine. -/
inductive Sem where
  | inc (reg : Nat)
  | dec (reg : Nat)
  | jp (order rel : Nat)
  | rjp (rel : Int)
  | nop (order : Nat)
  | rinit
  | haltSem
  | ext (id : Nat)
deriving DecidableEq, Repr

/-- A compiled `Subroutine`, flat view. -/
structure SubR where
  entry : NextRef
  order : Nat
  name : String
  isDecrement : Bool
  sem : Sem
deriving DecidableEq, Repr

/-- `Subroutine.size = 1 << order`. -/
def SubR.size (s : SubR) : Nat := 2 ^ s.order

/-- Operation-sequence element fed to `makesub`. -/
abbrev MPart := CfgPart SubR

/-- `part.size`: `Label.size = 0`, `Goto.size = 1`, subroutines `2^order`. -/
def MPart.size : MPart → Nat
  | .label _ => 0
  | .goto _ => 1
  | .part s => s.size

/-- `noop(order)` (framework.py `MachineBuilder.noop`): an alignment
filler of `2 ^ order` slots.  It is `@memo`ized per order, so its entry
state id is a function of the order alone. -/
def noopE (order : Nat) : SubR :=
  { entry := .state order, order := order,
    name := "noop." ++ toString order, isDecrement := false,
    sem := .nop order }

/-- `jump(order, rel_pc, sub_name)` (framework.py `MachineBuilder.jump`):
a size-1 subprogram replacing a suffix of the PC.  The
`assert rel_pc < (1 << (order + 1))` is the `Option` guard.  Its
internal chain of states is not modelled; the `Sem.jp` tag records its
register-machine effect. -/
def jumpE (order rel : Nat) (subName : String) : Option SubR :=
  if rel < 2 ^ (order + 1) then
    some { entry := .state 0, order := 0,
           name := subName ++ ".jump(" ++ toString rel ++ "," ++ toString order ++ ")",
           isDecrement := false, sem := .jp order rel }
  else none

/-- `rjump(rel_pc)` (framework.py `MachineBuilder.rjump`): the
relative-jumps-mode branch subroutine, a size-1 PC adder. -/
def rjumpE (rel : Int) : SubR :=
  { entry := .state 0, order := 0, name := "rjump(" ++ toString rel ++ ")",
    isDecrement := false, sem := .rjp rel }

/-! ## Trailing zeros: `(offset & -offset).bit_length() - 1` -/

/-- Halving recursion for `tz`, with structural fuel (any fuel `≥ n`
gives the true value, see `tzGo_congr`). -/
def tzGo : Nat → Nat → Nat
  | 0, _ => 0
  | fuel + 1, n => if n % 2 = 1 ∨ n = 0 then 0 else tzGo fuel (n / 2) + 1

/-- Number of trailing zero bits of `n` (for `n > 0`); this is Python's
`(n & -n).bit_length() - 1`, the order of the largest correctly-placed
noop at offset `n`. -/
def tz (n : Nat) : Nat := tzGo n n

/-! ## Alignment and padding noop chains (`makesub` offset loops) -/

/-- Fueled body of the `while offset % part.size:` alignment loop; any
fuel `≥ po - tz offset` gives the loop's real output
(`alignGo_congr`). -/
def alignGo (po : Nat) : Nat → Nat → List Nat
  | 0, _ => []
  | fuel + 1, offset =>
    if offset % 2 ^ po = 0 then []
    else tz offset :: alignGo po fuel (offset + 2 ^ tz offset)

/-- The `while offset % part.size:` alignment loop of `makesub`: the
orders of the noops inserted before a part of order `po` placed at
`offset`.  (Part sizes are always powers of two, which is what makes
this loop terminate: the trailing-zero count strictly increases.) -/
def alignChunks (po offset : Nat) : List Nat := alignGo po po offset

/-- Fueled body of the `while offset < (1 << order):` padding loop; any
fuel `≥ target - offset` gives the loop's real output (`padGo_congr`). -/
def padGo (target : Nat) : Nat → Nat → List Nat
  | 0, _ => []
  | fuel + 1, offset =>
    if target ≤ offset then []
    else tz offset :: padGo target fuel (offset + 2 ^ tz offset)

/-- The `while offset < (1 << order):` padding loop of `makesub`: the
orders of the trailing noops rounding the subprogram up to `target`
(`= 2 ^ order`; `offset > 0` is guaranteed by the preceding assert). -/
def padChunks (target offset : Nat) : List Nat := padGo target target offset

/-! ## makesub (framework.py, `MachineBuilder.makesub`) -/

/-- `InsnInfo` as stored in a `Subroutine.child_map`: the resolved part
plus the label names and goto target recorded at its offset. -/
structure InsnInfo where
  sub : SubR
  labels : Option (List String)
  goto : Option String
deriving DecidableEq, Repr

/-- The binary string of `num`, MSB first, of length `bits` (the digit
string `'{num:0{bits}b}'.format(...)` produces). -/
def makeBits : Nat → Nat → List Bool
  | _, 0 => []
  | num, bits + 1 => num.testBit bits :: makeBits num bits

/-- `make_bits(num, bits)`: `makeBits` behind the
`assert num < (1 << bits)` guard. -/
def makeBitsE (num bits : Nat) : Option (List Bool) :=
  if num < 2 ^ bits then some (makeBits num bits) else none

/-- Numeric value of an MSB-first bit string. -/
def bitsVal : List Bool → Nat
  | [] => 0
  | b :: rest => (if b then 1 else 0) * 2 ^ rest.length + bitsVal rest

/-- Is this sequence element a `Label`? -/
def MPart.isLabel : MPart → Bool
  | .label _ => true
  | _ => false

/-- The label names of an operation sequence. -/
def labelNames : List MPart → List String
  | [] => []
  | .label l :: rest => l :: labelNames rest
  | _ :: rest => labelNames rest

/-- `chainTo off l fin`: walking the parts `l` from offset `off` places
every part at an offset that is a multiple of its own size, ends
exactly at `fin`, and meets no `Label`. -/
def chainTo : Nat → List MPart → Nat → Prop
  | off, [], fin => fin = off
  | off, p :: rest, fin =>
      p.isLabel = false ∧ off % p.size = 0 ∧ chainTo (off + p.size) rest fin

/-- `placedChain off placed fin`: the resolved `(offset, part)` pairs
tile `[off, fin)` contiguously, each part self-aligned. -/
def placedChain : Nat → List (Nat × SubR) → Nat → Prop
  | off, [], fin => fin = off
  | off, (o, s) :: rest, fin =>
      o = off ∧ off % s.size = 0 ∧ placedChain (off + s.size) rest fin

/-- State threaded through the first `for part in parts:` loop of
`makesub`: `label_offsets`, `label_map` (offset → list of label names,
in `setdefault(..).append(..)` order), `goto_map` (offset → goto name),
`real_parts`, and the running `offset`. -/
structure LayoutSt where
  labelOffsets : DictS Nat
  labelMap : DictN (List String)
  gotoMap : DictN String
  real : List MPart
  offset : Nat
deriving Repr

/-- `label_map.setdefault(offset, []).append(name)`. -/
def appendLabel (m : DictN (List String)) (off : Nat) (l : String) :
    DictN (List String) :=
  match m.lookup off with
  | none => (off, [l]) :: m
  | some ls => (off, ls ++ [l]) :: m

/-- One iteration of the first `makesub` loop.  A `Label` records its
offset and is not a real part.  A `Goto` records its target in
`goto_map` and occupies one slot (its alignment loop never runs since
its size is 1).  A Subroutine part is preceded by the alignment noops
of `alignChunks` and advances the offset by its size. -/
def layoutStep (st : LayoutSt) : MPart → LayoutSt
  | .label l =>
      { st with labelOffsets := (l, st.offset) :: st.labelOffsets,
                labelMap := appendLabel st.labelMap st.offset l }
  | .goto g =>
      { st with gotoMap := (st.offset, g) :: st.gotoMap,
                real := st.real ++ [.goto g],
                offset := st.offset + 1 }
  | .part s =>
      let chunks := alignChunks s.order st.offset
      let aligned := st.offset + (chunks.map (2 ^ ·)).sum
      { st with real := st.real ++ chunks.map (fun k => .part (noopE k)) ++ [.part s],
                offset := aligned + s.size }

/-- The first `makesub` loop over the whole (optimized) sequence. -/
def layoutWalk (parts : List MPart) : LayoutSt :=
  parts.foldl layoutStep ⟨[], [], [], [], 0⟩

/-- The `while True:` search for the jump order of one `Goto` in
`makesub` (`base = (offset >> jump_order) << jump_order`,
`rel = target - base`, stop when `0 ≤ rel < 2^(jump_order+1)`), with
fuel; `max offset target + 2` fuel always suffices (see
`findJump_isSome`). -/
def findJumpAux (offset target : Nat) : Nat → Nat → Option (Nat × Nat)
  | 0, _ => none
  | fuel + 1, jo =>
      let base := (offset >>> jo) <<< jo
      if base ≤ target ∧ target - base < 2 ^ (jo + 1) then
        some (jo, target - base)
      else
        findJumpAux offset target fuel (jo + 1)

/-- The jump-order search, fueled generously. -/
def findJump (offset target : Nat) : Option (Nat × Nat) :=
  findJumpAux offset target (max offset target + 2) 0

/-- The `jumps_required` collection loop of `makesub`: the
`(jump_order, rel)` pair of every `Goto` over the `real_parts` offset
walk.  `label_offsets[part.name]` can `KeyError`, hence `Option`. -/
def requiredJumps (labOffs : DictS Nat) :
    List MPart → Nat → Option (List (Nat × Nat))
  | [], _ => some []
  | .label _ :: rest, offset => requiredJumps labOffs rest offset
  | .goto g :: rest, offset => do
      let target ← labOffs.lookup g
      let jr ← findJump offset target
      let tail ← requiredJumps labOffs rest (offset + 1)
      pure (jr :: tail)
  | .part s :: rest, offset => requiredJumps labOffs rest (offset + s.size)

/-- The `for jump_order in range(order + 1):` selection loop for one
`Goto`: walk orders upward; whenever `(jump_order, rel)` is in
`jumps_required`, remember it, breaking immediately only for
`jump_order < 3` (otherwise the largest required order wins).  The
structural fuel counts the remaining loop iterations
(`order + 1 - jo`). -/
def selJumpGo (required : List (Nat × Nat)) (offset target order : Nat) :
    Nat → Nat → Option (Nat × Nat) → Option (Nat × Nat)
  | 0, _, acc => acc
  | fuel + 1, jo, acc =>
    if order < jo then acc
    else
      let base := (offset >>> jo) <<< jo
      if base ≤ target ∧ (jo, target - base) ∈ required then
        if jo < 3 then some (jo, target - base)
        else selJumpGo required offset target order fuel (jo + 1)
          (some (jo, target - base))
      else selJumpGo required offset target order fuel (jo + 1) acc

/-- Jump selection for one `Goto`, starting with `part = None`. -/
def selectJump (required : List (Nat × Nat)) (offset target order : Nat) :
    Option (Nat × Nat) :=
  selJumpGo required offset target order (order + 1) 0 none

/-- The second `for part in real_parts:` loop of `makesub`: replace
each `Goto` by its branch Subroutine (an `rjump` in relative-jumps
mode, else the selected `jump`, whose `assert part` and
`assert rel_pc < ...` are the `Option` guards) and record each placed
part with its offset. -/
def resolveParts (labOffs : DictS Nat) (required : List (Nat × Nat))
    (order : Nat) (name : String) (relativeJumps : Bool) :
    List MPart → Nat → Option (List (Nat × SubR))
  | [], _ => some []
  | .label _ :: rest, offset =>
      resolveParts labOffs required order name relativeJumps rest offset
  | .goto g :: rest, offset => do
      let target ← labOffs.lookup g
      let part ←
        if relativeJumps then
          some (rjumpE ((target : Int) - (offset : Int)))
        else do
          let (jo, rel) ← selectJump required offset target order
          jumpE jo rel name
      let tail ← resolveParts labOffs required order name relativeJumps rest
        (offset + part.size)
      pure ((offset, part) :: tail)
  | .part s :: rest, offset => do
      let tail ← resolveParts labOffs required order name relativeJumps rest
        (offset + s.size)
      pure ((offset, s) :: tail)

/-- Build `child_map` from the placed parts:
`child_map[make_bits(offset >> part.order, order - part.order)] =
InsnInfo(part, label_map.get(offset), goto_map.get(offset))`.
The keys are provably distinct, so insertion order is kept. -/
def buildChildMap (labelMap : DictN (List String)) (gotoMap : DictN String)
    (order : Nat) :
    List (Nat × SubR) → Option (List (List Bool × InsnInfo))
  | [] => some []
  | (off, s) :: rest => do
      let key ← makeBitsE (off >>> s.order) (order - s.order)
      let tail ← buildChildMap labelMap gotoMap order rest
      pure ((key, ⟨s, labelMap.lookup off, gotoMap.lookup off⟩) :: tail)

/-- `make_dispatcher(child_map, name, order, at_prefix)`: route to the
child whose key is the current prefix, else allocate a fresh switch
`State()` (ids from the threaded counter, allocated before the two
recursive calls, as in the Python evaluation order) and recurse on both
bit extensions.  `assert len(at_prefix) <= order` is the guard; the
structural fuel bounds the recursion depth, which the assert caps at
`order + 1 - len(at_prefix)` levels below the current prefix. -/
def makeDispatcherGo (childMap : List (List Bool × InsnInfo)) (name : String)
    (order : Nat) : Nat → List Bool → Nat → Option (NextRef × Nat)
  | 0, _, _ => none
  | fuel + 1, pre, ctr =>
    match childMap.lookup pre with
    | some info => some (info.sub.entry, ctr)
    | none =>
      if order < pre.length then none
      else do
        let (e0, c1) ← makeDispatcherGo childMap name order fuel
          (pre ++ [false]) (ctr + 1)
        let (e1, c2) ← makeDispatcherGo childMap name order fuel
          (pre ++ [true]) c1
        some (.state ctr, c2)

/-- `make_dispatcher` as `makesub` calls it: from the empty prefix, with
fuel `order + 2` (enough for the full tree plus the failing assert
level). -/
def makeDispatcher (childMap : List (List Bool × InsnInfo)) (name : String)
    (order : Nat) (ctr : Nat) : Option (NextRef × Nat) :=
  makeDispatcherGo childMap name order (order + 2) [] ctr

/-- The `order = 0; while offset > 1 << order: order += 1` search of
`makesub`, with structural fuel (`offset` iterations always suffice
since `offset ≤ 2 ^ offset`). -/
def ordGo (offset : Nat) : Nat → Nat → Nat
  | 0, order => order
  | fuel + 1, order =>
    if offset ≤ 2 ^ order then order else ordGo offset fuel (order + 1)

/-- The order assigned by `makesub`: the least `order` with
`offset ≤ 2 ^ order`. -/
def ordOf (offset : Nat) : Nat := ordGo offset offset 0

/-- `reg_init`'s Subroutine (order 0); only its size matters to layout. -/
def regInitSub : SubR :=
  { entry := .state 0, order := 0, name := "reg_init",
    isDecrement := false, sem := .rinit }

/-- The `while regcount & (regcount - 1): regcount += 1` rounding in the
`main()` branch of `makesub`: increment the register count until it is
a power of two (or zero).  The next power of two is at most `2 * n`,
so `n + 1` iterations of fuel always suffice. -/
def regPadGo : Nat → Nat → Nat
  | 0, n => n
  | fuel + 1, n => if n &&& (n - 1) = 0 then n else regPadGo fuel (n + 1)

/-- `regcount` after the `main()` rounding loop. -/
def regPad (n : Nat) : Nat := regPadGo (n + 1) n

/-- The result of `makesub`: a `Subroutine` wrapping the dispatch-tree
root, the order and the child map; `placed` is the offset ↦ resolved
part association underlying the child map, kept for the semantics. -/
structure SubFull where
  entry : NextRef
  order : Nat
  name : String
  childMap : List (List Bool × InsnInfo)
  placed : List (Nat × SubR)
deriving DecidableEq, Repr

/-- The operation sequence `makesub` actually lays out: the input after
the optional `cfg_optimizer` pre-pass, with the `main()` register
initializers prepended. -/
def effectiveParts (nextreg : Nat) (noCfgOptimize : Bool)
    (parts : List MPart) (name : String) : Option (List MPart) := do
  let parts₁ ← if noCfgOptimize then some parts else cfgOptimizerE parts
  pure (if name = "main()" then
      List.replicate (regPad nextreg) (CfgPart.part regInitSub) ++ parts₁
    else parts₁)

/-- The layout stages of `MachineBuilder.makesub` (everything up to and
including building `child_map`; nothing here allocates states).
`nextreg` is `self._nextreg`; `noCfgOptimize`/`relativeJumps` are the
two `control_args` flags.  `assert offset > 0` and the per-stage
asserts are `Option` guards; the `order` search loop computes the least
`order` with `offset ≤ 2^order` (`ordOf`).  Returns the order, the
child map and the placed-parts view of the child map. -/
def makesubLayout (nextreg : Nat) (noCfgOptimize relativeJumps : Bool)
    (parts : List MPart) (name : String) :
    Option (Nat × List (List Bool × InsnInfo) × List (Nat × SubR)) := do
  let parts₂ ← effectiveParts nextreg noCfgOptimize parts name
  let st := layoutWalk parts₂
  if st.offset = 0 then none
  else
    let order := ordOf st.offset
    let padded := st.real ++
      (padChunks (2 ^ order) st.offset).map fun k => CfgPart.part (noopE k)
    let required ← requiredJumps st.labelOffsets padded 0
    let placed ← resolveParts st.labelOffsets required order name relativeJumps
      padded 0
    let cm ← buildChildMap st.labelMap st.gotoMap order placed
    pure (order, cm, placed)

/-- Full embedding of `MachineBuilder.makesub`: the layout stages,
then `make_dispatcher` over the finished child map.  `ctr` is the
fresh-id counter modelling `State()` allocation (threaded so that
distinct calls allocate distinct states). -/
def makesubE (nextreg : Nat) (noCfgOptimize relativeJumps : Bool)
    (parts : List MPart) (name : String) (ctr : Nat) :
    Option (SubFull × Nat) :=
  match makesubLayout nextreg noCfgOptimize relativeJumps parts name with
  | none => none
  | some (order, cm, placed) =>
    match makeDispatcher cm name order ctr with
    | none => none
    | some (entry, ctrF) => some (⟨entry, order, name, cm, placed⟩, ctrF)


/-! ## Concrete instances used by witnesses and counterexamples -/

/-- A concrete order-0 part (an increment of register 0). -/
def cexA : SubR :=
  { entry := .state 500, order := 0, name := "A", isDecrement := false,
    sem := .inc 0 }

/-- A concrete order-0 part (an increment of register 1). -/
def cexB : SubR :=
  { entry := .state 600, order := 0, name := "B", isDecrement := false,
    sem := .inc 1 }

/-- A two-part operation sequence with no labels or gotos. -/
def cexParts : List MPart := [.part cexA, .part cexB]

/-- Fallback value used to read concrete `makesubE` results. -/
def subFullDefault : SubFull × Nat := (⟨.halt, 0, "", [], []⟩, 0)

/-- First `makesubE` call on `cexParts` (fresh-id counter 100). -/
def cexR1 : SubFull × Nat :=
  (makesubE 0 true false cexParts "f" 100).getD subFullDefault

/-- Second, identical `makesubE` call, continuing the id counter. -/
def cexR1b : SubFull × Nat :=
  (makesubE 0 true false cexParts "f" cexR1.2).getD subFullDefault

/-- An identical `makesubE` call from an unrelated id counter. -/
def cexR2 : SubFull × Nat :=
  (makesubE 0 true false cexParts "f" 200).getD subFullDefault



/-- A concrete order-1 part (so that `cexMisParts` needs an alignment
noop and padding). -/
def cexC : SubR :=
  { entry := .state 700, order := 1, name := "C", isDecrement := false,
    sem := .inc 2 }

/-- A misaligned sequence: an order-0 part followed by an order-1 part,
forcing one alignment noop and one padding noop. -/
def cexMisParts : List MPart := [.part cexA, .part cexC]

/-- The `makesubE` result on the misaligned sequence. -/
def cexMisR : SubFull × Nat :=
  (makesubE 0 true false cexMisParts "u" 100).getD subFullDefault

/-- A sequence with a backward goto to a bound label. -/
def cexGParts : List MPart := [.label "L", .part cexA, .goto "L"]


/-! ## Machine.compress (framework.py, `Machine.reachable`, `Machine.compress`)

The generated Turing machine graph: states identified by ids, with the
six transition fields of an initialized `State`.  `next` pointers are
`none` for the `Halt` sentinel.  An id absent from the map plays the
role of an uninitialized (`not state.set`) state, which `reachable`
skips. -/

/-- The six transition fields of one machine state. -/
structure StRec where
  next0 : Option Nat
  next1 : Option Nat
  write0 : Bool
  write1 : Bool
  move0 : Int
  move1 : Int
deriving DecidableEq, Repr

/-- The machine graph seen by `compress`: an entry id and the states. -/
structure MachineG where
  entry : Nat
  states : List (Nat × StRec)
deriving DecidableEq, Repr

/-- Number of state ids not yet seen, the primary termination measure
of the `reachable` depth-first walk. -/
def unseenCount (m : MachineG) (seen : List Nat) : Nat :=
  ((m.states.map Prod.fst).filter fun j => decide (j ∉ seen)).length

/-- `Machine.reachable()`: depth-first walk with an explicit stack,
popping from the top; pushing `next1` then `next0` makes `next0` come
out first.  `Halt` (`none`), already-seen ids and uninitialized ids
are skipped; `seen` accumulates ids in visit order.  The structural
fuel bounds the iteration count: every step decreases
`2 * unseenCount + |queue|` (see `reachGoF_congr`), so the initial
fuel in `reachableM` is always enough. -/
def reachGoF (m : MachineG) : Nat → List Nat → List (Option Nat) → List Nat
  | 0, seen, _ => seen
  | _ + 1, seen, [] => seen
  | fuel + 1, seen, none :: queue => reachGoF m fuel seen queue
  | fuel + 1, seen, some i :: queue =>
    if i ∈ seen then reachGoF m fuel seen queue
    else
      match m.states.lookup i with
      | none => reachGoF m fuel seen queue
      | some st => reachGoF m fuel (seen ++ [i]) (st.next0 :: st.next1 :: queue)

/-- The reachable-state id list of a machine, in visit order. -/
def reachableM (m : MachineG) : List Nat :=
  reachGoF m (2 * unseenCount m [] + 1) [] [some m.entry]

/-- The grouping key of `compress`:
`(next0, next1, write0, write1, move0, move1)`. -/
def stTuple (st : StRec) :
    Option Nat × Option Nat × Bool × Bool × Int × Int :=
  (st.next0, st.next1, st.write0, st.write1, st.move0, st.move1)

/-- The first loop of one `compress` pass: walk the reachable states in
order; the first state with a given tuple enters `unique_map`, each
later one maps to that representative in `replacement_map`. -/
def buildReplacement (m : MachineG) : List (Nat × Nat) :=
  go (reachableM m) [] []
where
  go : List Nat →
      List ((Option Nat × Option Nat × Bool × Bool × Int × Int) × Nat) →
      List (Nat × Nat) → List (Nat × Nat)
  | [], _, repl => repl
  | i :: rest, uniq, repl =>
    match m.states.lookup i with
    | none => go rest uniq repl
    | some st =>
      match uniq.lookup (stTuple st) with
      | some j => go rest uniq ((i, j) :: repl)
      | none => go rest ((stTuple st, i) :: uniq) repl

/-- Apply the replacement map to one next-pointer
(`if state.nextX in replacement_map: state.nextX = ...`). -/
def replPtr (repl : List (Nat × Nat)) : Option Nat → Option Nat
  | none => none
  | some j =>
    match repl.lookup j with
    | some k => some k
    | none => some j

/-- One full iteration of the `while True:` body of `compress`: build
the replacement map, rewrite the next-pointers of every reachable
state and the entry, and report whether anything changed
(`did_work`). -/
def onePass (m : MachineG) : MachineG × Bool :=
  let reach := reachableM m
  let repl := buildReplacement m
  let did :=
    (m.states.any fun p =>
      decide (p.1 ∈ reach) &&
        ((p.2.next0.bind repl.lookup).isSome ||
         (p.2.next1.bind repl.lookup).isSome)) ||
    (repl.lookup m.entry).isSome
  let states' := m.states.map fun p =>
    if p.1 ∈ reach then
      (p.1, { p.2 with next0 := replPtr repl p.2.next0,
                       next1 := replPtr repl p.2.next1 })
    else p
  let entry' :=
    match repl.lookup m.entry with
    | some k => k
    | none => m.entry
  (⟨entry', states'⟩, did)

/-- `Machine.compress()`: iterate `onePass` until `did_work` is false.
The Python loop is unbounded (`while True:`), so the embedding carries
fuel and returns `none` when the fuel runs out before the fixpoint. -/
def compressLoop : Nat → MachineG → Option MachineG
  | 0, _ => none
  | fuel + 1, m =>
    match onePass m with
    | (mNew, did) => if did then compressLoop fuel mNew else some mNew


/-- A machine with two equivalent states (1 and 2): `compress` fodder. -/
def cexMachine : MachineG :=
  ⟨0, [(0, ⟨some 1, some 2, false, true, 1, 1⟩),
       (1, ⟨none, none, false, false, 1, 1⟩),
       (2, ⟨none, none, false, false, 1, 1⟩)]⟩

/-- The fixpoint `compress` reaches on `cexMachine`. -/
def cexMachineFix : MachineG := (compressLoop 3 cexMachine).getD ⟨0, []⟩


/-! ## transfer (framework.py, `MachineBuilder.transfer`) and the
register-machine semantics of a placed subprogram

`transfer(source, *to)` builds
`makesub(Label('again'), source.dec, Goto('zero'),
*( [t.inc for t in sorted(to)] + [Goto('again'), Label('zero')] ),
name=...)`.  `source.dec`/`t.inc` are the order-0 `reg_decr`/`reg_incr`
Subroutines made by `register`.  The run of the finished subprogram is
modelled by `rmStep`: the dispatcher routes the PC to the unique placed
part whose slot range contains it, and each primitive part acts on the
PC and the registers as its Turing states do: `reg_incr` increments the
register and re-enters at PC+1; `reg_decr` re-enters at PC+1 leaving a
zero register unchanged, else decrements and re-enters at PC+2;
`jump(order, rel)` replaces the PC by `((pc >> order) << order) + rel`;
`noop(order)` adds `2^order` to the PC. -/

/-- The `reg_incr` Subroutine of register `idx`
(`Subroutine(self.reg_incr(index), 0, 'reg_incr(..)')`). -/
def regIncS (idx : Nat) : SubR :=
  { entry := .state (1000 + idx), order := 0,
    name := "reg_incr", isDecrement := false, sem := .inc idx }

/-- The `reg_decr` Subroutine of register `idx`
(`Subroutine(self.reg_decr(index), 0, 'reg_decr(..)',
is_decrement=True)`). -/
def regDecS (idx : Nat) : SubR :=
  { entry := .state (2000 + idx), order := 0,
    name := "reg_decr", isDecrement := true, sem := .dec idx }

/-- The operation sequence `transfer` passes to `makesub` (the target
list stands for `sorted(to)`). -/
def transferParts (src : Nat) (targets : List Nat) : List MPart :=
  [.label "again", .part (regDecS src), .goto "zero"] ++
    (targets.map regIncS).map CfgPart.part ++
    [.goto "again", .label "zero"]

/-- The placement of a block of parts at consecutive self-sized
offsets. -/
def partsPlaced : List SubR → Nat → List (Nat × SubR)
  | [], _ => []
  | s :: rest, off => (off, s) :: partsPlaced rest (off + s.size)

/-- Apply one `reg_incr` per listed register, left to right. -/
def incAll : List Nat → (Nat → Nat) → (Nat → Nat)
  | [], regs => regs
  | t :: ts, regs => incAll ts (fun i => if i = t then regs i + 1 else regs i)

/-- The register file after a completed `transfer(src, targets...)`. -/
def finalRegs (src : Nat) (ts : List Nat) (regs : Nat → Nat) : Nat → Nat :=
  fun r => if r = src then 0 else if r ∈ ts then regs r + regs src else regs r

/-- The placed part whose slot range contains the PC (what the dispatch
tree computes). -/
def rmFind (placed : List (Nat × SubR)) (pc : Nat) : Option (Nat × SubR) :=
  placed.find? fun pr => decide (pr.1 ≤ pc) && decide (pc < pr.1 + pr.2.size)

/-- One primitive step of a placed subprogram on `(pc, registers)`. -/
def rmStep (placed : List (Nat × SubR)) (s : Nat × (Nat → Nat)) :
    Option (Nat × (Nat → Nat)) :=
  match rmFind placed s.1 with
  | none => none
  | some (_, sub) =>
    match sub.sem with
    | .inc r => some (s.1 + 1, fun i => if i = r then s.2 i + 1 else s.2 i)
    | .dec r =>
        if s.2 r = 0 then some (s.1 + 1, s.2)
        else some (s.1 + 2, fun i => if i = r then s.2 i - 1 else s.2 i)
    | .jp jo rel => some ((s.1 >>> jo) <<< jo + rel, s.2)
    | .nop k => some (s.1 + 2 ^ k, s.2)
    | _ => none

/-- `k` primitive steps. -/
def rmSteps (placed : List (Nat × SubR)) :
    Nat → Nat × (Nat → Nat) → Option (Nat × (Nat → Nat))
  | 0, s => some s
  | k + 1, s => (rmStep placed s).bind (rmSteps placed k)

/-- How the resolved placement relates, element by element, to the
operation sequence it came from: parts are placed as themselves, and
each `Goto` becomes a prefix-patch jump that lands exactly on its
label's offset when executed at its own offset. -/
def PartsSem (labOffs : DictS Nat) :
    List MPart → Nat → List (Nat × SubR) → Prop
  | [], _, placed => placed = []
  | .label _ :: rest, off, placed => PartsSem labOffs rest off placed
  | .goto g :: rest, off, placed =>
      ∃ jsub tail target, placed = (off, jsub) :: tail ∧
        labOffs.lookup g = some target ∧ jsub.order = 0 ∧
        (∃ jo rel, jsub.sem = .jp jo rel ∧
          (off >>> jo) <<< jo + rel = target) ∧
        PartsSem labOffs rest (off + 1) tail
  | .part s :: rest, off, placed =>
      ∃ tail, placed = (off, s) :: tail ∧
        PartsSem labOffs rest (off + s.size) tail



/-! ## reg_decr at the Turing-machine level (framework.py,
`MachineBuilder.reg_decr`, `register_common`, `dispatch_order`,
`nextstate`, `nextstate_2`)

The states below are the Turing states reachable while one `reg_decr`
leaf proc runs, translated field by field from their `be()` calls.
`dskip j` is the `reg_decr(index)` chain (`move=1, next1=self,
next0=reg_decr(index-1)`), with `dskip 0` playing `reg_decr(-1)` whose
`next0` is `register_common().dec`.  The tape is `Int → Bool`
('0'/'1' cells); `dispatch o c` is `dispatch_order(o, c)` and `droot`
is `dispatchroot`, where this analysis stops. -/

/-- The Turing states of one `reg_decr` run. -/
inductive DState where
  | dskip (j : Nat)
  | decInit | decCheck | decScan1 | decScan0 | decScanDone
  | decShift0 | decShift1 | decRestore
  | ret0 | ret1 | ret20 | ret21
  | nextstate2
  | dispatch (order : Nat) (carry : Bool)
  | droot
deriving DecidableEq, Repr

/-- One Turing step of the `reg_decr` fragment (`pc_bits = N`).  Each
case is one `be()` call: read the cell, write (default: write back),
move, and enter `next0`/`next1`. -/
def dstep (N : Nat) : DState × Int × (Int → Bool) →
    DState × Int × (Int → Bool)
  | (st, p, t) =>
    match st with
    | .dskip j =>
        if t p then (.dskip j, p + 1, t)
        else ((match j with | 0 => .decInit | j2 + 1 => .dskip j2), p + 1, t)
    | .decInit => (.decCheck, p + 1, Function.update t p false)
    | .decCheck =>
        if t p then (.decScan1, p + 1, t) else (.decRestore, p - 1, t)
    | .decScan1 =>
        if t p then (.decScan1, p + 1, t) else (.decScan0, p + 1, t)
    | .decScan0 =>
        if t p then (.decScan1, p + 1, t) else (.decScanDone, p - 1, t)
    | .decScanDone => (.decShift0, p - 1, t)
    | .decShift0 =>
        if t p then (.decShift1, p - 1, Function.update t p false)
        else (.ret20, p - 1, Function.update t p false)
    | .decShift1 =>
        if t p then (.decShift1, p - 1, Function.update t p true)
        else (.decShift0, p - 1, Function.update t p true)
    | .decRestore => (.ret1, p - 1, Function.update t p true)
    | .ret0 =>
        if t p then (.ret1, p - 1, t) else (.dispatch 0 true, p - 1, t)
    | .ret1 =>
        if t p then (.ret1, p - 1, t) else (.ret0, p - 1, t)
    | .ret20 =>
        if t p then (.ret21, p - 1, t) else (.nextstate2, p - 1, t)
    | .ret21 =>
        if t p then (.ret21, p - 1, t) else (.ret20, p - 1, t)
    | .nextstate2 => (.dispatch 1 true, p - 1, t)
    | .dispatch o c =>
        if o = N then (.droot, p + 1, t)
        else if c then
          if t p then (.dispatch (o + 1) true, p - 1, Function.update t p false)
          else (.dispatch (o + 1) false, p - 1, Function.update t p true)
        else (.dispatch (o + 1) false, p - 1, t)
    | .droot => (.droot, p, t)

/-- Iterated Turing steps. -/
def dsteps (N : Nat) : Nat → DState × Int × (Int → Bool) →
    DState × Int × (Int → Bool)
  | 0, c => c
  | n + 1, c => dsteps N n (dstep N c)

/-- A tape whose cells from position 0 hold the list, blank (`'0'`)
elsewhere. -/
def tapeOf (l : List Bool) : Int → Bool :=
  fun p => if p < 0 then false else l.getD p.toNat false

/-- The unary register file: each register `v` is `1^(v+1) 0`. -/
def regCells : List Nat → List Bool
  | [] => []
  | v :: vs => List.replicate (v + 1) true ++ false :: regCells vs

/-- The well-formed tape: the PC MSB-first in cells `0..N-1`, two
fence zeros, then the registers. -/
def encList (N pc : Nat) (vs : List Nat) : List Bool :=
  makeBits pc N ++ false :: false :: regCells vs

/-- The shift loop's state, by the bit it carries
(`dec_shift_0`/`dec_shift_1`). -/
def shiftSt (b : Bool) : DState := if b then .decShift1 else .decShift0

/-- No two adjacent blank cells (the shift loop keeps running). -/
def pairOK : List Bool → Prop
  | [] => True
  | [_] => True
  | a :: b :: rest => (a = false → b = true) ∧ pairOK (b :: rest)

/-- The register file written with its terminators on the left
(`0 1^(v+1)` per register): `false :: regCells vs = rcInit vs ++
[false]`, the view the left-moving scans and the shift loop use. -/
def rcInit : List Nat → List Bool
  | [] => []
  | v :: vs => false :: (List.replicate (v + 1) true ++ rcInit vs)


/-! ## Theorems

All proofs about the embedded definitions, ending with the claim
theorems. -/

/-- `followAux` only performs jump-threading hops, and at most as many
as its fuel allows. -/
theorem followAux_hopsTo (gm : DictN String) (lm : DictS Nat) :
    ∀ (fuel c r : Nat), followAux gm lm fuel c = some r →
      ∃ k, k ≤ fuel ∧ HopsTo gm lm k c r := by
  intro fuel
  induction fuel with
  | zero =>
      intro c r h
      exact ⟨0, Nat.le_refl 0, by simpa [followAux] using h⟩
  | succ n ih =>
      intro c r h
      rw [followAux] at h
      cases hg : gm.lookup c with
      | none =>
          simp only [hg] at h
          exact ⟨0, Nat.zero_le _, by simpa using h⟩
      | some g =>
          simp only [hg] at h
          cases hl : lm.lookup g with
          | none => simp only [hl] at h; exact Option.noConfusion h
          | some c' =>
              simp only [hl] at h
              obtain ⟨k, hk, hh⟩ := ih c' r h
              exact ⟨k + 1, Nat.succ_le_succ hk,
                ⟨c', by simp [hopFn, hg, hl], hh⟩⟩

theorem tzGo_congr : ∀ (n f g : Nat), n ≤ f → n ≤ g → tzGo f n = tzGo g n := by
  intro n
  induction n using Nat.strong_induction_on with
  | _ n ih =>
    intro f g hf hg
    match f, g with
    | 0, 0 => rfl
    | 0, g + 1 =>
        have : n = 0 := by omega
        simp [tzGo, this]
    | f + 1, 0 =>
        have : n = 0 := by omega
        simp [tzGo, this]
    | f + 1, g + 1 =>
        rw [tzGo, tzGo]
        split
        · rfl
        · rename_i h
          push_neg at h
          have h2 : n / 2 < n := Nat.div_lt_self (Nat.pos_of_ne_zero h.2) one_lt_two
          rw [ih (n / 2) h2 f g (by omega) (by omega)]

/-- The defining recursion of `tz`. -/
theorem tz_eq (n : Nat) :
    tz n = if n % 2 = 1 ∨ n = 0 then 0 else tz (n / 2) + 1 := by
  cases n with
  | zero => simp [tz, tzGo]
  | succ m =>
    show tzGo (m + 1) (m + 1) = _
    rw [tzGo]
    split
    · rfl
    · rename_i h
      push_neg at h
      have h2 : (m + 1) / 2 ≤ m := by omega
      show tzGo m ((m + 1) / 2) + 1 = tz ((m + 1) / 2) + 1
      rw [tzGo_congr ((m + 1) / 2) m ((m + 1) / 2) h2 (le_refl _)]
      rfl

theorem two_pow_tz_dvd (n : Nat) : 2 ^ tz n ∣ n := by
  induction n using Nat.strong_induction_on with
  | _ n ih =>
    rw [tz_eq]
    split
    · rename_i h
      rcases h with h | h
      · exact Dvd.intro n (by simp)
      · simp [h]
    · rename_i h
      push_neg at h
      have hlt : n / 2 < n := Nat.div_lt_self (Nat.pos_of_ne_zero h.2) one_lt_two
      obtain ⟨c, hc⟩ := ih (n / 2) hlt
      generalize hT : tz (n / 2) = t at hc ⊢
      refine ⟨c, ?_⟩
      have h2 : n % 2 = 0 := by omega
      calc n = 2 * (n / 2) := by omega
        _ = 2 * (2 ^ t * c) := by rw [hc]
        _ = 2 ^ (t + 1) * c := by ring

theorem not_two_pow_tz_succ_dvd (n : Nat) (hn : n ≠ 0) :
    ¬ 2 ^ (tz n + 1) ∣ n := by
  induction n using Nat.strong_induction_on with
  | _ n ih =>
    rw [tz_eq]
    split
    · rename_i h
      rcases h with h | h
      · intro hd
        have : 2 ∣ n := dvd_trans (by norm_num) hd
        omega
      · exact absurd h hn
    · rename_i h
      push_neg at h
      have hlt : n / 2 < n := Nat.div_lt_self (Nat.pos_of_ne_zero h.2) one_lt_two
      have hhalf : n / 2 ≠ 0 := by omega
      intro hd
      apply ih (n / 2) hlt hhalf
      generalize hT : tz (n / 2) = t at hd ⊢
      obtain ⟨c, hc⟩ := hd
      refine ⟨c, ?_⟩
      have h2 : n % 2 = 0 := by omega
      have hexp : 2 ^ (t + 1 + 1) * c = 2 * (2 ^ (t + 1) * c) := by ring
      omega

theorem le_tz_of_dvd (k n : Nat) (hn : n ≠ 0) (hd : 2 ^ k ∣ n) : k ≤ tz n := by
  by_contra hlt
  push_neg at hlt
  exact not_two_pow_tz_succ_dvd n hn
    (dvd_trans (pow_dvd_pow 2 (by omega)) hd)

theorem tz_lt_of_mod_ne (po n : Nat) (h : n % 2 ^ po ≠ 0) : tz n < po := by
  by_contra hge
  push_neg at hge
  apply h
  obtain ⟨c, rfl⟩ := dvd_trans (pow_dvd_pow 2 hge) (two_pow_tz_dvd n)
  exact Nat.mul_mod_right _ _

theorem tz_add_pow_tz_lt (n : Nat) (hn : n ≠ 0) :
    tz n < tz (n + 2 ^ tz n) := by
  obtain ⟨d, hdd⟩ := two_pow_tz_dvd n
  generalize hT : tz n = t at hdd ⊢
  have hodd : d % 2 = 1 := by
    rcases Nat.mod_two_eq_zero_or_one d with h2 | h2
    · exfalso
      apply not_two_pow_tz_succ_dvd n hn
      rw [hT]
      refine ⟨d / 2, ?_⟩
      have he : d = 2 * (d / 2) := by omega
      calc n = 2 ^ t * d := hdd
        _ = 2 ^ t * (2 * (d / 2)) := by rw [← he]
        _ = 2 ^ (t + 1) * (d / 2) := by ring
    · exact h2
  have hsum : n + 2 ^ t = 2 ^ (t + 1) * ((d + 1) / 2) := by
    have he : d + 1 = 2 * ((d + 1) / 2) := by omega
    calc n + 2 ^ t = 2 ^ t * d + 2 ^ t := by rw [hdd]
      _ = 2 ^ t * (d + 1) := by ring
      _ = 2 ^ t * (2 * ((d + 1) / 2)) := by rw [← he]
      _ = 2 ^ (t + 1) * ((d + 1) / 2) := by ring
  have hne : n + 2 ^ t ≠ 0 := by positivity
  have := le_tz_of_dvd (t + 1) (n + 2 ^ t) hne ⟨(d + 1) / 2, hsum⟩
  omega

theorem alignGo_congr (po : Nat) : ∀ (f g offset : Nat),
    po - tz offset ≤ f → po - tz offset ≤ g →
    alignGo po f offset = alignGo po g offset := by
  intro f
  induction f using Nat.strong_induction_on with
  | _ f ih =>
    intro g offset hf hg
    have hexit : po ≤ tz offset → offset % 2 ^ po = 0 := by
      intro hle
      obtain ⟨c, rfl⟩ := dvd_trans (pow_dvd_pow 2 hle) (two_pow_tz_dvd offset)
      exact Nat.mul_mod_right _ _
    match f, g with
    | 0, 0 => rfl
    | 0, g + 1 => simp [alignGo, hexit (by omega)]
    | f + 1, 0 => simp [alignGo, hexit (by omega)]
    | f + 1, g + 1 =>
        rw [alignGo, alignGo]
        split
        · rfl
        · rename_i h
          have h1 : tz offset < po := tz_lt_of_mod_ne po offset h
          have h2 : tz offset < tz (offset + 2 ^ tz offset) :=
            tz_add_pow_tz_lt offset (by intro h0; subst h0; simp at h)
          rw [ih f (by omega) g (offset + 2 ^ tz offset) (by omega) (by omega)]

/-- The defining recursion of `alignChunks`. -/
theorem alignChunks_eq (po offset : Nat) :
    alignChunks po offset =
      if offset % 2 ^ po = 0 then []
      else tz offset :: alignChunks po (offset + 2 ^ tz offset) := by
  by_cases hz : offset % 2 ^ po = 0
  · simp only [hz, if_true]
    cases po with
    | zero => rfl
    | succ p =>
        show alignGo (p + 1) (p + 1) offset = []
        rw [alignGo]
        simp [hz]
  · have h1 : tz offset < po := tz_lt_of_mod_ne po offset hz
    have hoff : offset ≠ 0 := by intro h0; subst h0; simp at hz
    have h2 : tz offset < tz (offset + 2 ^ tz offset) := tz_add_pow_tz_lt offset hoff
    simp only [hz, if_false]
    cases po with
    | zero => omega
    | succ p =>
        show alignGo (p + 1) (p + 1) offset = _
        rw [alignGo]
        simp only [hz, if_false]
        rw [alignGo_congr (p + 1) p (p + 1) (offset + 2 ^ tz offset)
          (by omega) (by omega)]
        rfl

theorem padGo_congr (target : Nat) : ∀ (f g offset : Nat),
    target - offset ≤ f → target - offset ≤ g →
    padGo target f offset = padGo target g offset := by
  intro f
  induction f using Nat.strong_induction_on with
  | _ f ih =>
    intro g offset hf hg
    match f, g with
    | 0, 0 => rfl
    | 0, g + 1 => simp [padGo, show target ≤ offset by omega]
    | f + 1, 0 => simp [padGo, show target ≤ offset by omega]
    | f + 1, g + 1 =>
        rw [padGo, padGo]
        split
        · rfl
        · rename_i h
          have hp : 0 < 2 ^ tz offset := Nat.pos_pow_of_pos _ (by norm_num)
          rw [ih f (by omega) g (offset + 2 ^ tz offset) (by omega) (by omega)]

/-- The defining recursion of `padChunks`. -/
theorem padChunks_eq (target offset : Nat) :
    padChunks target offset =
      if target ≤ offset then []
      else tz offset :: padChunks target (offset + 2 ^ tz offset) := by
  by_cases hz : target ≤ offset
  · simp only [hz, if_true]
    cases target with
    | zero => rfl
    | succ t =>
        show padGo (t + 1) (t + 1) offset = []
        rw [padGo]
        simp [hz]
  · simp only [hz, if_false]
    cases target with
    | zero => omega
    | succ t =>
        show padGo (t + 1) (t + 1) offset = _
        rw [padGo]
        simp only [hz, if_false]
        have hp : 0 < 2 ^ tz offset := Nat.pos_pow_of_pos _ (by norm_num)
        rw [padGo_congr (t + 1) t (t + 1) (offset + 2 ^ tz offset)
          (by omega) (by omega)]
        rfl


/-! ### Order search and jump search -/

theorem ordGo_le_pow (offset : Nat) : ∀ (fuel order : Nat),
    offset ≤ 2 ^ (order + fuel) → offset ≤ 2 ^ ordGo offset fuel order := by
  intro fuel
  induction fuel with
  | zero => intro order h; simpa [ordGo] using h
  | succ f ih =>
      intro order h
      rw [ordGo]
      by_cases hle : offset ≤ 2 ^ order
      · simpa [hle] using hle
      · simp only [hle, if_false]
        exact ih (order + 1) (by rw [Nat.add_right_comm]; exact h)

/-- The order `makesub` assigns is large enough: `offset ≤ 2 ^ order`. -/
theorem le_pow_ordOf (offset : Nat) : offset ≤ 2 ^ ordOf offset :=
  ordGo_le_pow offset offset 0
    (by simpa using (Nat.lt_two_pow offset).le)

/-- The success condition of the jump-order search at order `jo`. -/
abbrev jumpCond (offset target jo : Nat) : Prop :=
  (offset >>> jo) <<< jo ≤ target ∧ target - (offset >>> jo) <<< jo < 2 ^ (jo + 1)

theorem findJumpAux_spec (offset target : Nat) : ∀ (fuel jo0 jo rel : Nat),
    findJumpAux offset target fuel jo0 = some (jo, rel) →
    jo0 ≤ jo ∧ jumpCond offset target jo ∧
      rel = target - (offset >>> jo) <<< jo ∧
      ∀ j, jo0 ≤ j → j < jo → ¬ jumpCond offset target j := by
  intro fuel
  induction fuel with
  | zero => intro jo0 jo rel h; exact absurd h (by simp [findJumpAux])
  | succ f ih =>
      intro jo0 jo rel h
      rw [findJumpAux] at h
      by_cases hc : (offset >>> jo0) <<< jo0 ≤ target ∧
          target - (offset >>> jo0) <<< jo0 < 2 ^ (jo0 + 1)
      · rw [if_pos hc] at h
        obtain ⟨h1, h2⟩ := Prod.mk.injEq .. ▸ Option.some_inj.mp h
        subst h1; subst h2
        exact ⟨le_refl _, hc, rfl, fun j hj1 hj2 => absurd hj1 (by omega)⟩
      · rw [if_neg hc] at h
        obtain ⟨hle, hcond, hrel, hmin⟩ := ih (jo0 + 1) jo rel h
        refine ⟨by omega, hcond, hrel, fun j hj1 hj2 => ?_⟩
        rcases Nat.eq_or_lt_of_le hj1 with hj | hj
        · subst hj; exact hc
        · exact hmin j hj hj2

theorem findJumpAux_isSome (offset target : Nat) : ∀ (fuel jo0 jstar : Nat),
    jo0 ≤ jstar → jstar < jo0 + fuel → jumpCond offset target jstar →
    ∃ jr, findJumpAux offset target fuel jo0 = some jr := by
  intro fuel
  induction fuel with
  | zero => intro jo0 jstar h1 h2 _; omega
  | succ f ih =>
      intro jo0 jstar h1 h2 hcond
      rw [findJumpAux]
      by_cases hc : (offset >>> jo0) <<< jo0 ≤ target ∧
          target - (offset >>> jo0) <<< jo0 < 2 ^ (jo0 + 1)
      · exact ⟨_, by rw [if_pos hc]⟩
      · rcases Nat.eq_or_lt_of_le h1 with hj | hj
        · exact absurd (hj ▸ hcond) hc
        · rw [if_neg hc]
          exact ih (jo0 + 1) jstar hj (by omega) hcond

/-- The value shifted down then up is at most the original. -/
theorem shiftdownup_le (offset jo : Nat) : (offset >>> jo) <<< jo ≤ offset := by
  rw [Nat.shiftRight_eq_div_pow, Nat.shiftLeft_eq]
  exact Nat.div_mul_le_self offset (2 ^ jo)

/-- The search condition always holds at `jo = max offset target`. -/
theorem jumpCond_at_max (offset target : Nat) :
    jumpCond offset target (max offset target) := by
  have hoff : offset < 2 ^ max offset target :=
    lt_of_lt_of_le (Nat.lt_two_pow offset)
      (Nat.pow_le_pow_right (by norm_num) (le_max_left _ _))
  have hzero : offset >>> max offset target = 0 := by
    rw [Nat.shiftRight_eq_div_pow]
    exact Nat.div_eq_of_lt hoff
  constructor
  · rw [hzero]; simp [Nat.shiftLeft_eq]
  · rw [hzero]
    simp only [Nat.zero_shiftLeft, Nat.sub_zero, Nat.shiftLeft_eq, Nat.zero_mul]
    calc target < 2 ^ target := Nat.lt_two_pow target
      _ ≤ 2 ^ (max offset target + 1) :=
        Nat.pow_le_pow_right (by norm_num) (by omega)

/-- The fueled jump-order search of `makesub` always succeeds. -/
theorem findJump_isSome (offset target : Nat) :
    ∃ jr, findJump offset target = some jr :=
  findJumpAux_isSome offset target (max offset target + 2) 0
    (max offset target) (Nat.zero_le _) (by omega)
    (jumpCond_at_max offset target)

/-- When the goto sits below `2^order` and its target at or below
`2^order`, the search condition holds at `order` itself. -/
theorem jumpCond_at_order (offset target order : Nat)
    (ho : offset < 2 ^ order) (ht : target ≤ 2 ^ order) :
    jumpCond offset target order := by
  have hzero : offset >>> order = 0 := by
    rw [Nat.shiftRight_eq_div_pow]
    exact Nat.div_eq_of_lt ho
  constructor
  · rw [hzero]; simp [Nat.shiftLeft_eq]
  · rw [hzero]
    simp only [Nat.zero_shiftLeft, Nat.sub_zero, Nat.shiftLeft_eq, Nat.zero_mul]
    calc target ≤ 2 ^ order := ht
      _ < 2 ^ (order + 1) := Nat.pow_lt_pow_right (by norm_num) (by omega)

/-- C8 core: the search returns a jump order not exceeding the
subprogram's order, with `0 ≤ rel < 2^(jump_order+1)` (the
precondition of `jump`). -/
theorem findJump_le_order (offset target order jo rel : Nat)
    (ho : offset < 2 ^ order) (ht : target ≤ 2 ^ order)
    (h : findJump offset target = some (jo, rel)) :
    jo ≤ order ∧ (offset >>> jo) <<< jo + rel = target ∧
      rel < 2 ^ (jo + 1) := by
  obtain ⟨hle, hcond, hrel, hmin⟩ := findJumpAux_spec offset target _ 0 jo rel h
  have hjo : jo ≤ order := by
    by_contra hgt
    push_neg at hgt
    exact hmin order (Nat.zero_le _) hgt (jumpCond_at_order offset target order ho ht)
  obtain ⟨hc1, hc2⟩ := hcond
  refine ⟨hjo, by omega, by omega⟩


/-! ### Layout chains: alignment, padding, and the offset walk -/

theorem mod_eq_zero_of_dvd {a b : Nat} (h : a ∣ b) : b % a = 0 := by
  obtain ⟨c, rfl⟩ := h
  exact Nat.mul_mod_right a c

theorem chainTo_append (l1 l2 : List MPart) : ∀ (a b c : Nat),
    chainTo a l1 b → chainTo b l2 c → chainTo a (l1 ++ l2) c := by
  induction l1 with
  | nil =>
      intro a b c h1 h2
      have : b = a := h1
      simpa [this] using h2
  | cons p rest ih =>
      intro a b c h1 h2
      obtain ⟨hl, ha, hrest⟩ := h1
      exact ⟨hl, ha, ih (a + p.size) b c hrest h2⟩

theorem chainTo_mono (l : List MPart) : ∀ (a b : Nat), chainTo a l b → a ≤ b := by
  induction l with
  | nil => intro a b h; exact h.ge
  | cons p rest ih =>
      intro a b h
      exact le_trans (Nat.le_add_right a p.size) (ih _ _ h.2.2)

/-- The alignment loop produces a chain of self-aligned noops from
`offset` to an offset divisible by the part's size. -/
theorem alignChunks_chain (po : Nat) : ∀ (offset : Nat),
    chainTo offset
      ((alignChunks po offset).map fun k => CfgPart.part (noopE k))
      (offset + ((alignChunks po offset).map fun k => 2 ^ k).sum) ∧
    (offset + ((alignChunks po offset).map fun k => 2 ^ k).sum) % 2 ^ po = 0 := by
  intro offset
  generalize hn : po - tz offset = n
  induction n using Nat.strong_induction_on generalizing offset with
  | _ n ih =>
    rw [alignChunks_eq]
    by_cases hz : offset % 2 ^ po = 0
    · rw [if_pos hz]
      simp only [List.map_nil, List.sum_nil, Nat.add_zero]
      exact ⟨rfl, hz⟩
    · rw [if_neg hz]
      simp only [List.map_cons, List.sum_cons]
      have h1 : tz offset < po := tz_lt_of_mod_ne po offset hz
      have hoff : offset ≠ 0 := by intro h0; subst h0; simp at hz
      have h2 : tz offset < tz (offset + 2 ^ tz offset) :=
        tz_add_pow_tz_lt offset hoff
      have hm : po - tz (offset + 2 ^ tz offset) < n := by omega
      obtain ⟨hchain, hmod⟩ := ih _ hm (offset + 2 ^ tz offset) rfl
      refine ⟨⟨rfl, mod_eq_zero_of_dvd (two_pow_tz_dvd offset), ?_⟩, ?_⟩
      · show chainTo (offset + 2 ^ tz offset) _ _
        convert hchain using 1
        omega
      · convert hmod using 2
        omega

/-- The padding loop runs the offset up to exactly `2 ^ order`. -/
theorem padChunks_chain (order : Nat) : ∀ (offset : Nat), offset ≤ 2 ^ order →
    chainTo offset
      ((padChunks (2 ^ order) offset).map fun k => CfgPart.part (noopE k))
      (2 ^ order) := by
  intro offset
  generalize hn : 2 ^ order - offset = n
  induction n using Nat.strong_induction_on generalizing offset with
  | _ n ih =>
    intro hle
    rw [padChunks_eq]
    by_cases hz : 2 ^ order ≤ offset
    · rw [if_pos hz]
      show (2 ^ order = offset)
      omega
    · rw [if_neg hz]
      simp only [List.map_cons]
      push_neg at hz
      set t := tz offset with ht
      have hstep : offset + 2 ^ t ≤ 2 ^ order := by
        by_cases h0 : offset = 0
        · subst h0
          have ht0 : t = 0 := ht
          rw [ht0]
          simpa using Nat.one_le_two_pow
        · have htzlt : t < order := by
            by_contra hge
            push_neg at hge
            have hdvd : 2 ^ order ∣ offset :=
              dvd_trans (pow_dvd_pow 2 hge) (two_pow_tz_dvd offset)
            have := Nat.le_of_dvd (Nat.pos_of_ne_zero h0) hdvd
            omega
          obtain ⟨m, hm⟩ := two_pow_tz_dvd offset
          have hmlt : m < 2 ^ (order - t) := by
            by_contra hge
            push_neg at hge
            have hx : 2 ^ (order - t) * 2 ^ t ≤ m * 2 ^ t :=
              Nat.mul_le_mul_right _ hge
            rw [← Nat.pow_add] at hx
            have heq : order - t + t = order := by omega
            rw [heq] at hx
            have : offset = m * 2 ^ t := by rw [hm]; ring
            omega
          have hy : (m + 1) * 2 ^ t ≤ 2 ^ (order - t) * 2 ^ t :=
            Nat.mul_le_mul_right _ (by omega)
          rw [← Nat.pow_add] at hy
          have heq : order - t + t = order := by omega
          rw [heq] at hy
          have hoff : offset = m * 2 ^ t := by rw [hm]; ring
          have hexp : (m + 1) * 2 ^ t = m * 2 ^ t + 2 ^ t := by ring
          omega
      refine ⟨rfl, mod_eq_zero_of_dvd (two_pow_tz_dvd offset), ?_⟩
      show chainTo (offset + 2 ^ t) _ _
      have hp : 0 < 2 ^ t := Nat.pos_pow_of_pos _ (by norm_num)
      exact ih (2 ^ order - (offset + 2 ^ t)) (by omega) _ rfl hstep

/-- Invariant carried through the first `makesub` loop. -/
def WalkInv (st : LayoutSt) : Prop :=
  chainTo 0 st.real st.offset ∧ ∀ pr ∈ st.labelOffsets, pr.2 ≤ st.offset

theorem layoutStep_inv (st : LayoutSt) (p : MPart) (h : WalkInv st) :
    WalkInv (layoutStep st p) := by
  obtain ⟨hchain, hlab⟩ := h
  cases p with
  | label l =>
      refine ⟨hchain, ?_⟩
      intro pr hpr
      rcases List.mem_cons.mp hpr with h | h
      · subst h; exact le_refl _
      · exact hlab pr h
  | goto g =>
      refine ⟨?_, ?_⟩
      · exact chainTo_append _ _ 0 st.offset (st.offset + 1) hchain
          ⟨rfl, Nat.mod_one _, rfl⟩
      · intro pr hpr
        exact le_trans (hlab pr hpr) (Nat.le_succ _)
  | part sub =>
      obtain ⟨hachain, hamod⟩ := alignChunks_chain sub.order st.offset
      refine ⟨?_, ?_⟩
      · refine chainTo_append _ _ 0
          (st.offset + ((alignChunks sub.order st.offset).map fun k => 2 ^ k).sum) _
          (chainTo_append _ _ 0 st.offset _ hchain hachain) ?_
        exact ⟨rfl, hamod, rfl⟩
      · intro pr hpr
        have := hlab pr hpr
        have hsz : 0 < sub.size := Nat.pos_pow_of_pos _ (by norm_num)
        simp only [layoutStep]
        omega

theorem layoutWalk_inv_aux : ∀ (parts : List MPart) (st : LayoutSt),
    WalkInv st → WalkInv (parts.foldl layoutStep st) := by
  intro parts
  induction parts with
  | nil => intro st h; exact h
  | cons p rest ih =>
      intro st h
      exact ih (layoutStep st p) (layoutStep_inv st p h)

/-- The first `makesub` loop walks a contiguous, self-aligned chain
from offset 0 and keeps every label offset below the total size. -/
theorem layoutWalk_inv (parts : List MPart) : WalkInv (layoutWalk parts) :=
  layoutWalk_inv_aux parts ⟨[], [], [], [], 0⟩ ⟨rfl, by intro pr hpr; cases hpr⟩

/-- The total size after the walk is at least the sum of the input
parts' own sizes (alignment only adds). -/
theorem layoutWalk_sum_le : ∀ (parts : List MPart) (st : LayoutSt),
    st.offset + (parts.map MPart.size).sum ≤ (parts.foldl layoutStep st).offset := by
  intro parts
  induction parts with
  | nil => intro st; simp
  | cons p rest ih =>
      intro st
      have hstep : st.offset + p.size ≤ (layoutStep st p).offset := by
        cases p with
        | label l => simp [layoutStep, MPart.size]
        | goto g => simp [layoutStep, MPart.size]
        | part sub => simp [layoutStep, MPart.size]
      calc st.offset + (MPart.size p + ((rest.map MPart.size).sum))
          ≤ (layoutStep st p).offset + (rest.map MPart.size).sum := by omega
        _ ≤ _ := ih (layoutStep st p)


/-! ### Branch resolution: jumps_required, selection, placement -/

theorem lookup_mem {α β : Type} [BEq α] [LawfulBEq α] :
    ∀ (l : List (α × β)) (k : α) (v : β),
    l.lookup k = some v → (k, v) ∈ l := by
  intro l
  induction l with
  | nil => intro k v h; exact absurd h (by simp [List.lookup])
  | cons p rest ih =>
      intro k v h
      rw [List.lookup_cons] at h
      by_cases hbeq : k == p.1
      · rw [hbeq] at h
        simp only [Option.some_inj] at h
        have hk : k = p.1 := eq_of_beq hbeq
        subst hk
        subst h
        exact List.mem_cons_self _ _
      · have hf : (k == p.1) = false := by simpa using hbeq
        rw [hf] at h
        exact List.mem_cons_of_mem _ (ih k v h)

/-- Every pair the `jumps_required` loop collects satisfies the `jump`
precondition `rel < 2^(jump_order+1)`. -/
theorem requiredJumps_valid (labOffs : DictS Nat) :
    ∀ (l : List MPart) (off : Nat) (req : List (Nat × Nat)),
    requiredJumps labOffs l off = some req →
    ∀ jr ∈ req, jr.2 < 2 ^ (jr.1 + 1) := by
  intro l
  induction l with
  | nil =>
      intro off req h jr hjr
      rw [requiredJumps] at h
      simp only [Option.some_inj] at h
      subst h
      cases hjr
  | cons p rest ih =>
      intro off req h jr hjr
      cases p with
      | label l2 => exact ih off req h jr hjr
      | part sub => exact ih _ req h jr hjr
      | goto g =>
          rw [requiredJumps] at h
          cases hl : labOffs.lookup g with
          | none => rw [hl] at h; exact Option.noConfusion h
          | some target =>
              rw [hl] at h
              simp only [Option.bind_eq_bind, Option.some_bind] at h
              cases hf : findJump off target with
              | none => rw [hf] at h; exact Option.noConfusion h
              | some jr0 =>
                  rw [hf] at h
                  simp only [Option.some_bind] at h
                  cases ht : requiredJumps labOffs rest (off + 1) with
                  | none => rw [ht] at h; exact Option.noConfusion h
                  | some tail =>
                      rw [ht] at h
                      simp only [Option.some_bind, Option.pure_def,
                        Option.some_inj] at h
                      subst h
                      rcases List.mem_cons.mp hjr with hjr1 | hjr1
                      · obtain ⟨jo0, rel0⟩ := jr
                        rw [← hjr1] at hf
                        obtain ⟨_, hcond, hrel, _⟩ :=
                          findJumpAux_spec off target _ 0 jo0 rel0 hf
                        obtain ⟨hc1, hc2⟩ := hcond
                        show rel0 < 2 ^ (jo0 + 1)
                        omega
                      · exact ih (off + 1) tail ht jr hjr1

/-- `selJumpGo` only returns pairs drawn from `jumps_required`, at an
order within the loop range, with `rel = target - base`. -/
theorem selJumpGo_spec (req : List (Nat × Nat)) (offset target order : Nat) :
    ∀ (fuel jo : Nat) (acc : Option (Nat × Nat)) (jo2 rel2 : Nat),
    (∀ p, acc = some p → p ∈ req ∧ (offset >>> p.1) <<< p.1 ≤ target ∧
      p.2 = target - (offset >>> p.1) <<< p.1 ∧ p.1 ≤ order) →
    selJumpGo req offset target order fuel jo acc = some (jo2, rel2) →
    (jo2, rel2) ∈ req ∧ (offset >>> jo2) <<< jo2 ≤ target ∧
      rel2 = target - (offset >>> jo2) <<< jo2 ∧ jo2 ≤ order := by
  intro fuel
  induction fuel with
  | zero =>
      intro jo acc jo2 rel2 hacc h
      exact hacc _ (by simpa [selJumpGo] using h)
  | succ f ih =>
      intro jo acc jo2 rel2 hacc h
      rw [selJumpGo] at h
      by_cases hend : order < jo
      · rw [if_pos hend] at h
        exact hacc _ h
      · rw [if_neg hend] at h
        by_cases hhit : (offset >>> jo) <<< jo ≤ target ∧
            (jo, target - (offset >>> jo) <<< jo) ∈ req
        · rw [if_pos hhit] at h
          by_cases hsmall : jo < 3
          · rw [if_pos hsmall] at h
            simp only [Option.some_inj, Prod.mk.injEq] at h
            obtain ⟨h1, h2⟩ := h
            subst h1; subst h2
            exact ⟨hhit.2, hhit.1, rfl, by omega⟩
          · rw [if_neg hsmall] at h
            refine ih (jo + 1) _ jo2 rel2 ?_ h
            intro p hp
            simp only [Option.some_inj] at hp
            subst hp
            exact ⟨hhit.2, hhit.1, rfl, by omega⟩
        · rw [if_neg hhit] at h
          exact ih (jo + 1) acc jo2 rel2 hacc h

/-- If `selJumpGo` comes back empty-handed, no order in the remaining
loop range was a hit (and it started empty-handed). -/
theorem selJumpGo_none (req : List (Nat × Nat)) (offset target order : Nat) :
    ∀ (fuel jo : Nat) (acc : Option (Nat × Nat)),
    selJumpGo req offset target order fuel jo acc = none →
    acc = none ∧ ∀ j, jo ≤ j → j ≤ order → j < jo + fuel →
      ¬((offset >>> j) <<< j ≤ target ∧
        (j, target - (offset >>> j) <<< j) ∈ req) := by
  intro fuel
  induction fuel with
  | zero =>
      intro jo acc h
      exact ⟨by simpa [selJumpGo] using h, fun j h1 h2 h3 => by omega⟩
  | succ f ih =>
      intro jo acc h
      rw [selJumpGo] at h
      by_cases hend : order < jo
      · rw [if_pos hend] at h
        exact ⟨h, fun j h1 h2 h3 => by omega⟩
      · rw [if_neg hend] at h
        by_cases hhit : (offset >>> jo) <<< jo ≤ target ∧
            (jo, target - (offset >>> jo) <<< jo) ∈ req
        · rw [if_pos hhit] at h
          by_cases hsmall : jo < 3
          · rw [if_pos hsmall] at h
            exact Option.noConfusion h
          · rw [if_neg hsmall] at h
            obtain ⟨habs, _⟩ := ih (jo + 1) _ h
            exact Option.noConfusion habs
        · rw [if_neg hhit] at h
          obtain ⟨hacc, hrange⟩ := ih (jo + 1) acc h
          refine ⟨hacc, fun j h1 h2 h3 => ?_⟩
          rcases Nat.eq_or_lt_of_le h1 with hj | hj
          · subst hj; exact hhit
          · exact hrange j hj h2 (by omega)

/-- The selection loop succeeds whenever the pair the first loop put in
`jumps_required` for this goto is in range. -/
theorem selectJump_isSome (req : List (Nat × Nat)) (offset target order
    jstar rstar : Nat) (hmem : (jstar, rstar) ∈ req) (hord : jstar ≤ order)
    (hbase : (offset >>> jstar) <<< jstar ≤ target)
    (hrel : rstar = target - (offset >>> jstar) <<< jstar) :
    ∃ p, selectJump req offset target order = some p := by
  cases hsel : selectJump req offset target order with
  | some p => exact ⟨p, rfl⟩
  | none =>
      exfalso
      obtain ⟨_, hrange⟩ := selJumpGo_none req offset target order
        (order + 1) 0 none hsel
      exact hrange jstar (Nat.zero_le _) hord (by omega) ⟨hbase, hrel ▸ hmem⟩


theorem jumpE_some (jo rel : Nat) (nm : String) (h : rel < 2 ^ (jo + 1)) :
    ∃ sub, jumpE jo rel nm = some sub ∧ sub.order = 0 ∧
      sub.sem = .jp jo rel := by
  unfold jumpE
  rw [if_pos h]
  exact ⟨_, rfl, rfl, rfl⟩

/-- The placement loop of `makesub` (prefix-patch mode) succeeds on
every chain whose gotos were all catalogued by the `jumps_required`
loop, and the parts it places tile the region contiguously and
self-aligned. -/
theorem resolveParts_spec (labOffs : DictS Nat) (req : List (Nat × Nat))
    (order : Nat) (name : String)
    (hValid : ∀ jr ∈ req, jr.2 < 2 ^ (jr.1 + 1))
    (hLab : ∀ pr ∈ labOffs, pr.2 ≤ 2 ^ order) :
    ∀ (l : List MPart) (off fin : Nat) (reqSub : List (Nat × Nat)),
    chainTo off l fin → fin ≤ 2 ^ order →
    requiredJumps labOffs l off = some reqSub →
    (∀ x ∈ reqSub, x ∈ req) →
    ∃ placed, resolveParts labOffs req order name false l off = some placed ∧
      placedChain off placed fin := by
  intro l
  induction l with
  | nil =>
      intro off fin reqSub hchain hfin hreq hsub
      exact ⟨[], by rw [resolveParts], hchain⟩
  | cons p rest ih =>
      intro off fin reqSub hchain hfin hreq hsub
      cases p with
      | label l2 => exact absurd hchain.1 (by simp [MPart.isLabel])
      | part sub =>
          obtain ⟨hl, hal, hrest⟩ := hchain
          rw [requiredJumps] at hreq
          obtain ⟨placed, hres, hpc⟩ :=
            ih (off + sub.size) fin reqSub hrest hfin hreq hsub
          refine ⟨(off, sub) :: placed, ?_, rfl, hal, hpc⟩
          rw [resolveParts, hres]
          simp
      | goto g =>
          obtain ⟨hl, hal, hrest⟩ := hchain
          rw [requiredJumps] at hreq
          cases hlk : labOffs.lookup g with
          | none => rw [hlk] at hreq; exact Option.noConfusion hreq
          | some target =>
              rw [hlk] at hreq
              simp only [Option.bind_eq_bind, Option.some_bind] at hreq
              cases hfj : findJump off target with
              | none => rw [hfj] at hreq; exact Option.noConfusion hreq
              | some jr0 =>
                  obtain ⟨jstar, rstar⟩ := jr0
                  rw [hfj] at hreq
                  simp only [Option.some_bind] at hreq
                  cases hrt : requiredJumps labOffs rest (off + 1) with
                  | none => rw [hrt] at hreq; exact Option.noConfusion hreq
                  | some reqTail =>
                      rw [hrt] at hreq
                      simp only [Option.some_bind, Option.pure_def,
                        Option.some_inj] at hreq
                      have hmem : (jstar, rstar) ∈ req :=
                        hsub _ (by rw [← hreq]; exact List.mem_cons_self _ _)
                      have hoff_lt : off < 2 ^ order := by
                        have := chainTo_mono rest (off + 1) fin hrest
                        omega
                      have htarget : target ≤ 2 ^ order :=
                        hLab _ (lookup_mem labOffs g target hlk)
                      obtain ⟨hjo, hbase_add, hrel_lt⟩ :=
                        findJump_le_order off target order jstar rstar
                          hoff_lt htarget hfj
                      obtain ⟨_, hcond, hrelstar, _⟩ :=
                        findJumpAux_spec off target _ 0 jstar rstar hfj
                      obtain ⟨psel, hpsel⟩ :=
                        selectJump_isSome req off target order jstar rstar
                          hmem hjo hcond.1 hrelstar
                      obtain ⟨jo2, rel2⟩ := psel
                      obtain ⟨hmem2, hbase2, hrel2, hjo2⟩ :=
                        selJumpGo_spec req off target order (order + 1) 0 none
                          jo2 rel2 (fun p hp => Option.noConfusion hp) hpsel
                      obtain ⟨jsub, hjE, horder, hsem⟩ :=
                        jumpE_some jo2 rel2 name (hValid _ hmem2)
                      have hsize : jsub.size = 1 := by
                        rw [SubR.size, horder]
                        rfl
                      obtain ⟨placed, hres, hpc⟩ :=
                        ih (off + 1) fin reqTail hrest hfin hrt
                          (fun x hx => hsub x
                            (by rw [← hreq]; exact List.mem_cons_of_mem _ hx))
                      refine ⟨(off, jsub) :: placed, ?_, rfl, ?_, ?_⟩
                      · rw [resolveParts, hlk]
                        simp only [Option.some_bind, Bool.false_eq_true,
                          if_false, Option.bind_eq_bind]
                        rw [hpsel]
                        simp only [Option.some_bind]
                        rw [hjE]
                        simp only [Option.some_bind]
                        rw [hsize, hres]
                        simp
                      · rw [hsize]
                        exact Nat.mod_one off
                      · rw [hsize]
                        exact hpc


/-! ### Bit strings: `make_bits` and prefix arithmetic -/

theorem makeBits_length : ∀ (num bits : Nat), (makeBits num bits).length = bits := by
  intro num bits
  induction bits with
  | zero => rfl
  | succ b ih => simp [makeBits, ih]

theorem bitsVal_lt : ∀ (bs : List Bool), bitsVal bs < 2 ^ bs.length := by
  intro bs
  induction bs with
  | nil => simp [bitsVal]
  | cons b rest ih =>
      rw [bitsVal]
      have h2 : 2 ^ (b :: rest).length = 2 ^ rest.length + 2 ^ rest.length := by
        simp [List.length_cons, Nat.pow_succ]
        ring
      cases b <;> simp <;> omega

theorem bitsVal_makeBits : ∀ (bits num : Nat),
    bitsVal (makeBits num bits) = num % 2 ^ bits := by
  intro bits
  induction bits with
  | zero => intro num; simp [makeBits, bitsVal, Nat.mod_one]
  | succ b ih =>
      intro num
      rw [makeBits, bitsVal, ih num, makeBits_length]
      have hsplit : num % 2 ^ (b + 1) = num % 2 ^ b + 2 ^ b * (num / 2 ^ b % 2) := by
        have h1 : (2 : Nat) ^ (b + 1) = 2 ^ b * 2 := by ring
        rw [h1, Nat.mod_mul]
      rw [hsplit, Nat.testBit_to_div_mod]
      rcases Nat.mod_two_eq_zero_or_one (num / 2 ^ b) with h | h <;> simp [h] <;> omega

theorem makeBits_mod : ∀ (bits num : Nat),
    makeBits (num % 2 ^ bits) bits = makeBits num bits := by
  intro bits
  induction bits with
  | zero => intro num; rfl
  | succ b ih =>
      intro num
      rw [makeBits, makeBits]
      congr 1
      · rw [Nat.testBit_mod_two_pow]
        simp
      · have hmm : num % 2 ^ (b + 1) % 2 ^ b = num % 2 ^ b :=
          Nat.mod_mod_of_dvd num (pow_dvd_pow 2 (by omega))
        calc makeBits (num % 2 ^ (b + 1)) b
            = makeBits (num % 2 ^ (b + 1) % 2 ^ b) b := (ih _).symm
          _ = makeBits (num % 2 ^ b) b := by rw [hmm]
          _ = makeBits num b := ih num

theorem makeBits_bitsVal : ∀ (bs : List Bool),
    makeBits (bitsVal bs) bs.length = bs := by
  intro bs
  induction bs with
  | nil => rfl
  | cons b rest ih =>
      rw [List.length_cons, bitsVal, makeBits]
      have hcomm : (if b then (1 : Nat) else 0) * 2 ^ rest.length + bitsVal rest
          = 2 ^ rest.length * (if b then 1 else 0) + bitsVal rest := by ring
      congr 1
      · rw [Nat.testBit_to_div_mod]
        have hlt : bitsVal rest < 2 ^ rest.length := bitsVal_lt rest
        rw [hcomm, Nat.mul_add_div (Nat.pos_pow_of_pos _ (by norm_num)),
          Nat.div_eq_of_lt hlt]
        cases b <;> simp
      · have hmod : (2 ^ rest.length * (if b then (1 : Nat) else 0) +
            bitsVal rest) % 2 ^ rest.length = bitsVal rest := by
          rw [Nat.mul_add_mod]
          exact Nat.mod_eq_of_lt (bitsVal_lt rest)
        calc makeBits ((if b then 1 else 0) * 2 ^ rest.length + bitsVal rest)
              rest.length
            = makeBits (((if b then 1 else 0) * 2 ^ rest.length + bitsVal rest) %
                2 ^ rest.length) rest.length := (makeBits_mod _ _).symm
          _ = makeBits (bitsVal rest) rest.length := by rw [hcomm, hmod]
          _ = rest := ih

theorem makeBits_split : ∀ (a b num : Nat),
    makeBits num (a + b) = makeBits (num >>> b) a ++ makeBits num b := by
  intro a
  induction a with
  | zero => intro b num; simp [makeBits, Nat.zero_add]
  | succ a ih =>
      intro b num
      have hab : a + 1 + b = (a + b) + 1 := by omega
      rw [hab, makeBits]
      show _ = (Nat.testBit (num >>> b) a :: makeBits (num >>> b) a) ++ _
      rw [List.cons_append, Nat.testBit_shiftRight, ih b num]
      congr 2
      omega

theorem bitsVal_append : ∀ (k t : List Bool),
    bitsVal (k ++ t) = bitsVal k * 2 ^ t.length + bitsVal t := by
  intro k
  induction k with
  | nil => intro t; simp [bitsVal]
  | cons b rest ih =>
      intro t
      rw [List.cons_append, bitsVal, bitsVal, ih t]
      rw [List.length_append, Nat.pow_add]
      ring

/-- The child-map key of a placed part. -/
def keyOf (order : Nat) (pr : Nat × SubR) : List Bool :=
  makeBits (pr.1 >>> pr.2.order) (order - pr.2.order)

/-- A placed part's key is a prefix of a full-width PC bit string
exactly when the PC value falls in the part's slot range. -/
theorem keyOf_prefix_iff (order : Nat) (o : Nat) (s : SubR) (bs : List Bool)
    (hlen : bs.length = order) (halign : o % s.size = 0)
    (hbound : o + s.size ≤ 2 ^ order) :
    keyOf order (o, s) <+: bs ↔
      (o ≤ bitsVal bs ∧ bitsVal bs < o + s.size) := by
  have hso : s.order ≤ order := by
    have h1 : s.size ≤ 2 ^ order := by
      have := Nat.pos_pow_of_pos s.order (show 0 < 2 by norm_num)
      omega
    rw [SubR.size] at h1
    exact (Nat.pow_le_pow_iff_right (by norm_num)).mp h1
  have holt : o < 2 ^ order := by
    have := Nat.pos_pow_of_pos s.order (show 0 < 2 by norm_num)
    rw [SubR.size] at hbound
    omega
  have hshift : o >>> s.order <<< s.order = o := by
    rw [Nat.shiftRight_eq_div_pow, Nat.shiftLeft_eq]
    rw [SubR.size] at halign
    exact Nat.div_mul_cancel (Nat.dvd_of_mod_eq_zero halign)
  have hkeylen : (keyOf order (o, s)).length = order - s.order :=
    makeBits_length _ _
  have hvalkey : bitsVal (keyOf order (o, s)) = o >>> s.order := by
    rw [keyOf, bitsVal_makeBits]
    apply Nat.mod_eq_of_lt
    rw [Nat.shiftRight_eq_div_pow]
    rw [Nat.div_lt_iff_lt_mul (Nat.pos_pow_of_pos _ (by norm_num))]
    rw [← Nat.pow_add]
    have : order - s.order + s.order = order := by omega
    rw [this]
    exact holt
  constructor
  · rintro ⟨t, ht⟩
    have hlent : t.length = s.order := by
      have := congrArg List.length ht
      rw [List.length_append, hkeylen, hlen] at this
      omega
    have hval := congrArg bitsVal ht
    rw [bitsVal_append, hvalkey, hlent] at hval
    have htlt : bitsVal t < 2 ^ t.length := bitsVal_lt t
    rw [hlent] at htlt
    have hov : o >>> s.order * 2 ^ s.order = o := by
      rw [← Nat.shiftLeft_eq]
      exact hshift
    rw [SubR.size]
    omega
  · rintro ⟨h1, h2⟩
    refine ⟨makeBits (bitsVal bs) s.order, ?_⟩
    have hbs : bs = makeBits (bitsVal bs) order := by
      rw [← hlen, makeBits_bitsVal]
    have hsplit2 : makeBits (bitsVal bs) order =
        makeBits (bitsVal bs >>> s.order) (order - s.order) ++
          makeBits (bitsVal bs) s.order := by
      have : order = (order - s.order) + s.order := by omega
      rw [this, makeBits_split]
      congr 2
      omega
    have hsame : bitsVal bs >>> s.order = o >>> s.order := by
      rw [Nat.shiftRight_eq_div_pow, Nat.shiftRight_eq_div_pow]
      rw [SubR.size] at halign
      obtain ⟨q, hq⟩ := Nat.dvd_of_mod_eq_zero halign
      have hrlt : bitsVal bs - o < 2 ^ s.order := by
        rw [SubR.size] at h2
        omega
      have hbs_eq : bitsVal bs = 2 ^ s.order * q + (bitsVal bs - o) := by omega
      rw [hq, hbs_eq]
      rw [Nat.mul_add_div (Nat.pos_pow_of_pos _ (by norm_num))]
      rw [Nat.mul_div_cancel_left _ (Nat.pos_pow_of_pos _ (by norm_num))]
      rw [Nat.div_eq_of_lt hrlt]
      omega
    simp only [keyOf]
    rw [← hsame, ← hsplit2, ← hbs]


/-! ### The placed parts tile the PC range -/

theorem placedChain_mono : ∀ (l : List (Nat × SubR)) (a b : Nat),
    placedChain a l b → a ≤ b := by
  intro l
  induction l with
  | nil => intro a b h; exact h.ge
  | cons pr rest ih =>
      intro a b h
      obtain ⟨o, sub⟩ := pr
      obtain ⟨ho, hal, hrest⟩ := h
      exact le_trans (Nat.le_add_right a sub.size) (ih _ _ hrest)

theorem placedChain_bounds : ∀ (l : List (Nat × SubR)) (a b : Nat),
    placedChain a l b → ∀ pr ∈ l,
    a ≤ pr.1 ∧ pr.1 + pr.2.size ≤ b ∧ pr.1 % pr.2.size = 0 := by
  intro l
  induction l with
  | nil => intro a b h pr hpr; cases hpr
  | cons hd rest ih =>
      intro a b h pr hpr
      obtain ⟨o, sub⟩ := hd
      obtain ⟨ho, hal, hrest⟩ := h
      subst ho
      rcases List.mem_cons.mp hpr with hh | hh
      · subst hh
        exact ⟨le_refl _, placedChain_mono rest _ _ hrest, hal⟩
      · obtain ⟨hb1, hb2, hb3⟩ := ih _ _ hrest pr hh
        exact ⟨by omega, hb2, hb3⟩

theorem placedChain_cover : ∀ (l : List (Nat × SubR)) (a b v : Nat),
    placedChain a l b → a ≤ v → v < b →
    ∃ pr ∈ l, pr.1 ≤ v ∧ v < pr.1 + pr.2.size := by
  intro l
  induction l with
  | nil =>
      intro a b v h h1 h2
      have : b = a := h
      omega
  | cons hd rest ih =>
      intro a b v h h1 h2
      obtain ⟨o, sub⟩ := hd
      obtain ⟨ho, hal, hrest⟩ := h
      subst ho
      by_cases hv : v < o + sub.size
      · exact ⟨(o, sub), List.mem_cons_self _ _, h1, hv⟩
      · push_neg at hv
        obtain ⟨pr, hpr, hp1, hp2⟩ := ih (o + sub.size) b v hrest hv h2
        exact ⟨pr, List.mem_cons_of_mem _ hpr, hp1, hp2⟩

theorem placedChain_unique : ∀ (l : List (Nat × SubR)) (a b v : Nat),
    placedChain a l b → ∀ pr1 pr2, pr1 ∈ l → pr2 ∈ l →
    pr1.1 ≤ v → v < pr1.1 + pr1.2.size →
    pr2.1 ≤ v → v < pr2.1 + pr2.2.size → pr1 = pr2 := by
  intro l
  induction l with
  | nil => intro a b v h pr1 pr2 h1 h2; cases h1
  | cons hd rest ih =>
      intro a b v h pr1 pr2 hm1 hm2 h11 h12 h21 h22
      obtain ⟨o, sub⟩ := hd
      obtain ⟨ho, hal, hrest⟩ := h
      subst ho
      have htail : ∀ pr, pr ∈ rest → pr.1 ≤ v → v < pr.1 + pr.2.size →
          o + sub.size ≤ v := by
        intro pr hpr hp1 hp2
        have := (placedChain_bounds rest _ _ hrest pr hpr).1
        omega
      rcases List.mem_cons.mp hm1 with he1 | he1 <;>
        rcases List.mem_cons.mp hm2 with he2 | he2
      · rw [he1, he2]
      · subst he1
        have := htail pr2 he2 h21 h22
        simp only at h12
        omega
      · subst he2
        have := htail pr1 he1 h11 h12
        simp only at h22
        omega
      · exact ih _ _ v hrest pr1 pr2 he1 he2 h11 h12 h21 h22

/-- `build child map` succeeds on a tiled placement and produces
exactly one entry per placed part, keyed by `keyOf`. -/
theorem buildChildMap_spec (lm : DictN (List String)) (gm : DictN String)
    (order : Nat) : ∀ (placed : List (Nat × SubR)) (a : Nat),
    placedChain a placed (2 ^ order) →
    buildChildMap lm gm order placed =
      some (placed.map fun pr =>
        (keyOf order pr, ⟨pr.2, lm.lookup pr.1, gm.lookup pr.1⟩)) := by
  intro placed
  induction placed with
  | nil => intro a h; rfl
  | cons hd rest ih =>
      intro a h
      obtain ⟨o, sub⟩ := hd
      obtain ⟨ho, hal, hrest⟩ := h
      subst ho
      have hbound : o + sub.size ≤ 2 ^ order := placedChain_mono rest _ _ hrest
      have hso : sub.order ≤ order := by
        have h1 : sub.size ≤ 2 ^ order := by omega
        rw [SubR.size] at h1
        exact (Nat.pow_le_pow_iff_right (by norm_num)).mp h1
      have hguard : o >>> sub.order < 2 ^ (order - sub.order) := by
        rw [Nat.shiftRight_eq_div_pow]
        rw [Nat.div_lt_iff_lt_mul (Nat.pos_pow_of_pos _ (by norm_num))]
        rw [← Nat.pow_add]
        have heq : order - sub.order + sub.order = order := by omega
        rw [heq]
        have : 0 < sub.size := Nat.pos_pow_of_pos _ (by norm_num)
        omega
      rw [buildChildMap]
      have hmk : makeBitsE (o >>> sub.order) (order - sub.order) =
          some (makeBits (o >>> sub.order) (order - sub.order)) := by
        rw [makeBitsE, if_pos hguard]
      rw [hmk]
      simp only [Option.some_bind, Option.bind_eq_bind]
      rw [ih (o + sub.size) hrest]
      simp only [Option.some_bind, Option.pure_def, Option.some_inj]
      rfl

/-- The `jumps_required` loop succeeds whenever every goto's label is
bound. -/
theorem requiredJumps_isSome (labOffs : DictS Nat) :
    ∀ (l : List MPart) (off : Nat),
    (∀ g, CfgPart.goto g ∈ l → (labOffs.lookup g).isSome) →
    ∃ req, requiredJumps labOffs l off = some req := by
  intro l
  induction l with
  | nil => intro off h; exact ⟨[], rfl⟩
  | cons p rest ih =>
      intro off h
      cases p with
      | label l2 =>
          exact ih off fun g hg => h g (List.mem_cons_of_mem _ hg)
      | part sub =>
          exact ih (off + sub.size) fun g hg => h g (List.mem_cons_of_mem _ hg)
      | goto g =>
          have hl := h g (List.mem_cons_self _ _)
          obtain ⟨target, htarget⟩ := Option.isSome_iff_exists.mp hl
          obtain ⟨jr, hjr⟩ := findJump_isSome off target
          obtain ⟨req, hreq⟩ := ih (off + 1)
            fun g2 hg2 => h g2 (List.mem_cons_of_mem _ hg2)
          refine ⟨jr :: req, ?_⟩
          rw [requiredJumps, htarget]
          simp only [Option.some_bind, Option.bind_eq_bind]
          rw [hjr]
          simp only [Option.some_bind]
          rw [hreq]
          rfl


/-! ### Dispatcher coverage and success -/

theorem mem_lookup_isSome {α β : Type} [BEq α] [LawfulBEq α] :
    ∀ (l : List (α × β)) (k : α) (v : β),
    (k, v) ∈ l → (l.lookup k).isSome := by
  intro l
  induction l with
  | nil => intro k v h; cases h
  | cons p rest ih =>
      intro k v h
      rw [List.lookup_cons]
      by_cases hbeq : k == p.1
      · rw [hbeq]; rfl
      · have hf : (k == p.1) = false := by simpa using hbeq
        rw [hf]
        rcases List.mem_cons.mp h with he | he
        · exfalso
          apply hbeq
          rw [← he]
          exact beq_self_eq_true k
        · exact ih k v he

/-- Any key that is a prefix of an extension but no longer than the
base is a prefix of the base. -/
theorem prefix_of_shorter (k pre : List Bool) (b : Bool)
    (h : k <+: pre ++ [b]) (hlen : k.length ≤ pre.length) : k <+: pre := by
  have h1 : k = (pre ++ [b]).take k.length := List.prefix_iff_eq_take.mp h
  rw [List.take_append_of_le_length hlen] at h1
  rw [h1]
  exact List.take_prefix _ _

/-- `make_dispatcher` succeeds whenever the child map covers every
full-width bit string and no key lies strictly above the current
prefix. -/
theorem mdg_isSome (cm : List (List Bool × InsnInfo)) (name : String)
    (order : Nat)
    (hcov : ∀ bs : List Bool, bs.length = order →
      ∃ k info, (k, info) ∈ cm ∧ k <+: bs) :
    ∀ (fuel : Nat) (pre : List Bool) (ctr : Nat),
    pre.length ≤ order → order + 2 - pre.length ≤ fuel →
    (∀ k info, (k, info) ∈ cm → k <+: pre → k = pre) →
    ∃ r, makeDispatcherGo cm name order fuel pre ctr = some r := by
  intro fuel
  induction fuel with
  | zero => intro pre ctr hlen hfuel hanc; omega
  | succ f ih =>
      intro pre ctr hlen hfuel hanc
      rw [makeDispatcherGo]
      cases hlk : cm.lookup pre with
      | some info => exact ⟨_, rfl⟩
      | none =>
          have hlt : pre.length < order := by
            rcases Nat.lt_or_ge pre.length order with h | h
            · exact h
            · exfalso
              have hpl : pre.length = order := by omega
              obtain ⟨k, info, hmem, hpref⟩ := hcov pre hpl
              have hk := hanc k info hmem hpref
              subst hk
              have := mem_lookup_isSome cm k info hmem
              rw [hlk] at this
              exact Bool.noConfusion this
          have hguard : ¬ (order < pre.length) := by omega
          rw [if_neg hguard]
          have hchild : ∀ (b : Bool), ∀ k info, (k, info) ∈ cm →
              k <+: pre ++ [b] → k = pre ++ [b] := by
            intro b k info hmem hpref
            rcases Nat.lt_or_ge pre.length k.length with hkl | hkl
            · have hle : k.length ≤ (pre ++ [b]).length :=
                hpref.length_le
              rw [List.length_append] at hle
              simp only [List.length_cons, List.length_nil] at hle
              have hlb : (pre ++ [b]).length = pre.length + 1 := by simp
              exact hpref.eq_of_length (by omega)
            · have hkp : k <+: pre := prefix_of_shorter k pre b hpref hkl
              have hk := hanc k info hmem hkp
              subst hk
              exfalso
              have := mem_lookup_isSome cm k info hmem
              rw [hlk] at this
              exact Bool.noConfusion this
          obtain ⟨r0, hr0⟩ := ih (pre ++ [false]) (ctr + 1)
            (by simp; omega) (by simp; omega) (hchild false)
          obtain ⟨r1, hr1⟩ := ih (pre ++ [true]) r0.2
            (by simp; omega) (by simp; omega) (hchild true)
          refine ⟨(.state ctr, r1.2), ?_⟩
          rw [hr0]
          simp only [Option.some_bind, Option.bind_eq_bind]
          rw [hr1]
          rfl

/-- The tiled placement covers every full-width bit string with one of
its keys. -/
theorem placed_covers (order : Nat) (placed : List (Nat × SubR))
    (hchain : placedChain 0 placed (2 ^ order)) (bs : List Bool)
    (hlen : bs.length = order) :
    ∃ pr ∈ placed, keyOf order pr <+: bs := by
  have hv : bitsVal bs < 2 ^ order := hlen ▸ bitsVal_lt bs
  obtain ⟨pr, hpr, h1, h2⟩ :=
    placedChain_cover placed 0 (2 ^ order) (bitsVal bs) hchain
      (Nat.zero_le _) hv
  obtain ⟨hb1, hb2, hb3⟩ := placedChain_bounds placed 0 _ hchain pr hpr
  refine ⟨pr, hpr, ?_⟩
  obtain ⟨o, sub⟩ := pr
  exact (keyOf_prefix_iff order o sub bs hlen hb3 hb2).mpr ⟨h1, h2⟩

/-- Whatever a branch Subroutine is produced from, it occupies one
slot. -/
theorem jumpE_order_eq (jo rel : Nat) (nm : String) (sub : SubR)
    (h : jumpE jo rel nm = some sub) : sub.order = 0 := by
  unfold jumpE at h
  split at h
  · simp only [Option.some_inj] at h
    rw [← h]
  · exact Option.noConfusion h

/-- The placement loop preserves the layout chain (in either jump
mode): the resolved parts tile the same region. -/
theorem resolveParts_chain (labOffs : DictS Nat) (req : List (Nat × Nat))
    (order : Nat) (name : String) (relJumps : Bool) :
    ∀ (l : List MPart) (off fin : Nat) (placed : List (Nat × SubR)),
    chainTo off l fin →
    resolveParts labOffs req order name relJumps l off = some placed →
    placedChain off placed fin := by
  intro l
  induction l with
  | nil =>
      intro off fin placed hchain hres
      rw [resolveParts] at hres
      simp only [Option.some_inj] at hres
      subst hres
      exact hchain
  | cons p rest ih =>
      intro off fin placed hchain hres
      cases p with
      | label l2 => exact absurd hchain.1 (by simp [MPart.isLabel])
      | part sub =>
          obtain ⟨hl, hal, hrest⟩ := hchain
          rw [resolveParts] at hres
          cases hr : resolveParts labOffs req order name relJumps rest
              (off + sub.size) with
          | none => rw [hr] at hres; exact Option.noConfusion hres
          | some tail =>
              rw [hr] at hres
              simp only [Option.bind_eq_bind, Option.some_bind,
                Option.pure_def, Option.some_inj] at hres
              subst hres
              exact ⟨rfl, hal, ih _ _ tail hrest hr⟩
      | goto g =>
          obtain ⟨hl, hal, hrest⟩ := hchain
          rw [resolveParts] at hres
          cases hlk : labOffs.lookup g with
          | none => rw [hlk] at hres; exact Option.noConfusion hres
          | some target =>
              rw [hlk] at hres
              simp only [Option.bind_eq_bind, Option.some_bind] at hres
              cases relJumps with
              | true =>
                  rw [if_pos rfl] at hres
                  cases hr : resolveParts labOffs req order name true rest
                      (off + (rjumpE ((target : Int) - (off : Int))).size) with
                  | none => rw [hr] at hres; exact Option.noConfusion hres
                  | some tail =>
                      rw [hr] at hres
                      simp only [Option.some_bind, Option.pure_def,
                        Option.some_inj] at hres
                      subst hres
                      exact ⟨rfl, Nat.mod_one off, ih _ _ tail hrest hr⟩
              | false =>
                  simp only [Bool.false_eq_true, if_false] at hres
                  cases hsel : selectJump req off target order with
                  | none => rw [hsel] at hres; exact Option.noConfusion hres
                  | some p2 =>
                      rw [hsel] at hres
                      simp only [Option.some_bind] at hres
                      cases hj : jumpE p2.1 p2.2 name with
                      | none => rw [hj] at hres; exact Option.noConfusion hres
                      | some jsub =>
                          rw [hj] at hres
                          simp only [Option.some_bind] at hres
                          have hord := jumpE_order_eq p2.1 p2.2 name jsub hj
                          have hsize : jsub.size = 1 := by
                            rw [SubR.size, hord]
                            rfl
                          cases hr : resolveParts labOffs req order name false
                              rest (off + jsub.size) with
                          | none =>
                              rw [hr] at hres
                              exact Option.noConfusion hres
                          | some tail =>
                              rw [hr] at hres
                              simp only [Option.some_bind, Option.pure_def,
                                Option.some_inj] at hres
                              subst hres
                              rw [hsize] at hr
                              refine ⟨rfl, ?_, ?_⟩
                              · rw [hsize]
                                exact Nat.mod_one off
                              · rw [hsize]
                                exact ih _ _ tail hrest hr


/-! ### Walk facts needed for the full makesub success theorem -/

/-- A label occurring in the walked sequence (or already recorded) ends
up bound in `label_offsets`. -/
theorem walk_label_bound : ∀ (parts : List MPart) (st : LayoutSt) (g : String),
    (CfgPart.label g ∈ parts ∨ ∃ off, (g, off) ∈ st.labelOffsets) →
    ∃ off, (g, off) ∈ (parts.foldl layoutStep st).labelOffsets := by
  intro parts
  induction parts with
  | nil =>
      intro st g h
      rcases h with h | h
      · cases h
      · exact h
  | cons p rest ih =>
      intro st g h
      simp only [List.foldl_cons]
      apply ih (layoutStep st p) g
      rcases h with h | h
      · rcases List.mem_cons.mp h with he | he
        · right
          rw [← he]
          exact ⟨st.offset, List.mem_cons_self _ _⟩
        · left
          exact he
      · right
        obtain ⟨off, hoff⟩ := h
        cases p with
        | label l => exact ⟨off, List.mem_cons_of_mem _ hoff⟩
        | goto g2 => exact ⟨off, hoff⟩
        | part s => exact ⟨off, hoff⟩

/-- Every goto in the walked `real_parts` list comes from the input
sequence (alignment noops introduce no gotos). -/
theorem walk_goto_mem (P : String → Prop) :
    ∀ (parts : List MPart) (st : LayoutSt),
    (∀ g, CfgPart.goto g ∈ st.real → P g) →
    (∀ g, CfgPart.goto g ∈ parts → P g) →
    ∀ g, CfgPart.goto g ∈ (parts.foldl layoutStep st).real → P g := by
  intro parts
  induction parts with
  | nil => intro st hst hp g hg; exact hst g hg
  | cons p rest ih =>
      intro st hst hp g hg
      refine ih (layoutStep st p) ?_
        (fun g2 hg2 => hp g2 (List.mem_cons_of_mem _ hg2)) g hg
      intro g2 hg2
      cases p with
      | label l => exact hst g2 hg2
      | goto g3 =>
          rcases List.mem_append.mp hg2 with hh | hh
          · exact hst g2 hh
          · have he := List.mem_singleton.mp hh
            have hge : g2 = g3 := by injection he
            refine hp g2 ?_
            rw [hge]
            exact List.mem_cons_self _ _
      | part sub =>
          rcases List.mem_append.mp hg2 with hh | hh
          · rcases List.mem_append.mp hh with h1 | h1
            · exact hst g2 h1
            · exfalso
              obtain ⟨k, _, he⟩ := List.mem_map.mp h1
              exact CfgPart.noConfusion he
          · exfalso
            have he := List.mem_singleton.mp hh
            exact CfgPart.noConfusion he

/-- A sequence containing a non-label part walks to a positive total
offset, so the `assert offset > 0` of `makesub` passes. -/
theorem walk_offset_pos (parts : List MPart) (p : MPart) (hp : p ∈ parts)
    (hnl : p.isLabel = false) : 0 < (layoutWalk parts).offset := by
  have hs : 1 ≤ p.size := by
    cases p with
    | label l => exact absurd hnl (by simp [MPart.isLabel])
    | goto g => exact le_refl 1
    | part s => exact Nat.pos_pow_of_pos _ (by norm_num)
  have hmem : p.size ∈ parts.map MPart.size := List.mem_map_of_mem _ hp
  have hsum : p.size ≤ (parts.map MPart.size).sum :=
    List.single_le_sum (fun x _ => Nat.zero_le x) _ hmem
  have hwalk : 0 + (parts.map MPart.size).sum ≤ (layoutWalk parts).offset :=
    layoutWalk_sum_le parts ⟨[], [], [], [], 0⟩
  omega

/-- Every `(jump_order, rel)` pair collected over a chain bounded by
`2^order` has `jump_order ≤ order` (and the `jump` precondition). -/
theorem requiredJumps_le_order (labOffs : DictS Nat) (order : Nat)
    (hLab : ∀ pr ∈ labOffs, pr.2 ≤ 2 ^ order) :
    ∀ (l : List MPart) (off : Nat) (req : List (Nat × Nat)),
    chainTo off l (2 ^ order) →
    requiredJumps labOffs l off = some req →
    ∀ jr ∈ req, jr.1 ≤ order ∧ jr.2 < 2 ^ (jr.1 + 1) := by
  intro l
  induction l with
  | nil =>
      intro off req hc h jr hjr
      rw [requiredJumps] at h
      simp only [Option.some_inj] at h
      subst h
      cases hjr
  | cons p rest ih =>
      intro off req hc h jr hjr
      cases p with
      | label l2 => exact absurd hc.1 (by simp [MPart.isLabel])
      | part sub =>
          obtain ⟨hl, hal, hrest⟩ := hc
          rw [requiredJumps] at h
          exact ih _ req hrest h jr hjr
      | goto g =>
          obtain ⟨hl, hal, hrest⟩ := hc
          rw [requiredJumps] at h
          cases hlk : labOffs.lookup g with
          | none => rw [hlk] at h; exact Option.noConfusion h
          | some target =>
              rw [hlk] at h
              simp only [Option.bind_eq_bind, Option.some_bind] at h
              cases hf : findJump off target with
              | none => rw [hf] at h; exact Option.noConfusion h
              | some jr0 =>
                  obtain ⟨jo, rel⟩ := jr0
                  rw [hf] at h
                  simp only [Option.some_bind] at h
                  cases ht : requiredJumps labOffs rest (off + 1) with
                  | none => rw [ht] at h; exact Option.noConfusion h
                  | some tail =>
                      rw [ht] at h
                      simp only [Option.some_bind, Option.pure_def,
                        Option.some_inj] at h
                      subst h
                      have hoff_lt : off < 2 ^ order := by
                        have := chainTo_mono rest (off + 1) _ hrest
                        omega
                      have htarget : target ≤ 2 ^ order :=
                        hLab _ (lookup_mem labOffs g target hlk)
                      obtain ⟨hjo, _, hrel⟩ :=
                        findJump_le_order off target order jo rel
                          hoff_lt htarget hf
                      rcases List.mem_cons.mp hjr with he | he
                      · subst he
                        exact ⟨hjo, hrel⟩
                      · exact ih (off + 1) tail hrest ht jr he

/-- The master layout theorem: a successful `makesubLayout` run yields
a tiled, self-aligned placement filling exactly `2^order` slots, an
order at least as large as the summed part sizes, and a child map in
which every full-width bit string has exactly one key as a prefix. -/
theorem makesubLayout_main (nextreg : Nat) (noCfg relJumps : Bool)
    (parts : List MPart) (name : String) (order : Nat)
    (cm : List (List Bool × InsnInfo)) (placed : List (Nat × SubR))
    (h : makesubLayout nextreg noCfg relJumps parts name =
      some (order, cm, placed)) :
    placedChain 0 placed (2 ^ order) ∧
    (∀ parts₂, effectiveParts nextreg noCfg parts name = some parts₂ →
      (parts₂.map MPart.size).sum ≤ 2 ^ order) ∧
    (∀ bs : List Bool, bs.length = order →
      ∃ k info, (k, info) ∈ cm ∧ k <+: bs ∧
        ∀ k2 info2, (k2, info2) ∈ cm → k2 <+: bs → k2 = k) := by
  rw [makesubLayout] at h
  cases heff : effectiveParts nextreg noCfg parts name with
  | none => rw [heff] at h; exact Option.noConfusion h
  | some p2 =>
      rw [heff] at h
      simp only [Option.bind_eq_bind, Option.some_bind] at h
      by_cases hz : (layoutWalk p2).offset = 0
      · rw [if_pos hz] at h
        exact Option.noConfusion h
      · rw [if_neg hz] at h
        set st := layoutWalk p2 with hst
        set ord2 := ordOf st.offset with hord2
        set padded := st.real ++
          (padChunks (2 ^ ord2) st.offset).map
            (fun k => CfgPart.part (noopE k)) with hpad
        cases hreq : requiredJumps st.labelOffsets padded 0 with
        | none => rw [hreq] at h; exact Option.noConfusion h
        | some req =>
            rw [hreq] at h
            simp only [Option.some_bind] at h
            cases hres : resolveParts st.labelOffsets req ord2 name relJumps
                padded 0 with
            | none => rw [hres] at h; exact Option.noConfusion h
            | some placed2 =>
                rw [hres] at h
                simp only [Option.some_bind] at h
                cases hcm : buildChildMap st.labelMap st.gotoMap ord2
                    placed2 with
                | none => rw [hcm] at h; exact Option.noConfusion h
                | some cm2 =>
                    rw [hcm] at h
                    simp only [Option.some_bind, Option.pure_def,
                      Option.some_inj, Prod.mk.injEq] at h
                    obtain ⟨ho, hc2, hp2⟩ := h
                    subst ho
                    subst hc2
                    subst hp2
                    obtain ⟨hwchain, hwlab⟩ := layoutWalk_inv p2
                    rw [← hst] at hwchain hwlab
                    have hfin : st.offset ≤ 2 ^ ord2 := by
                      rw [hord2]
                      exact le_pow_ordOf st.offset
                    have hpchain : chainTo 0 padded (2 ^ ord2) := by
                      rw [hpad]
                      exact chainTo_append _ _ 0 st.offset _ hwchain
                        (padChunks_chain ord2 st.offset hfin)
                    have hchainP : placedChain 0 placed2 (2 ^ ord2) :=
                      resolveParts_chain st.labelOffsets req ord2 name relJumps
                        padded 0 _ placed2 hpchain hres
                    have hcmspec :=
                      buildChildMap_spec st.labelMap st.gotoMap ord2 placed2 0
                        hchainP
                    rw [hcm] at hcmspec
                    have hcme : cm2 = placed2.map (fun pr =>
                        (keyOf ord2 pr,
                          ⟨pr.2, st.labelMap.lookup pr.1,
                            st.gotoMap.lookup pr.1⟩)) :=
                      Option.some_inj.mp hcmspec
                    refine ⟨hchainP, ?_, ?_⟩
                    · intro q hq
                      have hqe : q = p2 := (Option.some_inj.mp hq).symm
                      subst hqe
                      have hsum : 0 + (q.map MPart.size).sum ≤ st.offset :=
                        layoutWalk_sum_le q ⟨[], [], [], [], 0⟩
                      omega
                    · intro bs hlen
                      obtain ⟨pr, hpr, hkpref⟩ :=
                        placed_covers ord2 placed2 hchainP bs hlen
                      refine ⟨keyOf ord2 pr,
                        ⟨pr.2, st.labelMap.lookup pr.1,
                          st.gotoMap.lookup pr.1⟩, ?_, hkpref, ?_⟩
                      · rw [hcme]
                        exact List.mem_map_of_mem _ hpr
                      · intro k2 info2 hk2 hk2p
                        rw [hcme] at hk2
                        obtain ⟨pr2, hpr2, hpr2e⟩ := List.mem_map.mp hk2
                        have hk2e : k2 = keyOf ord2 pr2 :=
                          (congrArg Prod.fst hpr2e).symm
                        obtain ⟨hb1, hb2, hb3⟩ :=
                          placedChain_bounds placed2 0 _ hchainP pr2 hpr2
                        obtain ⟨ha1, ha2, ha3⟩ :=
                          placedChain_bounds placed2 0 _ hchainP pr hpr
                        obtain ⟨o2, s2⟩ := pr2
                        obtain ⟨o1, s1⟩ := pr
                        have hr2 :=
                          (keyOf_prefix_iff ord2 o2 s2 bs hlen hb3 hb2).mp
                            (by rw [← hk2e]; exact hk2p)
                        have hr1 :=
                          (keyOf_prefix_iff ord2 o1 s1 bs hlen ha3 ha2).mp
                            hkpref
                        have hu :=
                          placedChain_unique placed2 0 _ (bitsVal bs) hchainP
                            (o2, s2) (o1, s1) hpr2 hpr hr2.1 hr2.2 hr1.1 hr1.2
                        rw [hk2e, hu]


/-! ### Register-machine run infrastructure -/

theorem rmSteps_add (placed : List (Nat × SubR)) :
    ∀ (k1 k2 : Nat) (s : Nat × (Nat → Nat)),
    rmSteps placed (k1 + k2) s =
      (rmSteps placed k1 s).bind (rmSteps placed k2) := by
  intro k1
  induction k1 with
  | zero =>
      intro k2 s
      rw [Nat.zero_add]
      rfl
  | succ k ih =>
      intro k2 s
      have h : k + 1 + k2 = (k + k2) + 1 := by omega
      rw [h]
      simp only [rmSteps]
      cases hstep : rmStep placed s with
      | none => simp
      | some s2 =>
          simp only [Option.some_bind]
          exact ih k2 s2

theorem partsPlaced_mem : ∀ (subs : List SubR) (off : Nat) (pr : Nat × SubR),
    pr ∈ partsPlaced subs off → pr.2 ∈ subs := by
  intro subs
  induction subs with
  | nil => intro off pr h; cases h
  | cons s rest ih =>
      intro off pr h
      rcases List.mem_cons.mp h with he | he
      · rw [he]
        exact List.mem_cons_self _ _
      · exact List.mem_cons_of_mem _ (ih _ pr he)

theorem placedChain_split : ∀ (l1 l2 : List (Nat × SubR)) (a b : Nat),
    placedChain a (l1 ++ l2) b →
    ∃ m, placedChain a l1 m ∧ placedChain m l2 b := by
  intro l1
  induction l1 with
  | nil => intro l2 a b h; exact ⟨a, rfl, h⟩
  | cons hd rest ih =>
      intro l2 a b h
      obtain ⟨o, s⟩ := hd
      obtain ⟨ho, hal, hrest⟩ := h
      obtain ⟨m, h1, h2⟩ := ih l2 _ b hrest
      exact ⟨m, ⟨ho, hal, h1⟩, h2⟩

/-- The dispatcher's routing: on a tiled placement, the slot lookup at
a PC inside a placed part's range returns exactly that part. -/
theorem rmFind_correct : ∀ (placed : List (Nat × SubR)) (a b : Nat),
    placedChain a placed b → ∀ (o : Nat) (s : SubR) (pc : Nat),
    (o, s) ∈ placed → o ≤ pc → pc < o + s.size →
    rmFind placed pc = some (o, s) := by
  intro placed
  induction placed with
  | nil => intro a b h o s pc hm; cases hm
  | cons hd rest ih =>
      intro a b h o s pc hm h1 h2
      obtain ⟨o0, s0⟩ := hd
      obtain ⟨ho, hal, hrest⟩ := h
      by_cases hin : o0 ≤ pc ∧ pc < o0 + s0.size
      · rcases List.mem_cons.mp hm with he | he
        · injection he with he1 he2
          subst he1
          subst he2
          rw [rmFind]
          have hb1 : (decide (o ≤ pc)) = true := decide_eq_true h1
          have hb2 : (decide (pc < o + s.size)) = true := decide_eq_true h2
          simp [List.find?, hb1, hb2]
        · exfalso
          have hlow : a + s0.size ≤ o :=
            (placedChain_bounds rest _ _ hrest (o, s) he).1
          omega
      · rcases List.mem_cons.mp hm with he | he
        · exfalso
          apply hin
          injection he with he1 he2
          rw [← he1, ← he2]
          exact ⟨h1, h2⟩
        · have hres := ih _ _ hrest o s pc he h1 h2
          rw [rmFind] at hres ⊢
          have hb : (decide (o0 ≤ pc) && decide (pc < o0 + s0.size)) = false := by
            rcases Nat.lt_or_ge pc o0 with hc | hc
            · have hno : ¬ (o0 ≤ pc) := Nat.not_le.mpr hc
              simp [hno]
            · have hno : ¬ pc < o0 + s0.size := fun hcc => hin ⟨hc, hcc⟩
              simp [hno]
          simp [List.find?, hb, hres]

theorem sum_sizes_incs (ts : List Nat) :
    ((ts.map regIncS).map SubR.size).sum = ts.length := by
  induction ts with
  | nil => rfl
  | cons t rest ih =>
      simp only [List.map_cons, List.sum_cons, ih, List.length_cons]
      have hsz : (regIncS t).size = 1 := rfl
      omega

/-- Peeling a block of parts off a `PartsSem` decomposition. -/
theorem PartsSem_parts (labOffs : DictS Nat) (subs : List SubR) :
    ∀ (rest : List MPart) (off : Nat) (placed : List (Nat × SubR)),
    PartsSem labOffs ((subs.map CfgPart.part) ++ rest) off placed →
    ∃ tail, placed = partsPlaced subs off ++ tail ∧
      PartsSem labOffs rest (off + (subs.map SubR.size).sum) tail := by
  induction subs with
  | nil =>
      intro rest off placed h
      refine ⟨placed, by simp [partsPlaced], ?_⟩
      simpa using h
  | cons s rest2 ih =>
      intro rest off placed h
      simp only [List.map_cons, List.cons_append, PartsSem] at h
      obtain ⟨t0, ht0, hs0⟩ := h
      obtain ⟨tail, htl, hsem⟩ := ih rest (off + s.size) t0 hs0
      refine ⟨tail, ?_, ?_⟩
      · rw [ht0, htl]
        rfl
      · have harith : off + s.size + (rest2.map SubR.size).sum =
            off + ((s :: rest2).map SubR.size).sum := by
          simp only [List.map_cons, List.sum_cons]
          omega
        rw [harith] at hsem
        exact hsem


/-- The placement loop of `makesub` (prefix-patch mode) succeeds on a
catalogued chain and produces a placement that tiles the region and
realizes each element's semantics (`PartsSem`): parts placed as
themselves, gotos as patch jumps landing on their labels. -/
theorem resolveParts_sem (labOffs : DictS Nat) (req : List (Nat × Nat))
    (order : Nat) (name : String)
    (hValid : ∀ jr ∈ req, jr.2 < 2 ^ (jr.1 + 1))
    (hLab : ∀ pr ∈ labOffs, pr.2 ≤ 2 ^ order) :
    ∀ (l : List MPart) (off fin : Nat) (reqSub : List (Nat × Nat)),
    chainTo off l fin → fin ≤ 2 ^ order →
    requiredJumps labOffs l off = some reqSub →
    (∀ x ∈ reqSub, x ∈ req) →
    ∃ placed, resolveParts labOffs req order name false l off = some placed ∧
      placedChain off placed fin ∧ PartsSem labOffs l off placed := by
  intro l
  induction l with
  | nil =>
      intro off fin reqSub hchain hfin hreq hsub
      exact ⟨[], by rw [resolveParts], hchain, rfl⟩
  | cons p rest ih =>
      intro off fin reqSub hchain hfin hreq hsub
      cases p with
      | label l2 => exact absurd hchain.1 (by simp [MPart.isLabel])
      | part sub =>
          obtain ⟨hl, hal, hrest⟩ := hchain
          rw [requiredJumps] at hreq
          obtain ⟨placed, hres, hpc, hsem⟩ :=
            ih (off + sub.size) fin reqSub hrest hfin hreq hsub
          refine ⟨(off, sub) :: placed, ?_, ⟨rfl, hal, hpc⟩,
            placed, rfl, hsem⟩
          rw [resolveParts, hres]
          simp
      | goto g =>
          obtain ⟨hl, hal, hrest⟩ := hchain
          rw [requiredJumps] at hreq
          cases hlk : labOffs.lookup g with
          | none => rw [hlk] at hreq; exact Option.noConfusion hreq
          | some target =>
              rw [hlk] at hreq
              simp only [Option.bind_eq_bind, Option.some_bind] at hreq
              cases hfj : findJump off target with
              | none => rw [hfj] at hreq; exact Option.noConfusion hreq
              | some jr0 =>
                  obtain ⟨jstar, rstar⟩ := jr0
                  rw [hfj] at hreq
                  simp only [Option.some_bind] at hreq
                  cases hrt : requiredJumps labOffs rest (off + 1) with
                  | none => rw [hrt] at hreq; exact Option.noConfusion hreq
                  | some reqTail =>
                      rw [hrt] at hreq
                      simp only [Option.some_bind, Option.pure_def,
                        Option.some_inj] at hreq
                      have hmem : (jstar, rstar) ∈ req :=
                        hsub _ (by rw [← hreq]; exact List.mem_cons_self _ _)
                      have hoff_lt : off < 2 ^ order := by
                        have := chainTo_mono rest (off + 1) fin hrest
                        omega
                      have htarget : target ≤ 2 ^ order :=
                        hLab _ (lookup_mem labOffs g target hlk)
                      obtain ⟨hjo, hbase_add, hrel_lt⟩ :=
                        findJump_le_order off target order jstar rstar
                          hoff_lt htarget hfj
                      obtain ⟨_, hcond, hrelstar, _⟩ :=
                        findJumpAux_spec off target _ 0 jstar rstar hfj
                      obtain ⟨psel, hpsel⟩ :=
                        selectJump_isSome req off target order jstar rstar
                          hmem hjo hcond.1 hrelstar
                      obtain ⟨jo2, rel2⟩ := psel
                      obtain ⟨hmem2, hbase2, hrel2, hjo2⟩ :=
                        selJumpGo_spec req off target order (order + 1) 0 none
                          jo2 rel2 (fun p hp => Option.noConfusion hp) hpsel
                      obtain ⟨jsub, hjE, horder, hsem2⟩ :=
                        jumpE_some jo2 rel2 name (hValid _ hmem2)
                      have hsize : jsub.size = 1 := by
                        rw [SubR.size, horder]
                        rfl
                      obtain ⟨placed, hres, hpc, hsem⟩ :=
                        ih (off + 1) fin reqTail hrest hfin hrt
                          (fun x hx => hsub x
                            (by rw [← hreq]; exact List.mem_cons_of_mem _ hx))
                      refine ⟨(off, jsub) :: placed, ?_, ⟨rfl, ?_, ?_⟩,
                        jsub, placed, target, rfl, hlk, horder,
                        ⟨jo2, rel2, hsem2, by omega⟩, hsem⟩
                      · rw [resolveParts, hlk]
                        simp only [Option.some_bind, Bool.false_eq_true,
                          if_false, Option.bind_eq_bind]
                        rw [hpsel]
                        simp only [Option.some_bind]
                        rw [hjE]
                        simp only [Option.some_bind]
                        rw [hsize, hres]
                        simp
                      · rw [hsize]
                        exact Nat.mod_one off
                      · rw [hsize]
                        exact hpc



/-- Full success of the layout stages in prefix mode, together with the
semantic decomposition of the resulting placement. -/
theorem makesubLayout_successP (nextreg : Nat) (noCfg : Bool)
    (parts parts₂ : List MPart) (name : String)
    (heff : effectiveParts nextreg noCfg parts name = some parts₂)
    (hglab : ∀ g, CfgPart.goto g ∈ parts₂ → CfgPart.label g ∈ parts₂)
    (hne : ∃ p ∈ parts₂, p.isLabel = false) :
    ∃ cm placed,
      makesubLayout nextreg noCfg false parts name =
        some (ordOf (layoutWalk parts₂).offset, cm, placed) ∧
      placedChain 0 placed (2 ^ ordOf (layoutWalk parts₂).offset) ∧
      PartsSem (layoutWalk parts₂).labelOffsets
        ((layoutWalk parts₂).real ++
          (padChunks (2 ^ ordOf (layoutWalk parts₂).offset)
            (layoutWalk parts₂).offset).map
              fun k => CfgPart.part (noopE k)) 0 placed := by
  obtain ⟨p0, hp0, hp0l⟩ := hne
  have hoffpos := walk_offset_pos parts₂ p0 hp0 hp0l
  set st := layoutWalk parts₂ with hst
  set ord2 := ordOf st.offset with hord2
  set padded := st.real ++
    (padChunks (2 ^ ord2) st.offset).map
      (fun k => CfgPart.part (noopE k)) with hpad
  have hbound : ∀ g, CfgPart.goto g ∈ padded →
      (st.labelOffsets.lookup g).isSome := by
    intro g hg
    have hreal : CfgPart.goto g ∈ st.real := by
      rw [hpad] at hg
      rcases List.mem_append.mp hg with hh | hh
      · exact hh
      · exfalso
        obtain ⟨k, _, he⟩ := List.mem_map.mp hh
        exact CfgPart.noConfusion he
    refine walk_goto_mem
      (fun g2 => ((layoutWalk parts₂).labelOffsets.lookup g2).isSome = true)
      parts₂ ⟨[], [], [], [], 0⟩ ?_ ?_ g hreal
    · intro g2 hg2
      cases hg2
    · intro g2 hg2
      obtain ⟨off, hoff⟩ :=
        walk_label_bound parts₂ ⟨[], [], [], [], 0⟩ g2
          (Or.inl (hglab g2 hg2))
      exact mem_lookup_isSome _ g2 off hoff
  obtain ⟨req, hreq⟩ := requiredJumps_isSome st.labelOffsets padded 0 hbound
  obtain ⟨hwchain, hwlab⟩ := layoutWalk_inv parts₂
  rw [← hst] at hwchain hwlab
  have hfin : st.offset ≤ 2 ^ ord2 := by
    rw [hord2]
    exact le_pow_ordOf st.offset
  have hpchain : chainTo 0 padded (2 ^ ord2) := by
    rw [hpad]
    exact chainTo_append _ _ 0 st.offset _ hwchain
      (padChunks_chain ord2 st.offset hfin)
  have hvalid := requiredJumps_valid st.labelOffsets padded 0 req hreq
  obtain ⟨placed, hres, hchainP, hpsem⟩ :=
    resolveParts_sem st.labelOffsets req ord2 name hvalid
      (fun pr hpr => le_trans (hwlab pr hpr) hfin) padded 0 (2 ^ ord2) req
      hpchain (le_refl _) hreq (fun x hx => hx)
  have hcmspec := buildChildMap_spec st.labelMap st.gotoMap ord2 placed 0
    hchainP
  refine ⟨placed.map (fun pr =>
      (keyOf ord2 pr,
        ⟨pr.2, st.labelMap.lookup pr.1, st.gotoMap.lookup pr.1⟩)),
    placed, ?_, hchainP, hpsem⟩
  rw [makesubLayout, heff]
  simp only [Option.bind_eq_bind, Option.some_bind]
  rw [← hst, ← hord2, ← hpad]
  rw [if_neg (by omega)]
  rw [hreq]
  simp only [Option.some_bind]
  rw [hres]
  simp only [Option.some_bind]
  rw [hcmspec]
  simp only [Option.some_bind, Option.pure_def]



/-! ### cfg_optimizer acts as the identity on transfer's sequence -/

theorem buildMaps_go_parts {α : Type} (subs : List α) :
    ∀ (rest : List (CfgPart α)) (counter : Nat) (lm : DictS Nat)
      (rlm gm : DictN String),
    CfgPart.buildMaps.go (subs.map CfgPart.part ++ rest) counter [] lm rlm gm =
      CfgPart.buildMaps.go rest (counter + subs.length) [] lm rlm gm := by
  induction subs with
  | nil =>
      intro rest counter lm rlm gm
      simp
  | cons a rest2 ih =>
      intro rest counter lm rlm gm
      simp only [List.map_cons, List.cons_append]
      rw [CfgPart.buildMaps.go]
      simp only [List.foldl_nil]
      rw [ih]
      congr 1
      simp only [List.length_cons]
      omega

theorem transformAux_label {α : Type} (gm : DictN String) (lm : DictS Nat)
    (rlm : DictN String) (l : String) (rest : List (CfgPart α))
    (counter : Nat) :
    transformAux gm lm rlm (.label l :: rest) counter =
      (transformAux gm lm rlm rest counter).map (.label l :: ·) := rfl

theorem transformAux_part {α : Type} (gm : DictN String) (lm : DictS Nat)
    (rlm : DictN String) (a : α) (rest : List (CfgPart α)) (counter : Nat) :
    transformAux gm lm rlm (.part a :: rest) counter =
      (transformAux gm lm rlm rest (counter + 1)).map (.part a :: ·) := rfl

theorem transformAux_parts {α : Type} (gm : DictN String) (lm : DictS Nat)
    (rlm : DictN String) (subs : List α) :
    ∀ (rest : List (CfgPart α)) (counter : Nat),
    transformAux gm lm rlm (subs.map CfgPart.part ++ rest) counter =
      (transformAux gm lm rlm rest (counter + subs.length)).map
        (fun l => subs.map CfgPart.part ++ l) := by
  induction subs with
  | nil =>
      intro rest counter
      simp
  | cons a rest2 ih =>
      intro rest counter
      simp only [List.map_cons, List.cons_append]
      rw [transformAux_part, ih]
      rw [Option.map_map]
      have harith : counter + 1 + rest2.length = counter + (rest2.length + 1) := by
        omega
      rw [harith]
      rfl

/-- The goto case of the second `cfg_optimizer` pass when the goto is
kept unchanged: no following goto, target not the next instruction, and
jump threading is a no-op. -/
theorem transformAux_goto {α : Type} (gm : DictN String) (lm : DictS Nat)
    (rlm : DictN String) (g : String) (rest : List (CfgPart α))
    (counter target : Nat)
    (h1 : gm.lookup counter = some g)
    (h2 : lm.lookup g = some target)
    (h3 : followAux gm lm 10 target = some target)
    (hnext : gm.lookup (counter + 1) = none)
    (hne1 : target ≠ counter + 1) :
    transformAux gm lm rlm (.goto g :: rest) counter =
      (transformAux gm lm rlm rest (counter + 1)).map (.goto g :: ·) := by
  rw [transformAux]
  rw [h1]
  simp only [Option.some_bind, Option.bind_eq_bind]
  rw [h2]
  simp only [Option.some_bind]
  rw [h3]
  simp only [Option.some_bind]
  rw [hnext]
  simp only [Option.some_bind]
  have hcond : ¬ (target = counter + 1 ∨ some target = none) := by
    intro h
    rcases h with h | h
    · exact hne1 h
    · exact Option.noConfusion h
  have hcond2 : ¬ (target ≠ target) := fun h => h rfl
  cases ht : transformAux gm lm rlm rest (counter + 1) with
  | none => rfl
  | some tail =>
      simp only [Option.some_bind]
      rw [if_neg hcond, if_neg hcond2]
      rfl



/-- `cfg_optimizer` keeps every element of `transfer`'s operation
sequence when there is at least one target: neither goto jumps to the
next instruction, and jump threading moves neither. -/
theorem cfgOpt_transfer_pos (src : Nat) (ts : List Nat)
    (hn : 1 ≤ ts.length) :
    cfgOptimizerE (transferParts src ts) = some (transferParts src ts) := by
  have f1 : ((1 : Nat) == ts.length + 2) = false := by
    rw [beq_eq_false_iff_ne]
    omega
  have f2 : ((0 : Nat) == ts.length + 2) = false := by
    rw [beq_eq_false_iff_ne]
    omega
  have f3 : ((ts.length + 3 : Nat) == ts.length + 2) = false := by
    rw [beq_eq_false_iff_ne]
    omega
  have f4 : ((ts.length + 3 : Nat) == 1) = false := by
    rw [beq_eq_false_iff_ne]
    omega
  have f5 : ((1 + 1 : Nat) == ts.length + 2) = false := by
    rw [beq_eq_false_iff_ne]
    omega
  have f6 : ((2 + ts.length : Nat) == ts.length + 2) = true := by
    rw [show (2 + ts.length : Nat) = ts.length + 2 from by omega]
    exact beq_self_eq_true _
  have f7 : ((2 + ts.length + 1 : Nat) == ts.length + 2) = false := by
    rw [beq_eq_false_iff_ne]
    omega
  have f8 : ((2 + ts.length + 1 : Nat) == 1) = false := by
    rw [beq_eq_false_iff_ne]
    omega
  have fs1 : (("again" : String) == "zero") = false := by decide
  have hbm : CfgPart.buildMaps (transferParts src ts) =
      ([("zero", ts.length + 3), ("again", 0)],
       [(ts.length + 3, "zero"), (0, "again")],
       [(ts.length + 2, "again"), (1, "zero")]) := by
    rw [transferParts, CfgPart.buildMaps]
    simp only [List.cons_append, List.nil_append]
    rw [CfgPart.buildMaps.go, CfgPart.buildMaps.go, CfgPart.buildMaps.go]
    simp only [List.nil_append, List.foldl_cons, List.foldl_nil]
    rw [buildMaps_go_parts]
    rw [CfgPart.buildMaps.go, CfgPart.buildMaps.go, CfgPart.buildMaps.go]
    simp only [List.foldl_cons, List.foldl_nil, List.length_map,
      Prod.mk.injEq, List.cons.injEq, List.nil_append]
    simp only [true_and, and_true]
    omega
  have hgm1 : List.lookup 1
      ([(ts.length + 2, "again"), (1, "zero")] : DictN String) =
      some "zero" := by
    simp [List.lookup, f1]
  have hlmz : List.lookup "zero"
      ([("zero", ts.length + 3), ("again", 0)] : DictS Nat) =
      some (ts.length + 3) := by
    simp [List.lookup]
  have hgm33 : List.lookup (ts.length + 3)
      ([(ts.length + 2, "again"), (1, "zero")] : DictN String) = none := by
    simp [List.lookup, f3, f4]
  have hfol3 : followAux ([(ts.length + 2, "again"), (1, "zero")])
      ([("zero", ts.length + 3), ("again", 0)]) 10 (ts.length + 3) =
      some (ts.length + 3) := by
    rw [followAux, hgm33]
  have hgm2 : List.lookup (1 + 1)
      ([(ts.length + 2, "again"), (1, "zero")] : DictN String) = none := by
    have f5b : ((1 + 1 : Nat) == 1) = false := by decide
    simp [List.lookup, f5, f5b]
  have hgmA : List.lookup (2 + ts.length)
      ([(ts.length + 2, "again"), (1, "zero")] : DictN String) =
      some "again" := by
    simp [List.lookup, f6]
  have hlmA : List.lookup "again"
      ([("zero", ts.length + 3), ("again", 0)] : DictS Nat) = some 0 := by
    simp [List.lookup, fs1]
  have hgm0 : List.lookup 0
      ([(ts.length + 2, "again"), (1, "zero")] : DictN String) = none := by
    simp [List.lookup, f2]
  have hfol0 : followAux ([(ts.length + 2, "again"), (1, "zero")])
      ([("zero", ts.length + 3), ("again", 0)]) 10 0 = some 0 := by
    rw [followAux, hgm0]
  have hgmN : List.lookup (2 + ts.length + 1)
      ([(ts.length + 2, "again"), (1, "zero")] : DictN String) = none := by
    simp [List.lookup, f7, f8]
  rw [cfgOptimizerE, hbm]
  rw [transferParts]
  simp only [List.cons_append, List.nil_append]
  rw [transformAux_label, transformAux_part]
  rw [show (0 : Nat) + 1 = 1 from rfl]
  rw [transformAux_goto _ _ _ _ _ _ (ts.length + 3) hgm1 hlmz hfol3 hgm2
    (by omega)]
  rw [show (1 : Nat) + 1 = 2 from rfl]
  rw [transformAux_parts]
  rw [List.length_map]
  rw [transformAux_goto _ _ _ _ _ _ 0 hgmA hlmA hfol0 hgmN (by omega)]
  rw [transformAux_label]
  rw [show transformAux ([(ts.length + 2, "again"), (1, "zero")])
      ([("zero", ts.length + 3), ("again", 0)])
      ([(ts.length + 3, "zero"), (0, "again")])
      ([] : List MPart) (2 + ts.length + 1) = some [] from rfl]
  simp

theorem cfgOpt_transfer (src : Nat) (ts : List Nat) :
    cfgOptimizerE (transferParts src ts) = some (transferParts src ts) := by
  cases ts with
  | nil => rfl
  | cons t0 tr => exact cfgOpt_transfer_pos src (t0 :: tr) (by simp)



/-! ### The layout walk on transfer's sequence -/

theorem alignChunks_zero (offset : Nat) : alignChunks 0 offset = [] := rfl

theorem layoutWalk_parts_block : ∀ (subs : List SubR),
    (∀ s ∈ subs, s.order = 0) → ∀ (rest : List MPart) (st : LayoutSt),
    List.foldl layoutStep st (subs.map CfgPart.part ++ rest) =
      List.foldl layoutStep
        { st with real := st.real ++ subs.map CfgPart.part,
                  offset := st.offset + subs.length } rest := by
  intro subs
  induction subs with
  | nil =>
      intro h0 rest st
      simp
  | cons s rest2 ih =>
      intro h0 rest st
      simp only [List.map_cons, List.cons_append, List.foldl_cons]
      have hs0 : s.order = 0 := h0 s (List.mem_cons_self _ _)
      have hch : alignChunks s.order st.offset = [] := by
        rw [hs0]
        rfl
      have hsz : s.size = 1 := by
        rw [SubR.size, hs0]
        rfl
      have hstep : layoutStep st (CfgPart.part s) =
          { st with real := st.real ++ [CfgPart.part s],
                    offset := st.offset + 1 } := by
        rw [layoutStep]
        rw [hch, hsz]
        simp
      rw [hstep]
      rw [ih (fun s2 h2 => h0 s2 (List.mem_cons_of_mem _ h2)) rest _]
      congr 1
      simp [List.append_assoc]
      omega



/-- The first `makesub` loop on `transfer`'s sequence: labels `again`
and `zero` bound at offsets `0` and `n+3`, real parts
`[dec, jump-to-zero, inc.., jump-to-again]`, total offset `n + 3`. -/
theorem walk_transfer (src : Nat) (ts : List Nat) :
    layoutWalk (transferParts src ts) =
      { labelOffsets := [("zero", ts.length + 3), ("again", 0)],
        labelMap := [(ts.length + 3, ["zero"]), (0, ["again"])],
        gotoMap := [(ts.length + 2, "again"), (1, "zero")],
        real := [CfgPart.part (regDecS src), CfgPart.goto "zero"] ++
          (ts.map regIncS).map CfgPart.part ++ [CfgPart.goto "again"],
        offset := ts.length + 3 } := by
  have hord : ∀ s ∈ ts.map regIncS, s.order = 0 := by
    intro s2 hs2
    obtain ⟨t, _, he⟩ := List.mem_map.mp hs2
    rw [← he]
    rfl
  have fb0 : ((2 + ts.length + 1 : Nat) == 0) = false := by
    rw [beq_eq_false_iff_ne]
    omega
  rw [layoutWalk, transferParts]
  simp only [List.cons_append, List.nil_append, List.foldl_cons]
  rw [show layoutStep ⟨[], [], [], [], 0⟩ (CfgPart.label "again") =
      ⟨[("again", 0)], [(0, ["again"])], [], [], 0⟩ from rfl]
  rw [show layoutStep ⟨[("again", 0)], [(0, ["again"])], [], [], 0⟩
      (CfgPart.part (regDecS src)) =
      ⟨[("again", 0)], [(0, ["again"])], [],
        [CfgPart.part (regDecS src)], 1⟩ from rfl]
  rw [show layoutStep
      ⟨[("again", 0)], [(0, ["again"])], [], [CfgPart.part (regDecS src)], 1⟩
      (CfgPart.goto "zero") =
      ⟨[("again", 0)], [(0, ["again"])], [(1, "zero")],
        [CfgPart.part (regDecS src), CfgPart.goto "zero"], 2⟩ from rfl]
  rw [layoutWalk_parts_block (ts.map regIncS) hord]
  simp only [List.foldl_cons, List.foldl_nil, List.length_map]
  simp only [layoutStep, appendLabel]
  simp only [List.lookup, fb0]
  simp only [LayoutSt.mk.injEq, List.cons.injEq, Prod.mk.injEq,
    List.append_assoc, true_and, and_true]
  constructor
  · omega
  constructor
  · omega
  constructor
  · omega
  exact ⟨rfl, by omega⟩



/-! ### Running the placed transfer loop -/

theorem run_incs (placed : List (Nat × SubR)) (B : Nat)
    (hchain : placedChain 0 placed B) :
    ∀ (ts : List Nat) (off : Nat) (regs : Nat → Nat),
    (∀ pr ∈ partsPlaced (ts.map regIncS) off, pr ∈ placed) →
    rmSteps placed ts.length (off, regs) =
      some (off + ts.length, incAll ts regs) := by
  intro ts
  induction ts with
  | nil =>
      intro off regs hmem
      simp [rmSteps, incAll]
  | cons t tr ih =>
      intro off regs hmem
      have hmemH : (off, regIncS t) ∈ placed :=
        hmem (off, regIncS t) (List.mem_cons_self _ _)
      have hfind : rmFind placed off = some (off, regIncS t) :=
        rmFind_correct placed 0 B hchain off (regIncS t) off hmemH (le_refl _)
          (by rw [show (regIncS t).size = 1 from rfl]; omega)
      have hstep : rmStep placed (off, regs) =
          some (off + 1, fun i => if i = t then regs i + 1 else regs i) := by
        simp [rmStep, hfind, regIncS]
      show (rmStep placed (off, regs)).bind _ = _
      rw [hstep]
      simp only [Option.some_bind]
      rw [ih (off + 1) _ (fun pr hpr => hmem pr (List.mem_cons_of_mem _ hpr))]
      have harith : off + 1 + tr.length = off + (tr.length + 1) := by omega
      rw [harith]
      rfl

theorem run_noops (placed : List (Nat × SubR)) (B : Nat)
    (hchain : placedChain 0 placed B) :
    ∀ (ks : List Nat) (off fin : Nat) (regs : Nat → Nat),
    placedChain off (partsPlaced (ks.map noopE) off) fin →
    (∀ pr ∈ partsPlaced (ks.map noopE) off, pr ∈ placed) →
    rmSteps placed ks.length (off, regs) = some (fin, regs) := by
  intro ks
  induction ks with
  | nil =>
      intro off fin regs hseg hmem
      have hfo : fin = off := hseg
      rw [hfo]
      rfl
  | cons k kr ih =>
      intro off fin regs hseg hmem
      obtain ⟨ho, hal, hrest⟩ := hseg
      have hmemH : (off, noopE k) ∈ placed :=
        hmem (off, noopE k) (List.mem_cons_self _ _)
      have hpow : 0 < 2 ^ k := Nat.pos_pow_of_pos _ (by norm_num)
      have hfind : rmFind placed off = some (off, noopE k) :=
        rmFind_correct placed 0 B hchain off (noopE k) off hmemH (le_refl _)
          (by rw [show (noopE k).size = 2 ^ k from rfl]; omega)
      have hstep : rmStep placed (off, regs) = some (off + 2 ^ k, regs) := by
        simp [rmStep, hfind, noopE]
      show (rmStep placed (off, regs)).bind _ = _
      rw [hstep]
      simp only [Option.some_bind]
      exact ih (off + 2 ^ k) fin regs hrest
        (fun pr hpr => hmem pr (List.mem_cons_of_mem _ hpr))

theorem incAll_val : ∀ (ts : List Nat), ts.Nodup → ∀ (f : Nat → Nat) (r : Nat),
    incAll ts f r = if r ∈ ts then f r + 1 else f r := by
  intro ts
  induction ts with
  | nil => intro hnd f r; simp [incAll]
  | cons t tr ih =>
      intro hnd f r
      have hnd2 : tr.Nodup := (List.nodup_cons.mp hnd).2
      have hni : t ∉ tr := (List.nodup_cons.mp hnd).1
      show incAll tr _ r = _
      rw [ih hnd2]
      by_cases hr : r ∈ tr
      · have hrt : r ≠ t := fun he => hni (he ▸ hr)
        simp [List.mem_cons, hr, hrt]
      · by_cases hrt : r = t
        · subst hrt
          simp [List.mem_cons, hr]
        · simp [List.mem_cons, hr, hrt]



/-- Running the placed `transfer` loop to completion: the source is
zeroed, every target gains the source's initial value, nothing else
changes, and the PC exits at `2^order` past the subprogram base. -/
theorem transfer_run (placed : List (Nat × SubR)) (order : Nat)
    (src : Nat) (ts padKs : List Nat) (jz ja : SubR)
    (hplaced : placed =
      (0, regDecS src) :: (1, jz) :: (partsPlaced (ts.map regIncS) 2 ++
        (2 + ts.length, ja) ::
          partsPlaced (padKs.map noopE) (ts.length + 3)))
    (hchain : placedChain 0 placed (2 ^ order))
    (hjz : ∃ jo rel, jz.sem = .jp jo rel ∧
      (1 >>> jo) <<< jo + rel = ts.length + 3)
    (hja : ∃ jo rel, ja.sem = .jp jo rel ∧
      ((2 + ts.length) >>> jo) <<< jo + rel = 0)
    (hjzo : jz.order = 0) (hjao : ja.order = 0)
    (hnodup : ts.Nodup) (hsrc : src ∉ ts) :
    ∀ (v : Nat) (regs : Nat → Nat), regs src = v →
    ∃ k s2, rmSteps placed k (0, regs) = some s2 ∧ s2.1 = 2 ^ order ∧
      ∀ r, s2.2 r = finalRegs src ts regs r := by
  obtain ⟨joz, relz, hjzsem, hjzland⟩ := hjz
  obtain ⟨joa, rela, hjasem, hjaland⟩ := hja
  have hjzsize : jz.size = 1 := by
    rw [SubR.size, hjzo]
    rfl
  have hjasize : ja.size = 1 := by
    rw [SubR.size, hjao]
    rfl
  -- memberships
  have hmdec : (0, regDecS src) ∈ placed := by
    rw [hplaced]
    exact List.mem_cons_self _ _
  have hmjz : (1, jz) ∈ placed := by
    rw [hplaced]
    exact List.mem_cons_of_mem _ (List.mem_cons_self _ _)
  have hmja : (2 + ts.length, ja) ∈ placed := by
    rw [hplaced]
    refine List.mem_cons_of_mem _ (List.mem_cons_of_mem _ ?_)
    exact List.mem_append.mpr (Or.inr (List.mem_cons_self _ _))
  have hmincs : ∀ pr ∈ partsPlaced (ts.map regIncS) 2, pr ∈ placed := by
    intro pr hpr
    rw [hplaced]
    refine List.mem_cons_of_mem _ (List.mem_cons_of_mem _ ?_)
    exact List.mem_append.mpr (Or.inl hpr)
  have hmpad : ∀ pr ∈ partsPlaced (padKs.map noopE) (ts.length + 3),
      pr ∈ placed := by
    intro pr hpr
    rw [hplaced]
    refine List.mem_cons_of_mem _ (List.mem_cons_of_mem _ ?_)
    exact List.mem_append.mpr (Or.inr (List.mem_cons_of_mem _ hpr))
  -- padding chain
  have hpadchain : placedChain (ts.length + 3)
      (partsPlaced (padKs.map noopE) (ts.length + 3)) (2 ^ order) := by
    have h0 := hchain
    rw [hplaced] at h0
    obtain ⟨_, _, h1⟩ := h0
    obtain ⟨_, _, h2⟩ := h1
    rw [hjzsize] at h2
    obtain ⟨m, hb1, hb2⟩ := placedChain_split _ _ _ _ h2
    obtain ⟨hcm, _, h3⟩ := hb2
    rw [hjasize] at h3
    rw [← hcm] at h3
    rw [show 2 + ts.length + 1 = ts.length + 3 from by omega] at h3
    exact h3
  -- finds
  have hfdec : rmFind placed 0 = some (0, regDecS src) :=
    rmFind_correct placed 0 _ hchain 0 (regDecS src) 0 hmdec (le_refl _)
      (by rw [show (regDecS src).size = 1 from rfl]; omega)
  have hfjz : rmFind placed 1 = some (1, jz) :=
    rmFind_correct placed 0 _ hchain 1 jz 1 hmjz (le_refl _)
      (by rw [hjzsize]; omega)
  have hfja : rmFind placed (2 + ts.length) = some (2 + ts.length, ja) :=
    rmFind_correct placed 0 _ hchain (2 + ts.length) ja (2 + ts.length) hmja
      (le_refl _) (by rw [hjasize]; omega)
  -- the exit run: jump to the zero label, then through the padding
  have hrunExit : ∀ regs : Nat → Nat,
      rmSteps placed (1 + padKs.length) (1, regs) =
        some (2 ^ order, regs) := by
    intro regs
    rw [rmSteps_add]
    have hstep : rmStep placed (1, regs) = some (ts.length + 3, regs) := by
      simp only [rmStep, hfjz, hjzsem]
      rw [hjzland]
    have h1 : rmSteps placed 1 (1, regs) = some (ts.length + 3, regs) := by
      show (rmStep placed (1, regs)).bind _ = _
      rw [hstep]
      rfl
    rw [h1]
    simp only [Option.some_bind]
    exact run_noops placed _ hchain padKs (ts.length + 3) _ regs hpadchain hmpad
  -- the loop body: the increments, then the jump back to the top
  have hrunBody : ∀ regs : Nat → Nat,
      rmSteps placed (ts.length + 1) (2, regs) =
        some (0, incAll ts regs) := by
    intro regs
    rw [rmSteps_add]
    rw [run_incs placed _ hchain ts 2 regs hmincs]
    simp only [Option.some_bind]
    have hstep : rmStep placed (2 + ts.length, incAll ts regs) =
        some (0, incAll ts regs) := by
      simp only [rmStep, hfja, hjasem]
      rw [hjaland]
    show (rmStep placed (2 + ts.length, incAll ts regs)).bind _ = _
    rw [hstep]
    rfl
  -- main induction on the source value
  intro v
  induction v with
  | zero =>
      intro regs hv
      refine ⟨1 + (1 + padKs.length), (2 ^ order, regs), ?_, rfl, ?_⟩
      · rw [rmSteps_add]
        have hstep : rmStep placed (0, regs) = some (1, regs) := by
          simp [rmStep, hfdec, regDecS, hv]
        have h1 : rmSteps placed 1 (0, regs) = some (1, regs) := by
          show (rmStep placed (0, regs)).bind _ = _
          rw [hstep]
          rfl
        rw [h1]
        simp only [Option.some_bind]
        exact hrunExit regs
      · intro r
        rw [finalRegs]
        by_cases hr1 : r = src
        · subst hr1
          simp [hv]
        · by_cases hr2 : r ∈ ts
          · simp [hr1, hr2, hv]
          · simp [hr1, hr2]
  | succ v ih =>
      intro regs hv
      have hvne : regs src ≠ 0 := by omega
      have hstep : rmStep placed (0, regs) =
          some (2, fun i => if i = src then regs i - 1 else regs i) := by
        simp [rmStep, hfdec, regDecS, hvne]
      have hr2src : (incAll ts (fun i => if i = src then regs i - 1 else regs i)) src = v := by
        rw [incAll_val ts hnodup]
        rw [if_neg hsrc]
        simp [hv]
      obtain ⟨k3, s2, hrun3, hpc3, hvals3⟩ :=
        ih (incAll ts (fun i => if i = src then regs i - 1 else regs i)) hr2src
      refine ⟨1 + ((ts.length + 1) + k3), s2, ?_, hpc3, ?_⟩
      · rw [rmSteps_add]
        have h1 : rmSteps placed 1 (0, regs) =
            some (2, fun i => if i = src then regs i - 1 else regs i) := by
          show (rmStep placed (0, regs)).bind _ = _
          rw [hstep]
          rfl
        rw [h1]
        simp only [Option.some_bind]
        rw [rmSteps_add]
        rw [hrunBody]
        simp only [Option.some_bind]
        exact hrun3
      · intro r
        rw [hvals3 r]
        rw [finalRegs, finalRegs]
        by_cases hr1 : r = src
        · simp [hr1]
        · by_cases hr2 : r ∈ ts
          · simp only [if_neg hr1, if_pos hr2]
            rw [incAll_val ts hnodup, incAll_val ts hnodup]
            rw [if_pos hr2, if_neg hsrc]
            simp [hr1]
            omega
          · simp only [if_neg hr1, if_neg hr2]
            rw [incAll_val ts hnodup, if_neg hr2]
            simp [hr1]



theorem PartsSem_parts_nil (labOffs : DictS Nat) (subs : List SubR)
    (off : Nat) (placed : List (Nat × SubR))
    (h : PartsSem labOffs (subs.map CfgPart.part) off placed) :
    placed = partsPlaced subs off := by
  have h2 : PartsSem labOffs (subs.map CfgPart.part ++ []) off placed := by
    rw [List.append_nil]
    exact h
  obtain ⟨tail, htl, hsem⟩ := PartsSem_parts labOffs subs [] off placed h2
  have hnil : tail = [] := hsem
  rw [htl, hnil, List.append_nil]

/-- C3: for every register `src` with initial value `r0` and every
duplicate-free tuple of target registers not containing `src`, the
`transfer(src, targets...)` subprogram lays out successfully
(`cfg_optimizer` keeps it intact), and running it to completion leaves
`src` equal to zero and each target increased by exactly `r0`, with no
other register changed; the PC exits past the subprogram's `2^order`
slots.  In particular with no targets it zeroes `src` and has no other
effect. -/
theorem claim_C3 (nextreg src : Nat) (ts : List Nat) (name : String)
    (hname : name ≠ "main()") (hnodup : ts.Nodup) (hsrc : src ∉ ts) :
    ∃ cm placed,
      makesubLayout nextreg false false (transferParts src ts) name =
        some (ordOf (ts.length + 3), cm, placed) ∧
      ∀ regs : Nat → Nat, ∃ k s2, rmSteps placed k (0, regs) = some s2 ∧
        s2.1 = 2 ^ ordOf (ts.length + 3) ∧
        ∀ r, s2.2 r = finalRegs src ts regs r := by
  have heff : effectiveParts nextreg false (transferParts src ts) name =
      some (transferParts src ts) := by
    rw [effectiveParts]
    simp only [Bool.false_eq_true, if_false, Option.bind_eq_bind]
    rw [cfgOpt_transfer]
    simp only [Option.some_bind, Option.pure_def]
    rw [if_neg hname]
  have hglab : ∀ g, CfgPart.goto g ∈ transferParts src ts →
      CfgPart.label g ∈ transferParts src ts := by
    intro g hg
    rw [transferParts] at hg ⊢
    simp only [List.cons_append, List.nil_append, List.mem_cons,
      List.mem_append, List.mem_map] at hg ⊢
    rcases hg with he | he | he | he | he | he
    · exact absurd he (by simp)
    · exact absurd he (by simp)
    · have : g = "zero" := by
        have := CfgPart.goto.injEq (α := SubR) g "zero" ▸ he
        simpa using he
      subst this
      simp
    · exfalso
      obtain ⟨s2, _, he2⟩ := he
      exact CfgPart.noConfusion he2
    · have : g = "again" := by simpa using he
      subst this
      simp
    · exact absurd he (by simp)
  have hne : ∃ p ∈ transferParts src ts, p.isLabel = false := by
    refine ⟨CfgPart.part (regDecS src), ?_, rfl⟩
    rw [transferParts]
    simp
  obtain ⟨cm, placed, hlay, hchain, hpsem⟩ :=
    makesubLayout_successP nextreg false (transferParts src ts)
      (transferParts src ts) name heff hglab hne
  rw [walk_transfer] at hlay hchain hpsem
  refine ⟨cm, placed, hlay, ?_⟩
  -- parse the placement
  simp only [List.cons_append, List.nil_append, List.append_assoc] at hpsem
  simp only [PartsSem] at hpsem
  obtain ⟨t1, hp1, jz, t2, tz, hp2, hlkz, hjzo, hjzsem, hps2⟩ := hpsem
  have ho1 : (0 : Nat) + (regDecS src).size = 1 := rfl
  rw [ho1] at hp2 hps2
  have htz : tz = ts.length + 3 := by
    have hcomp : List.lookup "zero"
        ([("zero", ts.length + 3), ("again", 0)] : DictS Nat) =
        some (ts.length + 3) := by
      simp [List.lookup]
    rw [hcomp] at hlkz
    exact (Option.some_inj.mp hlkz).symm
  subst htz
  rw [show (1 : Nat) + 1 = 2 from rfl] at hps2
  obtain ⟨t3, hp3, hps3⟩ :=
    PartsSem_parts _ (ts.map regIncS) _ 2 t2 hps2
  rw [sum_sizes_incs] at hps3
  simp only [PartsSem] at hps3
  obtain ⟨ja, t4, ta, hp4, hlka, hjao, hjasem, hps4⟩ := hps3
  have hta : ta = 0 := by
    have hcomp : List.lookup "again"
        ([("zero", ts.length + 3), ("again", 0)] : DictS Nat) = some 0 := by
      simp [List.lookup]
    rw [hcomp] at hlka
    exact (Option.some_inj.mp hlka).symm
  subst hta
  rw [show (fun k => CfgPart.part (noopE k)) = CfgPart.part ∘ noopE from rfl,
    ← List.map_map] at hps4
  have hp4t := PartsSem_parts_nil _ _ _ _ hps4
  rw [show 2 + ts.length + 1 = ts.length + 3 from by omega] at hp4t
  have hplaced : placed =
      (0, regDecS src) :: (1, jz) :: (partsPlaced (ts.map regIncS) 2 ++
        (2 + ts.length, ja) ::
          partsPlaced (((padChunks (2 ^ ordOf (ts.length + 3))
            (ts.length + 3)).map noopE)) (ts.length + 3)) := by
    rw [hp1, hp2, hp3, hp4, hp4t]
  intro regs
  exact transfer_run placed (ordOf (ts.length + 3)) src ts
    (padChunks (2 ^ ordOf (ts.length + 3)) (ts.length + 3)) jz ja
    hplaced hchain hjzsem hjasem hjzo hjao
    hnodup hsrc (regs src) regs rfl

/-- C3 witness: `transfer(0, 1, 2)` on registers `(r0, r1, r2) =
(v, a, b)` ends with `(0, a + v, b + v)`. -/
theorem claim_C3_witness :
    ∃ cm placed,
      makesubLayout 7 false false (transferParts 0 [1, 2]) "t" =
        some (ordOf (([1, 2] : List Nat).length + 3), cm, placed) ∧
      ∀ regs : Nat → Nat, ∃ k s2, rmSteps placed k (0, regs) = some s2 ∧
        s2.1 = 2 ^ ordOf (([1, 2] : List Nat).length + 3) ∧
        ∀ r, s2.2 r = finalRegs 0 [1, 2] regs r :=
  claim_C3 7 0 [1, 2] "t" (by decide) (by decide) (by decide)


/-! ### reg_decr: tape and crossing helpers -/

theorem tapeOf_nat (l : List Bool) (i : Nat) :
    tapeOf l (i : Int) = l.getD i false := by
  rw [tapeOf]
  rw [if_neg (by omega)]
  norm_num

theorem getD_append_cons (L1 : List Bool) (x : Bool) (L2 : List Bool) :
    (L1 ++ x :: L2).getD L1.length false = x := by
  induction L1 with
  | nil => rfl
  | cons a rest ih => simpa using ih

theorem set_append_cons (L1 : List Bool) (x : Bool) (L2 : List Bool)
    (b : Bool) : (L1 ++ x :: L2).set L1.length b = L1 ++ b :: L2 := by
  induction L1 with
  | nil => rfl
  | cons a rest ih => simpa using ih

theorem getD_singleton_false (m : Nat) :
    ([false] : List Bool).getD m false = false := by
  cases m with
  | zero => rfl
  | succ m2 => rfl

theorem tapeOf_append_false (l : List Bool) :
    tapeOf (l ++ [false]) = tapeOf l := by
  funext p
  rw [tapeOf, tapeOf]
  by_cases hp : p < 0
  · rw [if_pos hp, if_pos hp]
  · rw [if_neg hp, if_neg hp]
    by_cases hl : p.toNat < l.length
    · rw [List.getD_append _ _ _ _ hl]
    · rw [List.getD_append_right _ _ _ _ (by omega)]
      rw [getD_singleton_false]
      rw [List.getD_eq_default _ _ (by omega)]

theorem tapeOf_update (l : List Bool) (i : Nat) (hi : i < l.length)
    (b : Bool) :
    Function.update (tapeOf l) (i : Int) b = tapeOf (l.set i b) := by
  funext p
  by_cases hp : p = (i : Int)
  · rw [hp, Function.update_same]
    rw [tapeOf]
    rw [if_neg (by omega)]
    rw [show ((i : Int)).toNat = i from by omega]
    rw [List.getD_eq_getElem?_getD, List.getElem?_set_self (by omega)]
    rfl
  · rw [Function.update_noteq hp]
    rw [tapeOf, tapeOf]
    by_cases hneg : p < 0
    · rw [if_pos hneg, if_pos hneg]
    · rw [if_neg hneg, if_neg hneg]
      rw [List.getD_eq_getElem?_getD, List.getD_eq_getElem?_getD,
        List.getElem?_set_ne (by omega)]

theorem dsteps_add (N : Nat) : ∀ (a b : Nat) (c : DState × Int × (Int → Bool)),
    dsteps N (a + b) c = dsteps N b (dsteps N a c) := by
  intro a
  induction a with
  | zero =>
      intro b c
      rw [Nat.zero_add]
      rfl
  | succ a2 ih =>
      intro b c
      have h : a2 + 1 + b = (a2 + b) + 1 := by omega
      rw [h]
      show dsteps N (a2 + b) (dstep N c) = _
      rw [ih]
      rfl

theorem getD_append_mid (L1 mid L2 : List Bool) (i : Nat)
    (hi : i < mid.length) :
    (L1 ++ (mid ++ L2)).getD (L1.length + i) false = mid.getD i false := by
  rw [List.getD_append_right _ _ _ _ (by omega)]
  rw [show L1.length + i - L1.length = i from by omega]
  rw [List.getD_append _ _ _ _ hi]

theorem getD_replicate_true (m i : Nat) (hi : i < m) :
    (List.replicate m true).getD i false = true := by
  rw [List.getD_eq_getElem?_getD]
  rw [List.getElem?_replicate]
  rw [if_pos hi]
  rfl

theorem cross_ones_right (N : Nat) (st : DState)
    (hst : ∀ (p : Int) (t : Int → Bool), t p = true →
      dstep N (st, p, t) = (st, p + 1, t)) :
    ∀ (w : Nat) (p : Int) (t : Int → Bool),
    (∀ i : Nat, i < w → t (p + i) = true) →
    dsteps N w (st, p, t) = (st, p + w, t) := by
  intro w
  induction w with
  | zero =>
      intro p t h
      show (st, p, t) = _
      norm_num
  | succ w2 ih =>
      intro p t h
      show dsteps N w2 (dstep N (st, p, t)) = _
      rw [hst p t (by simpa using h 0 (by omega))]
      rw [ih (p + 1) t (fun i hi => by
        have := h (i + 1) (by omega)
        rw [show p + 1 + (i : Int) = p + ((i : Nat) + 1 : Nat) from by
          push_cast; ring]
        exact this)]
      rw [show p + 1 + (w2 : Int) = p + ((w2 : Nat) + 1 : Nat) from by
        push_cast; ring]

theorem cross_ones_left (N : Nat) (st : DState)
    (hst : ∀ (p : Int) (t : Int → Bool), t p = true →
      dstep N (st, p, t) = (st, p - 1, t)) :
    ∀ (w : Nat) (p : Int) (t : Int → Bool),
    (∀ i : Nat, i < w → t (p - i) = true) →
    dsteps N w (st, p, t) = (st, p - w, t) := by
  intro w
  induction w with
  | zero =>
      intro p t h
      show (st, p, t) = _
      norm_num
  | succ w2 ih =>
      intro p t h
      show dsteps N w2 (dstep N (st, p, t)) = _
      rw [hst p t (by simpa using h 0 (by omega))]
      rw [ih (p - 1) t (fun i hi => by
        have := h (i + 1) (by omega)
        rw [show p - 1 - (i : Int) = p - ((i : Nat) + 1 : Nat) from by
          push_cast; ring]
        exact this)]
      rw [show p - 1 - (w2 : Int) = p - ((w2 : Nat) + 1 : Nat) from by
        push_cast; ring]



theorem tapeOf_read (L1 mid L2 : List Bool) (i : Nat) (hi : i < mid.length) :
    tapeOf (L1 ++ (mid ++ L2)) ((L1.length : Int) + i) = mid.getD i false := by
  rw [show (L1.length : Int) + i = ((L1.length + i : Nat) : Int) from by
    push_cast; ring]
  rw [tapeOf_nat, getD_append_mid _ _ _ _ hi]

theorem tapeOf_read_cons (L1 : List Bool) (x : Bool) (L2 : List Bool) :
    tapeOf (L1 ++ x :: L2) (L1.length : Int) = x := by
  rw [tapeOf_nat, getD_append_cons]

theorem dskip_true (N : Nat) (j : Nat) (p : Int) (t : Int → Bool)
    (h : t p = true) : dstep N (.dskip j, p, t) = (.dskip j, p + 1, t) := by
  simp [dstep, h]

/-- Crossing one register (`1^(u+1) 0`) in the `reg_decr` chain, then
the whole prefix: each register consumes one chain level. -/
theorem skip_to_init (N : Nat) : ∀ (us : List Nat) (pre post : List Bool),
    us ≠ [] →
    dsteps N (regCells us).length
      (.dskip (us.length - 1), (pre.length : Int),
        tapeOf (pre ++ (regCells us ++ post))) =
    (.decInit, ((pre.length + (regCells us).length : Nat) : Int),
      tapeOf (pre ++ (regCells us ++ post))) := by
  intro us
  induction us with
  | nil => intro pre post h; exact absurd rfl h
  | cons u us2 ih =>
      intro pre post _
      have hL : pre ++ (regCells (u :: us2) ++ post) =
          pre ++ (List.replicate (u + 1) true ++
            (false :: (regCells us2 ++ post))) := by
        simp [regCells, List.append_assoc]
      have hlen : (regCells (u :: us2)).length =
          (u + 1) + (1 + (regCells us2).length) := by
        simp [regCells]
        omega
      rw [hL, hlen]
      rw [dsteps_add N (u + 1) (1 + (regCells us2).length)]
      rw [cross_ones_right N _ (dskip_true N _) (u + 1) _ _ (fun i hi => by
        rw [tapeOf_read _ _ _ i (by simpa using hi)]
        exact getD_replicate_true _ _ hi)]
      rw [dsteps_add N 1 (regCells us2).length]
      have hrd : tapeOf (pre ++ (List.replicate (u + 1) true ++
          (false :: (regCells us2 ++ post))))
          ((pre.length : Int) + (u + 1)) = false := by
        rw [show (pre.length : Int) + (u + 1) =
          (((pre ++ List.replicate (u + 1) true).length : Nat) : Int) from by
          simp only [List.length_append, List.length_replicate]
          omega]
        rw [show pre ++ (List.replicate (u + 1) true ++
            (false :: (regCells us2 ++ post))) =
          (pre ++ List.replicate (u + 1) true) ++
            (false :: (regCells us2 ++ post)) from by
          simp [List.append_assoc]]
        exact tapeOf_read_cons _ _ _
      have hstep : dsteps N 1 (.dskip ((u :: us2).length - 1),
          (pre.length : Int) + (u + 1),
          tapeOf (pre ++ (List.replicate (u + 1) true ++
            (false :: (regCells us2 ++ post))))) =
          ((match (u :: us2).length - 1 with
            | 0 => DState.decInit | j2 + 1 => .dskip j2),
           (pre.length : Int) + (u + 1) + 1,
           tapeOf (pre ++ (List.replicate (u + 1) true ++
             (false :: (regCells us2 ++ post))))) := by
        simp only [dsteps, dstep, hrd, Bool.false_eq_true, if_false]
      rw [show ((u + 1 : Nat) : Int) = (u : Int) + 1 from by push_cast; ring]
      rw [hstep]
      cases hus2 : us2 with
      | nil =>
          show (DState.decInit, _, _) = _
          refine Prod.ext ?_ (Prod.ext ?_ ?_)
          · rfl
          · show (pre.length : Int) + (u + 1) + 1 = _
            simp only [regCells, List.length_append, List.length_replicate,
              List.length_cons, List.length_nil, List.nil_append]
            omega
          · rfl
      | cons u2 us3 =>
          rw [hus2] at ih
          have hmatch : (match (u :: u2 :: us3).length - 1 with
              | 0 => DState.decInit | j2 + 1 => DState.dskip j2) =
              DState.dskip ((u2 :: us3).length - 1) := by
            simp
          rw [hmatch]
          have hL2 : pre ++ (List.replicate (u + 1) true ++
              (false :: (regCells (u2 :: us3) ++ post))) =
              (pre ++ List.replicate (u + 1) true ++ [false]) ++
                (regCells (u2 :: us3) ++ post) := by
            simp [List.append_assoc]
          have hpos : (pre.length : Int) + (u + 1) + 1 =
              (((pre ++ List.replicate (u + 1) true ++ [false]).length :
                Nat) : Int) := by
            simp only [List.length_append, List.length_replicate,
              List.length_cons, List.length_nil]
            omega
          rw [hL2, hpos]
          rw [ih (pre ++ List.replicate (u + 1) true ++ [false]) post
            (by simp)]
          refine Prod.ext rfl (Prod.ext ?_ ?_)
          · show (((_ : Nat) : Int)) = ((_ : Nat) : Int)
            simp only [regCells, List.length_append, List.length_replicate,
              List.length_cons, List.length_nil]
            omega
          · rw [← hL2]


theorem dsteps_one (N : Nat) (c : DState × Int × (Int → Bool)) :
    dsteps N 1 c = dstep N c := rfl

theorem regCells_append : ∀ (a b : List Nat),
    regCells (a ++ b) = regCells a ++ regCells b := by
  intro a b
  induction a with
  | nil => rfl
  | cons u a2 ih =>
      simp only [List.cons_append, regCells, List.append_eq, ih,
        List.append_assoc]

theorem rc_snoc : ∀ (vs : List Nat),
    false :: regCells vs = rcInit vs ++ [false] := by
  intro vs
  induction vs with
  | nil => rfl
  | cons v vs2 ih =>
      show false :: (List.replicate (v + 1) true ++ false :: regCells vs2) = _
      rw [ih]
      simp [rcInit, List.append_assoc]

theorem rcInit_length (vs : List Nat) :
    (rcInit vs).length = (regCells vs).length := by
  have h := congrArg List.length (rc_snoc vs)
  simp only [List.length_cons, List.length_append, List.length_cons,
    List.length_nil] at h
  omega

theorem tapeOf_past (l : List Bool) (i : Nat) (h : l.length ≤ i) :
    tapeOf l (i : Int) = false := by
  rw [tapeOf_nat]
  exact List.getD_eq_default _ _ h

/-- Scanning left across the register file onto the double-zero fence,
generic in the scan-state pair (`ret1`/`ret0` and `ret21`/`ret20`):
from the register file's last cell the head walks to one cell left of
the fence, entering `F` there without writing. -/
theorem scan_left (N : Nat) (s1 s0 F : DState)
    (h1 : ∀ (p : Int) (t : Int → Bool),
      dstep N (s1, p, t) = ((if t p then s1 else s0), p - 1, t))
    (h0 : ∀ (p : Int) (t : Int → Bool),
      dstep N (s0, p, t) = ((if t p then s1 else F), p - 1, t)) :
    ∀ (us : List Nat) (pre post : List Bool),
    dsteps N ((regCells us).length + 2)
      (s1, (pre.length : Int) + 1 + (regCells us).length,
        tapeOf (pre ++ (false :: false :: (regCells us ++ post)))) =
    (F, (pre.length : Int) - 1,
      tapeOf (pre ++ (false :: false :: (regCells us ++ post)))) := by
  intro us
  induction us using List.reverseRecOn with
  | nil =>
      intro pre post
      simp only [regCells, List.length_nil, Nat.cast_zero, add_zero,
        Nat.zero_add, List.nil_append]
      rw [show (2 : Nat) = 1 + 1 from rfl, dsteps_add, dsteps_one,
        dsteps_one]
      have hr1 : tapeOf (pre ++ false :: false :: post)
          ((pre.length : Int) + 1) = false := by
        rw [show (pre.length : Int) + 1 =
            (((pre ++ [false]).length : Nat) : Int) from by
          simp only [List.length_append, List.length_cons, List.length_nil]
          omega]
        rw [show pre ++ false :: false :: post =
            (pre ++ [false]) ++ false :: post from by simp]
        exact tapeOf_read_cons _ _ _
      rw [h1]
      rw [if_neg (by rw [hr1]; exact Bool.false_ne_true)]
      rw [show (pre.length : Int) + 1 - 1 = (pre.length : Int) from by ring]
      rw [h0]
      rw [if_neg (by rw [tapeOf_read_cons]; exact Bool.false_ne_true)]
  | append_singleton vs u ih =>
      intro pre post
      have hrc : regCells (vs ++ [u]) =
          regCells vs ++ (List.replicate (u + 1) true ++ [false]) := by
        rw [regCells_append]
        simp [regCells]
      have hlen : (regCells (vs ++ [u])).length =
          (regCells vs).length + (u + 2) := by
        rw [hrc]
        simp only [List.length_append, List.length_replicate,
          List.length_cons, List.length_nil]
      have hT : pre ++ (false :: false :: (regCells (vs ++ [u]) ++ post)) =
          pre ++ (false :: false :: (regCells vs ++
            (List.replicate (u + 1) true ++ ([false] ++ post)))) := by
        rw [hrc]
        simp [List.append_assoc]
      rw [hT, hlen]
      rw [show (regCells vs).length + (u + 2) + 2 =
        1 + (1 + (u + ((regCells vs).length + 2))) from by omega]
      rw [dsteps_add, dsteps_one]
      have hA : pre ++ (false :: false :: (regCells vs ++
          (List.replicate (u + 1) true ++ ([false] ++ post)))) =
          (pre ++ false :: false :: regCells vs ++
            List.replicate (u + 1) true) ++ false :: post := by
        simp [List.append_assoc]
      have hread1 : tapeOf (pre ++ (false :: false :: (regCells vs ++
          (List.replicate (u + 1) true ++ ([false] ++ post)))))
          ((pre.length : Int) + 1 + ((regCells vs).length + (u + 2) : Nat))
          = false := by
        rw [show (pre.length : Int) + 1 +
            ((regCells vs).length + (u + 2) : Nat) =
            (((pre ++ false :: false :: regCells vs ++
              List.replicate (u + 1) true).length : Nat) : Int) from by
          simp only [List.length_append, List.length_cons,
            List.length_replicate]
          omega]
        rw [hA]
        exact tapeOf_read_cons _ _ _
      rw [h1]
      rw [if_neg (by rw [hread1]; exact Bool.false_ne_true)]
      rw [dsteps_add, dsteps_one]
      have hB : pre ++ (false :: false :: (regCells vs ++
          (List.replicate (u + 1) true ++ ([false] ++ post)))) =
          (pre ++ false :: false :: regCells vs) ++
            (List.replicate (u + 1) true ++ ([false] ++ post)) := by
        simp [List.append_assoc]
      have hread2 : tapeOf (pre ++ (false :: false :: (regCells vs ++
          (List.replicate (u + 1) true ++ ([false] ++ post)))))
          ((pre.length : Int) + 1 + ((regCells vs).length + (u + 2) : Nat)
            - 1) = true := by
        rw [show (pre.length : Int) + 1 +
            ((regCells vs).length + (u + 2) : Nat) - 1 =
            (((pre ++ false :: false :: regCells vs).length : Int) +
              (u : Nat)) from by
          simp only [List.length_append, List.length_cons]
          omega]
        rw [hB]
        rw [tapeOf_read _ _ _ u (by
          simp only [List.length_replicate]; omega)]
        exact getD_replicate_true _ _ (by omega)
      rw [h0]
      rw [if_pos (by rw [hread2])]
      rw [dsteps_add]
      rw [cross_ones_left N s1 (fun p t ht => by rw [h1, if_pos ht]) u _ _
        (fun i hi => by
        rw [show (pre.length : Int) + 1 +
            ((regCells vs).length + (u + 2) : Nat) - 1 - 1 - (i : Int) =
            (((pre ++ false :: false :: regCells vs).length : Int) +
              ((u - 1 - i : Nat) : Int)) from by
          simp only [List.length_append, List.length_cons]
          omega]
        rw [hB]
        rw [tapeOf_read _ _ _ (u - 1 - i) (by
          simp only [List.length_replicate]; omega)]
        exact getD_replicate_true _ _ (by omega))]
      rw [show (pre.length : Int) + 1 +
          ((regCells vs).length + (u + 2) : Nat) - 1 - 1 - (u : Nat) =
          (pre.length : Int) + 1 + (regCells vs).length from by
        omega]
      exact ih pre (List.replicate (u + 1) true ++ ([false] ++ post))


theorem pairOK_cons_true : ∀ (l : List Bool), pairOK l → pairOK (true :: l)
  | [], _ => trivial
  | _ :: _, h => ⟨fun hh => absurd hh (by simp), h⟩

theorem pairOK_repl : ∀ (v : Nat) (l : List Bool), pairOK l →
    pairOK (List.replicate v true ++ l)
  | 0, _, h => h
  | v + 1, l, h => pairOK_cons_true _ (pairOK_repl v l h)

theorem pairOK_false_rc : ∀ (ws : List Nat), pairOK (false :: regCells ws)
  | [] => trivial
  | w :: ws2 => by
      show pairOK (false ::
        (List.replicate (w + 1) true ++ false :: regCells ws2))
      rw [show List.replicate (w + 1) true =
        true :: List.replicate w true from rfl]
      exact ⟨fun _ => rfl,
        pairOK_cons_true _ (pairOK_repl w _ (pairOK_false_rc ws2))⟩

theorem pairOK_shift (v : Nat) (ws : List Nat) (hv : 0 < v) :
    pairOK (false ::
      (List.replicate v true ++ (false :: regCells ws))) := by
  obtain ⟨v2, rfl⟩ : ∃ v2, v = v2 + 1 := ⟨v - 1, by omega⟩
  rw [show List.replicate (v2 + 1) true =
    true :: List.replicate v2 true from rfl]
  exact ⟨fun _ => rfl,
    pairOK_cons_true _ (pairOK_repl v2 _ (pairOK_false_rc ws))⟩

theorem pairOK_pair : ∀ (l : List Bool) (x b : Bool),
    pairOK (l ++ [x, b]) → x = false → b = true
  | [], _, _, h => h.1
  | [_], _, _, h => h.2.1
  | _ :: a2 :: l, x, b, h => pairOK_pair (a2 :: l) x b h.2

theorem pairOK_init : ∀ (l : List Bool) (a : Bool),
    pairOK (l ++ [a]) → pairOK l
  | [], _, _ => trivial
  | [_], _, _ => trivial
  | x :: y :: l, a, h => ⟨h.1, pairOK_init (y :: l) a h.2⟩

theorem headD_app (l : List Bool) (x b : Bool) :
    ((l ++ [x]) ++ [b]).headD false = (l ++ [x]).headD false := by
  cases l <;> rfl

theorem drop_app (l : List Bool) (x b : Bool) :
    ((l ++ [x]) ++ [b]).drop 1 = (l ++ [x]).drop 1 ++ [b] := by
  cases l <;> simp

/-- The rightward scan (`dec_scan_1`/`dec_scan_0`) runs off the end of
the register file — the blank tape supplies the second zero — and
parks on the file's last cell in `dec_scan_done`. -/
theorem scanR_aux (N : Nat) : ∀ (ws : List Nat) (pre : List Bool),
    dsteps N ((regCells ws).length + 1)
      (.decScan0, (pre.length : Int), tapeOf (pre ++ regCells ws)) =
    (.decScanDone, (pre.length : Int) + (regCells ws).length - 1,
      tapeOf (pre ++ regCells ws)) := by
  intro ws
  induction ws with
  | nil =>
      intro pre
      simp only [regCells, List.length_nil, Nat.cast_zero, add_zero,
        Nat.zero_add, List.append_nil]
      rw [dsteps_one]
      have hrd : tapeOf pre ((pre.length : Nat) : Int) = false :=
        tapeOf_past _ _ (le_refl _)
      simp only [dstep, hrd, Bool.false_eq_true, if_false]
  | cons w ws2 ih =>
      intro pre
      have hrc : regCells (w :: ws2) =
          List.replicate (w + 1) true ++ false :: regCells ws2 := rfl
      have hlen : (regCells (w :: ws2)).length =
          (w + 2) + (regCells ws2).length := by
        rw [hrc]
        simp only [List.length_append, List.length_replicate,
          List.length_cons]
        omega
      rw [hlen, hrc]
      rw [show (w + 2) + (regCells ws2).length + 1 =
        1 + (w + (1 + ((regCells ws2).length + 1))) from by omega]
      rw [dsteps_add, dsteps_one]
      have hrd1 : tapeOf (pre ++ (List.replicate (w + 1) true ++
          false :: regCells ws2)) ((pre.length : Nat) : Int) = true := by
        rw [show pre ++ (List.replicate (w + 1) true ++
            false :: regCells ws2) =
            pre ++ true :: (List.replicate w true ++
              false :: regCells ws2) from by
          simp [List.replicate_succ]]
        exact tapeOf_read_cons _ _ _
      simp only [dstep, hrd1, if_true]
      rw [dsteps_add]
      rw [cross_ones_right N .decScan1
        (fun p t ht => by simp [dstep, ht]) w _ _ (fun i hi => by
        rw [show (pre.length : Int) + 1 + (i : Int) =
            ((pre.length : Int) + ((1 + i : Nat) : Int)) from by omega]
        rw [tapeOf_read _ _ _ (1 + i) (by
          simp only [List.length_replicate]; omega)]
        exact getD_replicate_true _ _ (by omega))]
      rw [dsteps_add, dsteps_one]
      have hrd2 : tapeOf (pre ++ (List.replicate (w + 1) true ++
          false :: regCells ws2))
          ((pre.length : Int) + 1 + (w : Int)) = false := by
        rw [show (pre.length : Int) + 1 + (w : Int) =
            (((pre ++ List.replicate (w + 1) true).length : Nat) : Int)
            from by
          simp only [List.length_append, List.length_replicate]
          omega]
        rw [show pre ++ (List.replicate (w + 1) true ++
            false :: regCells ws2) =
            (pre ++ List.replicate (w + 1) true) ++
              false :: regCells ws2 from by simp [List.append_assoc]]
        exact tapeOf_read_cons _ _ _
      simp only [dstep, hrd2, Bool.false_eq_true, if_false]
      have hL2 : pre ++ (List.replicate (w + 1) true ++
          false :: regCells ws2) =
          (pre ++ List.replicate (w + 1) true ++ [false]) ++
            regCells ws2 := by
        simp [List.append_assoc]
      have hpos : (pre.length : Int) + 1 + (w : Int) + 1 =
          (((pre ++ List.replicate (w + 1) true ++ [false]).length :
            Nat) : Int) := by
        simp only [List.length_append, List.length_replicate,
          List.length_cons, List.length_nil]
        omega
      rw [hL2, hpos, ih (pre ++ List.replicate (w + 1) true ++ [false])]
      refine Prod.ext rfl (Prod.ext ?_ ?_)
      · show _ = ((pre.length : Int) + ((w + 2) + (regCells ws2).length :
          Nat) - 1)
        simp only [List.length_append, List.length_replicate,
          List.length_cons, List.length_nil]
        push_cast
        ring
      · rfl


/-- The shift loop (`dec_shift_0`/`dec_shift_1`): walking left, each
step writes the carried bit and carries away what it read, so the
block `S` moves one cell to the right as the head crosses it; with no
two adjacent zeros in `S ++ [b]` the loop never exits inside `S`. -/
theorem shift_go (N : Nat) : ∀ (S P rest : List Bool) (b : Bool),
    pairOK (S ++ [b]) →
    dsteps N S.length (shiftSt b, (P.length : Int) + S.length - 1,
      tapeOf (P ++ (S ++ rest))) =
    (shiftSt ((S ++ [b]).headD false), (P.length : Int) - 1,
      tapeOf (P ++ ((S ++ [b]).drop 1 ++ rest))) := by
  intro S
  induction S using List.reverseRecOn with
  | nil =>
      intro P rest b _
      show (shiftSt b, _, _) = _
      simp
  | append_singleton S2 x ih =>
      intro P rest b hpair
      have hpair2 : pairOK (S2 ++ [x, b]) := by
        have h2 : (S2 ++ [x]) ++ [b] = S2 ++ [x, b] := by simp
        rw [h2] at hpair
        exact hpair
      have hxb : x = false → b = true := pairOK_pair S2 x b hpair2
      have hS2x : pairOK (S2 ++ [x]) := pairOK_init _ _ hpair
      have hlen : (S2 ++ [x]).length = S2.length + 1 := by simp
      rw [hlen]
      rw [show S2.length + 1 = 1 + S2.length from by omega, dsteps_add]
      rw [show ((1 + S2.length : Nat) : Int) = ((S2.length + 1 : Nat) : Int)
        from by omega]
      have hA : P ++ ((S2 ++ [x]) ++ rest) = (P ++ S2) ++ (x :: rest) := by
        simp [List.append_assoc]
      have hposn : (P.length : Int) + ((S2.length + 1 : Nat) : Int) - 1 =
          (((P ++ S2).length : Nat) : Int) := by
        simp only [List.length_append]
        omega
      have hread : tapeOf (P ++ ((S2 ++ [x]) ++ rest))
          ((P.length : Int) + ((S2.length + 1 : Nat) : Int) - 1) = x := by
        rw [hposn, hA]
        exact tapeOf_read_cons _ _ _
      have hupd : Function.update (tapeOf (P ++ ((S2 ++ [x]) ++ rest)))
          ((P.length : Int) + ((S2.length + 1 : Nat) : Int) - 1) b =
          tapeOf (P ++ (S2 ++ (b :: rest))) := by
        rw [hposn, hA]
        rw [tapeOf_update _ _ (by simp) b]
        rw [set_append_cons]
        simp [List.append_assoc]
      have hstep : dsteps N 1 (shiftSt b,
          (P.length : Int) + ((S2.length + 1 : Nat) : Int) - 1,
          tapeOf (P ++ ((S2 ++ [x]) ++ rest))) =
          (shiftSt x,
           (P.length : Int) + ((S2.length + 1 : Nat) : Int) - 1 - 1,
           tapeOf (P ++ (S2 ++ (b :: rest)))) := by
        rw [dsteps_one]
        cases b with
        | true =>
            cases hx : x with
            | true =>
                rw [hx] at hread hupd
                simp only [shiftSt, dstep, hread, hupd, eq_self_iff_true,
                  if_true]
            | false =>
                rw [hx] at hread hupd
                simp only [shiftSt, dstep, hread, hupd, eq_self_iff_true,
                  if_true, Bool.false_eq_true, if_false]
        | false =>
            have hx : x = true := by
              cases hx2 : x with
              | true => rfl
              | false => exact absurd (hxb hx2) (by simp)
            rw [hx] at hread hupd ⊢
            simp only [shiftSt, dstep, hread, hupd, eq_self_iff_true,
              if_true, Bool.false_eq_true, if_false]
      rw [hstep]
      rw [show (P.length : Int) + ((S2.length + 1 : Nat) : Int) - 1 - 1 =
          (P.length : Int) + (S2.length : Int) - 1 from by push_cast; ring]
      rw [ih P (b :: rest) x hS2x]
      rw [headD_app, drop_app]
      refine Prod.ext rfl (Prod.ext rfl ?_)
      show tapeOf (P ++ ((S2 ++ [x]).drop 1 ++ b :: rest)) = _
      rw [show (S2 ++ [x]).drop 1 ++ [b] ++ rest =
          (S2 ++ [x]).drop 1 ++ b :: rest from by simp]


theorem makeBits_one (m : Nat) : makeBits m 1 = [m.testBit 0] := rfl

theorem shiftRight_one_div (m : Nat) : m >>> 1 = m / 2 := by
  rw [Nat.shiftRight_eq_div_pow]

/-- The PC dispatcher's ripple-carry: from bit `o` (cell `d - 1` of
the remaining `d = N - o` high cells, MSB first at cell 0) it adds the
carry into the PC prefix and fires `dispatchroot` one cell left of the
tape, provided the incremented value still fits in `d` bits. -/
theorem dispatch_run (N : Nat) : ∀ (d o : Nat) (c : Bool) (m : Nat)
    (lowrest : List Bool), o + d = N →
    (if c then m + 1 else m) < 2 ^ d →
    dsteps N (d + 1) (.dispatch o c, (d : Int) - 1,
      tapeOf (makeBits m d ++ lowrest)) =
    (.droot, 0, tapeOf (makeBits (if c then m + 1 else m) d ++ lowrest)) := by
  intro d
  induction d with
  | zero =>
      intro o c m lowrest ho hlt
      cases c with
      | true => exact absurd hlt (by norm_num)
      | false =>
          have hoN : o = N := by omega
          subst hoN
          rw [dsteps_one]
          simp only [dstep, eq_self_iff_true, if_true]
          refine Prod.ext rfl (Prod.ext ?_ rfl)
          show ((0 : Nat) : Int) - 1 + 1 = (0 : Int)
          norm_num
  | succ d2 ihd =>
      intro o c m lowrest ho hlt
      have hoN : ¬ (o = N) := by omega
      rw [show d2 + 1 + 1 = 1 + (d2 + 1) from by omega, dsteps_add]
      have hsplit : makeBits m (d2 + 1) =
          makeBits (m >>> 1) d2 ++ [m.testBit 0] := by
        rw [show d2 + 1 = d2 + 1 from rfl, makeBits_split d2 1 m,
          makeBits_one]
      have hlen2 : (makeBits (m >>> 1) d2).length = d2 :=
        makeBits_length _ _
      have hL : makeBits m (d2 + 1) ++ lowrest =
          makeBits (m >>> 1) d2 ++ (m.testBit 0 :: lowrest) := by
        rw [hsplit]
        simp
      have hposn : ((d2 + 1 : Nat) : Int) - (1 : Int) =
          (((makeBits (m >>> 1) d2).length : Nat) : Int) := by
        rw [hlen2]
        omega
      have hread : tapeOf (makeBits m (d2 + 1) ++ lowrest)
          (((d2 + 1 : Nat) : Int) - 1) = m.testBit 0 := by
        rw [hposn, hL]
        exact tapeOf_read_cons _ _ _
      have hupd : ∀ (v : Bool),
          Function.update (tapeOf (makeBits m (d2 + 1) ++ lowrest))
            (((d2 + 1 : Nat) : Int) - 1) v =
          tapeOf (makeBits (m >>> 1) d2 ++ (v :: lowrest)) := by
        intro v
        rw [hposn, hL]
        rw [tapeOf_update _ _ (by simp) v]
        rw [set_append_cons]
      have hdiv : m >>> 1 = m / 2 := shiftRight_one_div m
      cases c with
      | false =>
          have hstep : dsteps N 1 (.dispatch o false,
              ((d2 + 1 : Nat) : Int) - 1,
              tapeOf (makeBits m (d2 + 1) ++ lowrest)) =
              (.dispatch (o + 1) false, ((d2 + 1 : Nat) : Int) - 1 - 1,
               tapeOf (makeBits m (d2 + 1) ++ lowrest)) := by
            rw [dsteps_one]
            simp only [dstep, if_neg hoN, Bool.false_eq_true, if_false]
          rw [hstep]
          rw [show ((d2 + 1 : Nat) : Int) - 1 - 1 = ((d2 : Nat) : Int) - 1
            from by omega]
          rw [hL]
          have := ihd (o + 1) false (m >>> 1) (m.testBit 0 :: lowrest)
            (by omega) (by
              simp only [Bool.false_eq_true, if_false] at hlt ⊢
              rw [hdiv]
              have h2 : 2 ^ (d2 + 1) = 2 * 2 ^ d2 := by ring
              omega)
          simp only [Bool.false_eq_true, if_false] at this ⊢
          rw [this, hL]
      | true =>
          simp only [if_true] at hlt ⊢
          cases hb : m.testBit 0 with
          | true =>
              have hm2 : m % 2 = 1 := by
                have hbb := hb
                rw [Nat.testBit_zero] at hbb
                simpa using hbb
              have hstep : dsteps N 1 (.dispatch o true,
                  ((d2 + 1 : Nat) : Int) - 1,
                  tapeOf (makeBits m (d2 + 1) ++ lowrest)) =
                  (.dispatch (o + 1) true, ((d2 + 1 : Nat) : Int) - 1 - 1,
                   tapeOf (makeBits (m >>> 1) d2 ++ (false :: lowrest)))
                  := by
                rw [dsteps_one]
                simp only [dstep, if_neg hoN, if_true, hread, hb,
                  eq_self_iff_true, hupd]
              rw [hstep]
              rw [show ((d2 + 1 : Nat) : Int) - 1 - 1 =
                ((d2 : Nat) : Int) - 1 from by omega]
              have := ihd (o + 1) true (m >>> 1) (false :: lowrest)
                (by omega) (by
                  simp only [if_true]
                  rw [hdiv]
                  have h2 : 2 ^ (d2 + 1) = 2 * 2 ^ d2 := by ring
                  omega)
              simp only [if_true] at this
              rw [this]
              have hout : makeBits (m + 1) (d2 + 1) =
                  makeBits (m >>> 1 + 1) d2 ++ [false] := by
                rw [makeBits_split d2 1 (m + 1), makeBits_one]
                have he1 : (m + 1) >>> 1 = m >>> 1 + 1 := by
                  rw [hdiv, shiftRight_one_div]
                  omega
                have he2 : (m + 1).testBit 0 = false := by
                  rw [Nat.testBit_zero]
                  have : (m + 1) % 2 = 0 := by omega
                  simp [this]
                rw [he1, he2]
              rw [hout]
              simp [List.append_assoc]
          | false =>
              have hm2 : m % 2 = 0 := by
                have hbb := hb
                rw [Nat.testBit_zero] at hbb
                simpa using hbb
              have hstep : dsteps N 1 (.dispatch o true,
                  ((d2 + 1 : Nat) : Int) - 1,
                  tapeOf (makeBits m (d2 + 1) ++ lowrest)) =
                  (.dispatch (o + 1) false, ((d2 + 1 : Nat) : Int) - 1 - 1,
                   tapeOf (makeBits (m >>> 1) d2 ++ (true :: lowrest)))
                  := by
                rw [dsteps_one]
                simp only [dstep, if_neg hoN, if_true, hread, hb,
                  Bool.false_eq_true, if_false, hupd]
              rw [hstep]
              rw [show ((d2 + 1 : Nat) : Int) - 1 - 1 =
                ((d2 : Nat) : Int) - 1 from by omega]
              have := ihd (o + 1) false (m >>> 1) (true :: lowrest)
                (by omega) (by
                  simp only [Bool.false_eq_true, if_false]
                  rw [hdiv]
                  have h2 : 2 ^ (d2 + 1) = 2 * 2 ^ d2 := by ring
                  omega)
              simp only [Bool.false_eq_true, if_false] at this
              rw [this]
              have hout : makeBits (m + 1) (d2 + 1) =
                  makeBits (m >>> 1) d2 ++ [true] := by
                rw [makeBits_split d2 1 (m + 1), makeBits_one]
                have he1 : (m + 1) >>> 1 = m >>> 1 := by
                  rw [hdiv, shiftRight_one_div]
                  omega
                have he2 : (m + 1).testBit 0 = true := by
                  rw [Nat.testBit_zero]
                  have : (m + 1) % 2 = 1 := by omega
                  simp [this]
                rw [he1, he2]
              rw [hout]
              simp [List.append_assoc]


/-- The `reg_decr(k)` entry chain: the two fence zeros and the `k`
skipped registers are consumed and the head enters
`register_common().dec` on the decremented register's first cell. -/
theorem skip_phase (N pc : Nat) (us : List Nat) (tail : List Bool) :
    dsteps N (2 + (regCells us).length)
      (.dskip (us.length + 1), ((N : Nat) : Int),
        tapeOf (makeBits pc N ++ false :: false :: (regCells us ++ tail)))
    =
    (.decInit, ((N + 2 + (regCells us).length : Nat) : Int),
      tapeOf (makeBits pc N ++ false :: false :: (regCells us ++ tail)))
    := by
  rw [show 2 + (regCells us).length = 1 + (1 + (regCells us).length)
    from by omega]
  rw [dsteps_add]
  have hrd1 : tapeOf (makeBits pc N ++ false :: false ::
      (regCells us ++ tail)) ((N : Nat) : Int) = false := by
    rw [show ((N : Nat) : Int) = (((makeBits pc N).length : Nat) : Int)
      from by rw [makeBits_length]]
    exact tapeOf_read_cons _ _ _
  have hstep1 : dsteps N 1 (.dskip (us.length + 1), ((N : Nat) : Int),
      tapeOf (makeBits pc N ++ false :: false :: (regCells us ++ tail)))
      =
      (.dskip us.length, ((N : Nat) : Int) + 1,
       tapeOf (makeBits pc N ++ false :: false :: (regCells us ++ tail)))
      := by
    rw [dsteps_one]
    simp only [dstep, hrd1, Bool.false_eq_true, if_false]
  rw [hstep1, dsteps_add]
  have hrd2 : tapeOf (makeBits pc N ++ false :: false ::
      (regCells us ++ tail)) (((N : Nat) : Int) + 1) = false := by
    rw [show ((N : Nat) : Int) + 1 =
        (((makeBits pc N ++ [false]).length : Nat) : Int) from by
      simp only [List.length_append, makeBits_length, List.length_cons,
        List.length_nil]
      omega]
    rw [show makeBits pc N ++ false :: false :: (regCells us ++ tail) =
        (makeBits pc N ++ [false]) ++ false :: (regCells us ++ tail)
        from by simp]
    exact tapeOf_read_cons _ _ _
  have hstep2 : dsteps N 1 (.dskip us.length, ((N : Nat) : Int) + 1,
      tapeOf (makeBits pc N ++ false :: false :: (regCells us ++ tail)))
      =
      ((match us.length with
        | 0 => DState.decInit | j2 + 1 => DState.dskip j2),
       ((N : Nat) : Int) + 1 + 1,
       tapeOf (makeBits pc N ++ false :: false :: (regCells us ++ tail)))
      := by
    rw [dsteps_one]
    simp only [dstep, hrd2, Bool.false_eq_true, if_false]
  rw [hstep2]
  cases us with
  | nil =>
      show (DState.decInit, _, _) = _
      refine Prod.ext rfl (Prod.ext ?_ rfl)
      show ((N : Nat) : Int) + 1 + 1 =
        ((N + 2 + (regCells ([] : List Nat)).length : Nat) : Int)
      simp only [regCells, List.length_nil]
      omega
  | cons u us2 =>
      have hmatch : (match (u :: us2).length with
        | 0 => DState.decInit | j2 + 1 => DState.dskip j2) =
          DState.dskip us2.length := by
        simp
      rw [hmatch]
      have hL : makeBits pc N ++ false :: false ::
          (regCells (u :: us2) ++ tail) =
          (makeBits pc N ++ [false, false]) ++
            (regCells (u :: us2) ++ tail) := by
        simp
      have hpos : ((N : Nat) : Int) + 1 + 1 =
          (((makeBits pc N ++ [false, false]).length : Nat) : Int) := by
        simp only [List.length_append, makeBits_length, List.length_cons,
          List.length_nil]
        omega
      rw [hL, hpos]
      have hst := skip_to_init N (u :: us2)
        (makeBits pc N ++ [false, false]) tail (by simp)
      simp only [List.length_cons, Nat.add_sub_cancel] at hst
      rw [hst]
      refine Prod.ext rfl (Prod.ext ?_ rfl)
      simp only [List.length_append, makeBits_length, List.length_cons,
        List.length_nil]

/-- A zero register: `reg_decr` punches the hole, sees the terminator,
restores the `1`, walks back and dispatches `PC+1`. -/
theorem reg_decr_zero (N pc : Nat) (us ws : List Nat)
    (hpc : pc + 1 < 2 ^ N) :
    dsteps N ((2 + (regCells us).length) +
        (3 + (((regCells us).length + 2) + (N + 1))))
      (.dskip (us.length + 1), ((N : Nat) : Int),
        tapeOf (encList N pc (us ++ 0 :: ws))) =
    (.droot, 0, tapeOf (encList N (pc + 1) (us ++ 0 :: ws))) := by
  have henc : encList N pc (us ++ 0 :: ws) =
      makeBits pc N ++ false :: false ::
        (regCells us ++ (true :: false :: regCells ws)) := by
    rw [encList, regCells_append]
    rfl
  have henc2 : encList N (pc + 1) (us ++ 0 :: ws) =
      makeBits (pc + 1) N ++ false :: false ::
        (regCells us ++ (true :: false :: regCells ws)) := by
    rw [encList, regCells_append]
    rfl
  rw [henc, henc2, dsteps_add]
  rw [skip_phase N pc us (true :: false :: regCells ws)]
  rw [show (3 : Nat) + (((regCells us).length + 2) + (N + 1)) =
    1 + (1 + (1 + (((regCells us).length + 2) + (N + 1)))) from by omega]
  rw [dsteps_add]
  have hPlen : ((N + 2 + (regCells us).length : Nat) : Int) =
      (((makeBits pc N ++ false :: false :: regCells us).length : Nat) :
        Int) := by
    simp only [List.length_append, makeBits_length, List.length_cons]
    omega
  have hP : makeBits pc N ++ false :: false ::
      (regCells us ++ (true :: false :: regCells ws)) =
      (makeBits pc N ++ false :: false :: regCells us) ++
        (true :: (false :: regCells ws)) := by
    simp
  have hstep1 : dsteps N 1 (.decInit,
      ((N + 2 + (regCells us).length : Nat) : Int),
      tapeOf (makeBits pc N ++ false :: false ::
        (regCells us ++ (true :: false :: regCells ws)))) =
      (.decCheck, ((N + 2 + (regCells us).length : Nat) : Int) + 1,
       tapeOf ((makeBits pc N ++ false :: false :: regCells us) ++
         (false :: (false :: regCells ws)))) := by
    rw [dsteps_one]
    simp only [dstep]
    refine Prod.ext rfl (Prod.ext rfl ?_)
    rw [hPlen, hP]
    rw [tapeOf_update _ _ (by simp) false]
    rw [set_append_cons]
  rw [hstep1, dsteps_add]
  have hrd2 : tapeOf ((makeBits pc N ++ false :: false :: regCells us) ++
      (false :: (false :: regCells ws)))
      (((N + 2 + (regCells us).length : Nat) : Int) + 1) = false := by
    rw [show ((N + 2 + (regCells us).length : Nat) : Int) + 1 =
        ((List.length ((makeBits pc N ++ false :: false :: regCells us)
          ++ [false]) : Nat) : Int) from by
      simp only [List.length_append, makeBits_length, List.length_cons,
        List.length_nil]
      omega]
    rw [show (makeBits pc N ++ false :: false :: regCells us) ++
        (false :: (false :: regCells ws)) =
        ((makeBits pc N ++ false :: false :: regCells us) ++ [false]) ++
          false :: regCells ws from by simp]
    exact tapeOf_read_cons _ _ _
  have hstep2 : dsteps N 1 (.decCheck,
      ((N + 2 + (regCells us).length : Nat) : Int) + 1,
      tapeOf ((makeBits pc N ++ false :: false :: regCells us) ++
        (false :: (false :: regCells ws)))) =
      (.decRestore, ((N + 2 + (regCells us).length : Nat) : Int),
       tapeOf ((makeBits pc N ++ false :: false :: regCells us) ++
         (false :: (false :: regCells ws)))) := by
    rw [dsteps_one]
    simp only [dstep, hrd2, Bool.false_eq_true, if_false]
    refine Prod.ext rfl (Prod.ext ?_ rfl)
    ring
  rw [hstep2, dsteps_add]
  have hstep3 : dsteps N 1 (.decRestore,
      ((N + 2 + (regCells us).length : Nat) : Int),
      tapeOf ((makeBits pc N ++ false :: false :: regCells us) ++
        (false :: (false :: regCells ws)))) =
      (.ret1, ((N + 2 + (regCells us).length : Nat) : Int) - 1,
       tapeOf (makeBits pc N ++ false :: false ::
         (regCells us ++ (true :: false :: regCells ws)))) := by
    rw [dsteps_one]
    simp only [dstep]
    refine Prod.ext rfl (Prod.ext rfl ?_)
    rw [hPlen]
    rw [tapeOf_update _ _ (by simp) true]
    rw [set_append_cons]
    rw [hP]
  rw [hstep3, dsteps_add]
  have hscan := scan_left N .ret1 .ret0 (.dispatch 0 true)
    (fun p t => by
      simp only [dstep]
      cases h : t p <;> simp [h])
    (fun p t => by
      simp only [dstep]
      cases h : t p <;> simp [h])
    us (makeBits pc N) (true :: false :: regCells ws)
  rw [makeBits_length] at hscan
  rw [show ((N + 2 + (regCells us).length : Nat) : Int) - 1 =
    ((N : Nat) : Int) + 1 + ((regCells us).length : Int) from by
    push_cast
    ring]
  rw [hscan]
  have hd := dispatch_run N N 0 true pc
    (false :: false :: (regCells us ++ (true :: false :: regCells ws)))
    (by omega) (by simpa using hpc)
  simp only [if_true] at hd
  rw [hd]


/-- A positive register: `reg_decr` punches the hole, scans to the
file's end, shifts the rest one cell left (absorbing the hole and
dropping one `1`), walks back and dispatches `PC+2`. -/
theorem reg_decr_pos (N pc : Nat) (us ws : List Nat) (v : Nat)
    (hv : 0 < v) (hpc : pc + 2 < 2 ^ N) :
    ∃ k, dsteps N k
      (.dskip (us.length + 1), ((N : Nat) : Int),
        tapeOf (encList N pc (us ++ v :: ws))) =
    (.droot, 0, tapeOf (encList N (pc + 2) (us ++ (v - 1) :: ws))) := by
  have hN1 : 1 ≤ N := by
    rcases Nat.eq_zero_or_pos N with h | h
    · subst h
      simp only [pow_zero] at hpc
      omega
    · exact h
  obtain ⟨v2, rfl⟩ : ∃ v2, v = v2 + 1 := ⟨v - 1, by omega⟩
  simp only [Nat.add_sub_cancel]
  have henc : encList N pc (us ++ (v2 + 1) :: ws) =
      makeBits pc N ++ false :: false :: (regCells us ++
        (true :: (List.replicate (v2 + 1) true ++
          false :: regCells ws))) := by
    rw [encList, regCells_append]
    rfl
  rw [henc]
  refine ⟨(2 + (regCells us).length) + (1 + (1 + (v2 + (1 +
    (((regCells ws).length + 1) + (1 +
      (((v2 + 1) + (regCells ws).length + 1) + (1 +
        (((regCells us).length + 1) + (1 + ((N - 1) + 1))))))))))), ?_⟩
  rw [dsteps_add]
  rw [skip_phase N pc us (true :: (List.replicate (v2 + 1) true ++
    false :: regCells ws))]
  rw [dsteps_add]
  have hPlen : ((N + 2 + (regCells us).length : Nat) : Int) =
      (((makeBits pc N ++ false :: false :: regCells us).length : Nat) :
        Int) := by
    simp only [List.length_append, makeBits_length, List.length_cons]
    omega
  have hstep1 : dsteps N 1 (.decInit,
      ((N + 2 + (regCells us).length : Nat) : Int),
      tapeOf (makeBits pc N ++ false :: false :: (regCells us ++
        (true :: (List.replicate (v2 + 1) true ++
          false :: regCells ws))))) =
      (.decCheck, ((N + 2 + (regCells us).length : Nat) : Int) + 1,
       tapeOf ((makeBits pc N ++ false :: false :: regCells us) ++
         (false :: (List.replicate (v2 + 1) true ++
           false :: regCells ws)))) := by
    rw [dsteps_one]
    simp only [dstep]
    refine Prod.ext rfl (Prod.ext rfl ?_)
    rw [hPlen]
    rw [show makeBits pc N ++ false :: false :: (regCells us ++
        (true :: (List.replicate (v2 + 1) true ++
          false :: regCells ws))) =
        (makeBits pc N ++ false :: false :: regCells us) ++
          (true :: (List.replicate (v2 + 1) true ++
            false :: regCells ws)) from by simp]
    rw [tapeOf_update _ _ (by simp) false]
    rw [set_append_cons]
  rw [hstep1, dsteps_add]
  have hrdC : tapeOf ((makeBits pc N ++ false :: false :: regCells us) ++
      (false :: (List.replicate (v2 + 1) true ++ false :: regCells ws)))
      (((N + 2 + (regCells us).length : Nat) : Int) + 1) = true := by
    rw [show ((N + 2 + (regCells us).length : Nat) : Int) + 1 =
        ((List.length ((makeBits pc N ++ false :: false :: regCells us)
          ++ [false]) : Nat) : Int) from by
      simp only [List.length_append, makeBits_length, List.length_cons,
        List.length_nil]
      omega]
    rw [show (makeBits pc N ++ false :: false :: regCells us) ++
        (false :: (List.replicate (v2 + 1) true ++
          false :: regCells ws)) =
        ((makeBits pc N ++ false :: false :: regCells us) ++ [false]) ++
          (true :: (List.replicate v2 true ++ false :: regCells ws))
        from by simp [List.replicate_succ]]
    exact tapeOf_read_cons _ _ _
  have hstep2 : dsteps N 1 (.decCheck,
      ((N + 2 + (regCells us).length : Nat) : Int) + 1,
      tapeOf ((makeBits pc N ++ false :: false :: regCells us) ++
        (false :: (List.replicate (v2 + 1) true ++
          false :: regCells ws)))) =
      (.decScan1, ((N + 2 + (regCells us).length : Nat) : Int) + 1 + 1,
       tapeOf ((makeBits pc N ++ false :: false :: regCells us) ++
         (false :: (List.replicate (v2 + 1) true ++
           false :: regCells ws)))) := by
    rw [dsteps_one]
    simp only [dstep, hrdC, if_true]
  rw [hstep2, dsteps_add]
  rw [cross_ones_right N .decScan1 (fun p t ht => by simp [dstep, ht])
    v2 _ _ (fun i hi => by
    rw [show ((N + 2 + (regCells us).length : Nat) : Int) + 1 + 1 +
        (i : Int) =
        ((List.length ((makeBits pc N ++ false :: false :: regCells us)
          ++ [false, true]) : Nat) : Int) + ((i : Nat) : Int) from by
      simp only [List.length_append, makeBits_length, List.length_cons,
        List.length_nil]
      omega]
    rw [show (makeBits pc N ++ false :: false :: regCells us) ++
        (false :: (List.replicate (v2 + 1) true ++
          false :: regCells ws)) =
        ((makeBits pc N ++ false :: false :: regCells us) ++
          [false, true]) ++ (List.replicate v2 true ++
            (false :: regCells ws)) from by
      simp [List.replicate_succ, List.append_assoc]]
    rw [tapeOf_read _ _ _ i (by simp only [List.length_replicate]; omega)]
    exact getD_replicate_true _ _ hi)]
  rw [dsteps_add]
  have hrdT : tapeOf ((makeBits pc N ++ false :: false :: regCells us) ++
      (false :: (List.replicate (v2 + 1) true ++ false :: regCells ws)))
      (((N + 2 + (regCells us).length : Nat) : Int) + 1 + 1 +
        (v2 : Int)) = false := by
    rw [show ((N + 2 + (regCells us).length : Nat) : Int) + 1 + 1 +
        (v2 : Int) =
        ((List.length ((makeBits pc N ++ false :: false :: regCells us)
          ++ false :: List.replicate (v2 + 1) true) : Nat) : Int)
        from by
      simp only [List.length_append, makeBits_length, List.length_cons,
        List.length_replicate]
      omega]
    rw [show (makeBits pc N ++ false :: false :: regCells us) ++
        (false :: (List.replicate (v2 + 1) true ++
          false :: regCells ws)) =
        ((makeBits pc N ++ false :: false :: regCells us) ++
          false :: List.replicate (v2 + 1) true) ++
          (false :: regCells ws) from by simp [List.append_assoc]]
    exact tapeOf_read_cons _ _ _
  have hstep5 : dsteps N 1 (.decScan1,
      ((N + 2 + (regCells us).length : Nat) : Int) + 1 + 1 + (v2 : Int),
      tapeOf ((makeBits pc N ++ false :: false :: regCells us) ++
        (false :: (List.replicate (v2 + 1) true ++
          false :: regCells ws)))) =
      (.decScan0,
       ((N + 2 + (regCells us).length : Nat) : Int) + 1 + 1 +
         (v2 : Int) + 1,
       tapeOf ((makeBits pc N ++ false :: false :: regCells us) ++
         (false :: (List.replicate (v2 + 1) true ++
           false :: regCells ws)))) := by
    rw [dsteps_one]
    simp only [dstep, hrdT, Bool.false_eq_true, if_false]
  rw [hstep5, dsteps_add]
  have hpre6 : ((N + 2 + (regCells us).length : Nat) : Int) + 1 + 1 +
      (v2 : Int) + 1 =
      ((List.length ((makeBits pc N ++ false :: false :: regCells us) ++
        false :: List.replicate (v2 + 1) true ++ [false]) : Nat) :
        Int) := by
    simp only [List.length_append, makeBits_length, List.length_cons,
      List.length_replicate, List.length_nil]
    omega
  have hL6 : (makeBits pc N ++ false :: false :: regCells us) ++
      (false :: (List.replicate (v2 + 1) true ++
        false :: regCells ws)) =
      ((makeBits pc N ++ false :: false :: regCells us) ++
        false :: List.replicate (v2 + 1) true ++ [false]) ++
        regCells ws := by
    simp [List.append_assoc]
  rw [hpre6, hL6]
  rw [scanR_aux N ws ((makeBits pc N ++ false :: false :: regCells us) ++
    false :: List.replicate (v2 + 1) true ++ [false])]
  rw [dsteps_add]
  have hstep7 : dsteps N 1 (.decScanDone,
      ((List.length ((makeBits pc N ++ false :: false :: regCells us) ++
        false :: List.replicate (v2 + 1) true ++ [false]) : Nat) : Int)
        + ((regCells ws).length : Int) - 1,
      tapeOf (((makeBits pc N ++ false :: false :: regCells us) ++
        false :: List.replicate (v2 + 1) true ++ [false]) ++
        regCells ws)) =
      (.decShift0,
       ((List.length ((makeBits pc N ++ false :: false :: regCells us) ++
         false :: List.replicate (v2 + 1) true ++ [false]) : Nat) : Int)
         + ((regCells ws).length : Int) - 1 - 1,
       tapeOf (((makeBits pc N ++ false :: false :: regCells us) ++
         false :: List.replicate (v2 + 1) true ++ [false]) ++
         regCells ws)) := by
    rw [dsteps_one]
    simp only [dstep]
  rw [hstep7, dsteps_add]
  have hSfull : (false :: (List.replicate (v2 + 1) true ++ rcInit ws)) ++
      [false] = false :: (List.replicate (v2 + 1) true ++
        (false :: regCells ws)) := by
    show false :: ((List.replicate (v2 + 1) true ++ rcInit ws) ++
      [false]) = _
    rw [List.append_assoc, ← rc_snoc]
  have hSlen : (false :: (List.replicate (v2 + 1) true ++
      rcInit ws)).length = (v2 + 1) + (regCells ws).length + 1 := by
    simp only [List.length_cons, List.length_append,
      List.length_replicate, rcInit_length]
  have hshift := shift_go N
    (false :: (List.replicate (v2 + 1) true ++ rcInit ws))
    (makeBits pc N ++ false :: false :: regCells us) [false] false
    (by rw [hSfull]; exact pairOK_shift (v2 + 1) ws (by omega))
  rw [hSfull] at hshift
  rw [hSlen] at hshift
  simp only [List.headD, List.drop, shiftSt, Bool.false_eq_true,
    if_false] at hshift
  have hL8 : ((makeBits pc N ++ false :: false :: regCells us) ++
      false :: List.replicate (v2 + 1) true ++ [false]) ++
      regCells ws =
      (makeBits pc N ++ false :: false :: regCells us) ++
        (false :: (List.replicate (v2 + 1) true ++
          (false :: regCells ws))) := by
    simp [List.append_assoc]
  have hpos8 : ((List.length ((makeBits pc N ++ false :: false ::
      regCells us) ++ false :: List.replicate (v2 + 1) true ++ [false])
      : Nat) : Int) + ((regCells ws).length : Int) - 1 - 1 =
      (((makeBits pc N ++ false :: false :: regCells us).length : Nat) :
        Int) + (((v2 + 1) + (regCells ws).length + 1 : Nat) : Int) - 1
      := by
    simp only [List.length_append, makeBits_length, List.length_cons,
      List.length_replicate, List.length_nil]
    omega
  rw [hL8, hpos8, hshift]
  rw [dsteps_add]
  have hA0 : makeBits pc N ++ false :: false :: regCells us =
      (makeBits pc N ++ false :: rcInit us) ++ [false] := by
    show makeBits pc N ++ false :: (false :: regCells us) = _
    rw [rc_snoc us]
    simp
  have hL9 : (makeBits pc N ++ false :: false :: regCells us) ++
      ((List.replicate (v2 + 1) true ++ (false :: regCells ws)) ++
        [false]) =
      (makeBits pc N ++ false :: rcInit us) ++
        (false :: ((List.replicate (v2 + 1) true ++
          (false :: regCells ws)) ++ [false])) := by
    rw [hA0]
    simp [List.append_assoc]
  have hpos9 : (((makeBits pc N ++ false :: false :: regCells us).length
      : Nat) : Int) - 1 =
      (((makeBits pc N ++ false :: rcInit us).length : Nat) : Int) := by
    simp only [List.length_append, makeBits_length, List.length_cons,
      rcInit_length]
    omega
  have hstep9 : dsteps N 1 (.decShift0,
      (((makeBits pc N ++ false :: false :: regCells us).length : Nat) :
        Int) - 1,
      tapeOf ((makeBits pc N ++ false :: false :: regCells us) ++
        ((List.replicate (v2 + 1) true ++ (false :: regCells ws)) ++
          [false]))) =
      (.ret20,
       (((makeBits pc N ++ false :: false :: regCells us).length : Nat) :
         Int) - 1 - 1,
       tapeOf ((makeBits pc N ++ false :: false :: regCells us) ++
         ((List.replicate (v2 + 1) true ++ (false :: regCells ws)) ++
           [false]))) := by
    rw [dsteps_one]
    have hrd9 : tapeOf ((makeBits pc N ++ false :: false :: regCells us)
        ++ ((List.replicate (v2 + 1) true ++ (false :: regCells ws)) ++
          [false]))
        ((((makeBits pc N ++ false :: false :: regCells us).length :
          Nat) : Int) - 1) = false := by
      rw [hpos9, hL9]
      exact tapeOf_read_cons _ _ _
    simp only [dstep, hrd9, Bool.false_eq_true, if_false]
    refine Prod.ext rfl (Prod.ext rfl ?_)
    rw [hpos9, hL9]
    rw [tapeOf_update _ _ (by simp) false]
    rw [set_append_cons]
  rw [hstep9, dsteps_add]
  have hscan2 := scan_left N .ret21 .ret20 .nextstate2
    (fun p t => by
      simp only [dstep]
      cases h : t p <;> simp [h])
    (fun p t => by
      simp only [dstep]
      cases h : t p <;> simp [h])
    us (makeBits pc N) (regCells (v2 :: ws) ++ [false])
  rw [makeBits_length] at hscan2
  rw [show (regCells us).length + 2 = 1 + ((regCells us).length + 1)
    from by omega] at hscan2
  rw [dsteps_add] at hscan2
  have hL10 : makeBits pc N ++ (false :: false :: (regCells us ++
      (regCells (v2 :: ws) ++ [false]))) =
      (makeBits pc N ++ false :: false :: regCells us) ++
        ((List.replicate (v2 + 1) true ++ (false :: regCells ws)) ++
          [false]) := by
    simp [regCells, List.append_assoc]
  rw [hL10] at hscan2
  have hone : dsteps N 1 (.ret21,
      ((N : Nat) : Int) + 1 + ((regCells us).length : Int),
      tapeOf ((makeBits pc N ++ false :: false :: regCells us) ++
        ((List.replicate (v2 + 1) true ++ (false :: regCells ws)) ++
          [false]))) =
      (.ret20, ((N : Nat) : Int) + 1 + ((regCells us).length : Int) - 1,
       tapeOf ((makeBits pc N ++ false :: false :: regCells us) ++
         ((List.replicate (v2 + 1) true ++ (false :: regCells ws)) ++
           [false]))) := by
    rw [dsteps_one]
    have hrd10 : tapeOf ((makeBits pc N ++ false :: false :: regCells us)
        ++ ((List.replicate (v2 + 1) true ++ (false :: regCells ws)) ++
          [false]))
        (((N : Nat) : Int) + 1 + ((regCells us).length : Int)) = false
        := by
      rw [show ((N : Nat) : Int) + 1 + ((regCells us).length : Int) =
          (((makeBits pc N ++ false :: rcInit us).length : Nat) : Int)
          from by
        simp only [List.length_append, makeBits_length, List.length_cons,
          rcInit_length]
        omega]
      rw [hL9]
      exact tapeOf_read_cons _ _ _
    simp only [dstep, hrd10, Bool.false_eq_true, if_false]
  rw [hone] at hscan2
  rw [show (((makeBits pc N ++ false :: false :: regCells us).length :
      Nat) : Int) - 1 - 1 =
      ((N : Nat) : Int) + 1 + ((regCells us).length : Int) - 1 from by
    simp only [List.length_append, makeBits_length, List.length_cons]
    omega]
  rw [hscan2, dsteps_add]
  have hstep11 : dsteps N 1 (.nextstate2, ((N : Nat) : Int) - 1,
      tapeOf ((makeBits pc N ++ false :: false :: regCells us) ++
        ((List.replicate (v2 + 1) true ++ (false :: regCells ws)) ++
          [false]))) =
      (.dispatch 1 true, ((N : Nat) : Int) - 1 - 1,
       tapeOf ((makeBits pc N ++ false :: false :: regCells us) ++
         ((List.replicate (v2 + 1) true ++ (false :: regCells ws)) ++
           [false]))) := by
    rw [dsteps_one]
    simp only [dstep]
  rw [hstep11]
  have hmb : makeBits pc N = makeBits (pc >>> 1) (N - 1) ++
      makeBits pc 1 := by
    obtain ⟨M, hM⟩ : ∃ M, N = M + 1 := ⟨N - 1, by omega⟩
    subst hM
    simp only [Nat.add_sub_cancel]
    exact makeBits_split M 1 pc
  have hpow : (2 : Nat) ^ N = 2 * 2 ^ (N - 1) := by
    obtain ⟨M, hM⟩ : ∃ M, N = M + 1 := ⟨N - 1, by omega⟩
    subst hM
    simp only [Nat.add_sub_cancel]
    rw [pow_succ]
    ring
  have hdisp := dispatch_run N (N - 1) 1 true (pc >>> 1)
    (makeBits pc 1 ++ (false :: false :: (regCells us ++
      ((List.replicate (v2 + 1) true ++ (false :: regCells ws)) ++
        [false]))))
    (by omega) (by
      simp only [if_true]
      rw [shiftRight_one_div]
      omega)
  simp only [if_true] at hdisp
  rw [show ((N : Nat) : Int) - 1 - 1 = ((N - 1 : Nat) : Int) - 1 from by
    omega]
  rw [show (makeBits pc N ++ false :: false :: regCells us) ++
      ((List.replicate (v2 + 1) true ++ (false :: regCells ws)) ++
        [false]) =
      makeBits (pc >>> 1) (N - 1) ++ (makeBits pc 1 ++
        (false :: false :: (regCells us ++
          ((List.replicate (v2 + 1) true ++ (false :: regCells ws)) ++
            [false])))) from by
    rw [hmb]
    simp [List.append_assoc]]
  rw [hdisp]
  have hmb2 : makeBits (pc + 2) N = makeBits (pc >>> 1 + 1) (N - 1) ++
      makeBits pc 1 := by
    obtain ⟨M, hM⟩ : ∃ M, N = M + 1 := ⟨N - 1, by omega⟩
    subst hM
    simp only [Nat.add_sub_cancel]
    rw [makeBits_split M 1 (pc + 2)]
    have he1 : (pc + 2) >>> 1 = pc >>> 1 + 1 := by
      rw [shiftRight_one_div, shiftRight_one_div]
      omega
    have he2 : makeBits (pc + 2) 1 = makeBits pc 1 := by
      rw [makeBits_one, makeBits_one]
      have h22 : (pc + 2) % 2 = pc % 2 := by omega
      rw [Nat.testBit_zero, Nat.testBit_zero, h22]
    rw [he1, he2]
  refine Prod.ext rfl (Prod.ext rfl ?_)
  rw [show makeBits (pc >>> 1 + 1) (N - 1) ++ (makeBits pc 1 ++
      (false :: false :: (regCells us ++
        ((List.replicate (v2 + 1) true ++ (false :: regCells ws)) ++
          [false])))) =
      encList N (pc + 2) (us ++ v2 :: ws) ++ [false] from by
    rw [encList, regCells_append, hmb2]
    simp [regCells, List.append_assoc]]
  exact tapeOf_append_false _


/-- C2: on a well-formed tape (PC in the top bits, two fence zeros,
unary registers `1^(v+1) 0`), running `reg_decr` on a register holding
zero leaves every register cell unchanged and dispatches at PC+1,
while running it on a positive register removes exactly one `1` from
that register and dispatches at PC+2 (the tape read by later code is
identical to the re-encoded register file: the one trailing blank the
shift leaves behind is the blank tape). -/
theorem claim_C2 (N pc : Nat) (us ws : List Nat) (v : Nat)
    (hz : v = 0 → pc + 1 < 2 ^ N) (hp : 0 < v → pc + 2 < 2 ^ N) :
    ∃ k t2,
      dsteps N k (.dskip (us.length + 1), ((N : Nat) : Int),
        tapeOf (encList N pc (us ++ v :: ws))) = (.droot, 0, t2) ∧
      (v = 0 → t2 = tapeOf (encList N (pc + 1) (us ++ v :: ws))) ∧
      (0 < v → t2 = tapeOf (encList N (pc + 2) (us ++ (v - 1) :: ws)))
    := by
  cases v with
  | zero =>
      refine ⟨_, _, reg_decr_zero N pc us ws (hz rfl), ?_, ?_⟩
      · intro _
        rfl
      · intro h
        exact absurd h (by omega)
  | succ v2 =>
      obtain ⟨k, hk⟩ := reg_decr_pos N pc us ws (v2 + 1) (by omega)
        (hp (by omega))
      exact ⟨k, _, hk, fun h => absurd h (by omega), fun _ => rfl⟩

/-- C2 at a concrete machine: `pc_bits = 3`, PC `1`, registers
`[0, 2, 1]`, decrementing register 1 (which holds 2). -/
theorem claim_C2_witness :
    ∃ k t2,
      dsteps 3 k (.dskip (([0] : List Nat).length + 1),
        ((3 : Nat) : Int), tapeOf (encList 3 1 ([0] ++ 2 :: [1]))) =
        (.droot, 0, t2) ∧
      ((2 : Nat) = 0 → t2 = tapeOf (encList 3 (1 + 1) ([0] ++ 2 :: [1])))
      ∧
      (0 < (2 : Nat) →
        t2 = tapeOf (encList 3 (1 + 2) ([0] ++ (2 - 1) :: [1]))) :=
  claim_C2 3 1 [0] [1] 2 (by decide) (by decide)


/-! ## Claim theorems: C1, C7, C9, C10 -/

/-- C1 counterexample: two `makesub` calls with identical
operation-sequence shape (`cexParts`) and the same name produce
Subroutines whose entry states are distinct, freshly allocated
dispatch nodes (`State` 100 and `State` 101), not the same shared
node: neither `makesub` nor `make_dispatcher` is memoized. -/
theorem claim_C1_counterexample :
    makesubE 0 true false cexParts "f" 100 = some cexR1 ∧
    makesubE 0 true false cexParts "f" cexR1.2 = some cexR1b ∧
    cexR1.1.entry ≠ cexR1b.1.entry :=
  ⟨by decide, by decide, by decide⟩

/-- C1 (amended): two `makesub` calls with identical operation-sequence
shape and the same name produce Subroutines with identical order, child
map and placed parts — the layout and dispatch-tree structure do not
depend on the state-allocation counter — but the entry states are
freshly allocated per call.  Structural sharing of whole Subroutines is
instead achieved by the `memo` decorator on the builder constructors:
a repeated call whose key is already cached returns the identical
cached object without re-running the constructor. -/
theorem claim_C1_amended :
    (∀ (nextreg : Nat) (noCfg relJumps : Bool) (parts : List MPart)
       (name : String) (c1 c2 : Nat) (r1 r2 : SubFull × Nat),
       makesubE nextreg noCfg relJumps parts name c1 = some r1 →
       makesubE nextreg noCfg relJumps parts name c2 = some r2 →
       r1.1.order = r2.1.order ∧ r1.1.childMap = r2.1.childMap ∧
         r1.1.placed = r2.1.placed) ∧
    (∀ (K V : Type) (inst : DecidableEq K) (falsy : V → Bool)
       (tbl : MemoTable K V) (key : K)
       (compute : MemoTable K V → V × MemoTable K V) (v : V),
       tbl.lookup key = some (some v) → falsy v = false →
       memoCall falsy tbl key compute = .ok (v, tbl)) := by
  constructor
  · intro nextreg noCfg relJumps parts name c1 c2 r1 r2 h1 h2
    unfold makesubE at h1 h2
    cases hl : makesubLayout nextreg noCfg relJumps parts name with
    | none => simp only [hl] at h1; exact Option.noConfusion h1
    | some triple =>
      obtain ⟨order, cm, placed⟩ := triple
      simp only [hl] at h1 h2
      cases hd1 : makeDispatcher cm name order c1 with
      | none => simp only [hd1] at h1; exact Option.noConfusion h1
      | some ec1 =>
        cases hd2 : makeDispatcher cm name order c2 with
        | none => simp only [hd2] at h2; exact Option.noConfusion h2
        | some ec2 =>
          obtain ⟨e1, cc1⟩ := ec1
          obtain ⟨e2, cc2⟩ := ec2
          simp only [hd1] at h1
          simp only [hd2] at h2
          cases h1
          cases h2
          exact ⟨rfl, rfl, rfl⟩
  · intro K V inst falsy tbl key compute v hv hfal
    unfold memoCall
    rw [hv]
    simp [hfal]

/-- C1 amended witness: concrete instantiation at `cexParts` and a
one-entry memo table. -/
theorem claim_C1_amended_witness :
    (makesubE 0 true false cexParts "f" 100 = some cexR1 ∧
     makesubE 0 true false cexParts "f" 200 = some cexR2 ∧
     cexR1.1.order = cexR2.1.order ∧ cexR1.1.childMap = cexR2.1.childMap ∧
       cexR1.1.placed = cexR2.1.placed) ∧
    memoCall (fun _ => false) [(("transfer", 3), some cexA)] ("transfer", 3)
      (fun t => (cexB, t)) = .ok (cexA, [(("transfer", 3), some cexA)]) :=
  ⟨⟨by decide, by decide,
    claim_C1_amended.1 0 true false cexParts "f" 100 200 cexR1 cexR2
      (by decide) (by decide)⟩,
   claim_C1_amended.2 (String × Nat) SubR inferInstance (fun _ => false)
     [(("transfer", 3), some cexA)] ("transfer", 3) (fun t => (cexB, t)) cexA
     rfl rfl⟩

/-- C7: a memoized construction function re-invoked with the same key
while its own first invocation is still pending (the cache slot holds
the `None` marker) is detected and reported as a fatal error carrying
the offending operation and arguments, rather than looping forever or
returning a partially built value. -/
theorem claim_C7 {K V : Type} [DecidableEq K] (falsy : V → Bool)
    (tbl : MemoTable K V) (key : K)
    (compute : MemoTable K V → V × MemoTable K V)
    (hpending : tbl.lookup key = some none) :
    memoCall falsy tbl key compute = .error ⟨"recursion detected", key⟩ := by
  unfold memoCall
  rw [hpending]

/-- C7 witness: a pending `reg_incr(0)`-style key. -/
theorem claim_C7_witness :
    (([(("reg_incr", [0]), (none : Option Nat))] :
        MemoTable (String × List Nat) Nat).lookup ("reg_incr", [0])
      = some none) ∧
    memoCall (fun _ => false) [(("reg_incr", [0]), (none : Option Nat))]
      ("reg_incr", [0]) (fun t => (7, t)) =
      .error ⟨"recursion detected", ("reg_incr", [0])⟩ :=
  ⟨rfl, claim_C7 (fun _ => false) _ _ _ rfl⟩

/-- C9: `cfg_optimizer` terminates on every operation sequence,
including cyclic Goto-to-Goto chains: `follow` performs at most 10
jump-threading hops per Goto (its result is always reachable from the
start counter by at most 10 hops), and the whole pre-pass evaluates to
a result even on a Goto that resolves to itself. -/
theorem claim_C9 :
    (∀ (gm : DictN String) (lm : DictS Nat) (c r : Nat),
        followE gm lm c = some r → ∃ k, k ≤ 10 ∧ HopsTo gm lm k c r) ∧
    cfgOptimizerE ([.label "a", .goto "a"] : List (CfgPart SubR)) =
      some [.label "a", .goto "a"] :=
  ⟨fun gm lm c r h => followAux_hopsTo gm lm 10 c r h, by decide⟩

/-- C9 witness: the self-cycle goto map. -/
theorem claim_C9_witness :
    followE [(0, "a")] [("a", 0)] 0 = some 0 ∧
    (∃ k, k ≤ 10 ∧ HopsTo [(0, "a")] [("a", 0)] k 0 0) :=
  ⟨by decide, claim_C9.1 [(0, "a")] [("a", 0)] 0 0 (by decide)⟩

/-- C10: a `State` defined through `be` with the `write` argument and
the per-symbol `write0`/`write1` overrides omitted writes back the
symbol it read: `write0` defaults to `'0'` and `write1` defaults to
`'1'`, so the tape cell is left unchanged on both symbol branches. -/
theorem claim_C10 (nm : String) (mv : Int) (nx : NextRef)
    (hm : mv = -1 ∨ mv = 1) :
    ∃ r, beE nm (some mv) (some nx) none none none none none none none
        = some r ∧ r.write0 = '0' ∧ r.write1 = '1' := by
  rcases hm with h | h
  · subst h
    exact ⟨_, rfl, rfl, rfl⟩
  · subst h
    exact ⟨_, rfl, rfl, rfl⟩

/-- C10 witness. -/
theorem claim_C10_witness :
    ((1 : Int) = -1 ∨ (1 : Int) = 1) ∧
    ∃ r, beE "s" (some 1) (some .halt) none none none none none none none
        = some r ∧ r.write0 = '0' ∧ r.write1 = '1' :=
  ⟨Or.inr rfl, claim_C10 "s" 1 .halt (Or.inr rfl)⟩

/-- Mapping a function that fixes every element of a list is the
identity. -/
theorem map_eq_self_of_fix {α : Type} {l : List α} {f : α → α}
    (h : ∀ x ∈ l, f x = x) : l.map f = l := by
  induction l with
  | nil => rfl
  | cons a rest ih =>
      simp only [List.map_cons]
      rw [h a (List.mem_cons_self a rest), ih fun x hx => h x (List.mem_cons_of_mem a hx)]

/-- Visiting a new id strictly decreases the number of unseen ids. -/
theorem unseenCount_append_lt (m : MachineG) (seen : List Nat) (i : Nat)
    (hmem : i ∈ m.states.map Prod.fst) (hi : i ∉ seen) :
    unseenCount m (seen ++ [i]) < unseenCount m seen := by
  unfold unseenCount
  have hsub : List.Sublist
      ((m.states.map Prod.fst).filter fun j => decide (j ∉ seen ++ [i]))
      ((m.states.map Prod.fst).filter fun j => decide (j ∉ seen)) := by
    refine List.monotone_filter_right _ (fun a => ?_)
    by_cases hs : a ∈ seen
    · have hsi : a ∈ seen ++ [i] := List.mem_append_left _ hs
      simp [hsi]
    · simp [hs]
  have hmemR : i ∈ (m.states.map Prod.fst).filter fun j => decide (j ∉ seen) :=
    List.mem_filter.mpr ⟨hmem, by simpa using hi⟩
  have hnmemL : i ∉ (m.states.map Prod.fst).filter
      fun j => decide (j ∉ seen ++ [i]) := by
    intro hc
    have h2 := (List.mem_filter.mp hc).2
    simp at h2
  rcases Nat.lt_or_ge
    ((m.states.map Prod.fst).filter fun j => decide (j ∉ seen ++ [i])).length
    ((m.states.map Prod.fst).filter fun j => decide (j ∉ seen)).length with h | h
  · exact h
  · exfalso
    have heq := hsub.eq_of_length (le_antisymm hsub.length_le h)
    rw [heq] at hnmemL
    exact hnmemL hmemR

/-- Any id the lookup succeeds on is one of the machine's state ids. -/
theorem mem_keys_of_lookup {β : Type} (l : List (Nat × β)) (i : Nat) (v : β)
    (h : l.lookup i = some v) : i ∈ l.map Prod.fst := by
  induction l with
  | nil => exact absurd h (by simp [List.lookup])
  | cons p rest ih =>
      rw [List.lookup_cons] at h
      by_cases hbeq : i == p.1
      · simp only [List.map_cons, List.mem_cons]
        exact Or.inl (eq_of_beq hbeq)
      · have hf : (i == p.1) = false := by simpa using hbeq
        rw [hf] at h
        simp only [List.map_cons, List.mem_cons]
        exact Or.inr (ih h)

/-- The depth-first walk is fuel-insensitive beyond
`2 * unseenCount + |queue|` steps: that bound strictly decreases with
every iteration, so `reachableM`'s initial fuel computes the walk's
true fixpoint. -/
theorem reachGoF_congr (m : MachineG) : ∀ (f g : Nat) (seen : List Nat)
    (queue : List (Option Nat)),
    2 * unseenCount m seen + queue.length ≤ f →
    2 * unseenCount m seen + queue.length ≤ g →
    reachGoF m f seen queue = reachGoF m g seen queue := by
  intro f
  induction f using Nat.strong_induction_on with
  | _ f ih =>
    intro g seen queue hf hg
    match f, g, queue with
    | 0, 0, [] => rfl
    | 0, g + 1, [] => rfl
    | f + 1, 0, [] => rfl
    | f + 1, g + 1, [] => rfl
    | 0, 0, _ :: _ => rfl
    | 0, g + 1, q :: queue => simp at hf
    | f + 1, 0, q :: queue => simp at hg
    | f + 1, g + 1, none :: queue =>
        rw [reachGoF, reachGoF]
        exact ih f (by omega) g seen queue (by simp at hf; omega)
          (by simp at hg; omega)
    | f + 1, g + 1, some i :: queue =>
        rw [reachGoF, reachGoF]
        by_cases hi : i ∈ seen
        · simp only [hi, if_true]
          exact ih f (by omega) g seen queue (by simp at hf; omega) (by simp at hg; omega)
        · simp only [hi, if_false]
          cases hlk : m.states.lookup i with
          | none => exact ih f (by omega) g seen queue (by simp at hf; omega) (by simp at hg; omega)
          | some st =>
              have hdec : unseenCount m (seen ++ [i]) < unseenCount m seen :=
                unseenCount_append_lt m seen i
                  (mem_keys_of_lookup m.states i st hlk) hi
              exact ih f (by omega) g (seen ++ [i])
                (st.next0 :: st.next1 :: queue)
                (by simp at hf ⊢; omega) (by simp at hg ⊢; omega)

/-- A `compress` pass that reports no work (`did_work = false`) did not
change the machine: no next-pointer was rewritten and the entry was
kept. -/
theorem onePass_snd_false (m : MachineG) (h : (onePass m).2 = false) :
    (onePass m).1 = m := by
  unfold onePass at h ⊢
  simp only at h ⊢
  set reach := reachableM m with hreach
  set repl := buildReplacement m with hrepl
  rw [Bool.or_eq_false_iff] at h
  obtain ⟨hany, hentry⟩ := h
  rw [List.any_eq_false] at hany
  have hent2 : repl.lookup m.entry = none := by
    cases he : repl.lookup m.entry with
    | none => rfl
    | some k => rw [he] at hentry; simp at hentry
  have hstates : (m.states.map fun p =>
      if p.1 ∈ reach then
        (p.1, { p.2 with next0 := replPtr repl p.2.next0,
                         next1 := replPtr repl p.2.next1 })
      else p) = m.states := by
    apply map_eq_self_of_fix
    intro p hp
    by_cases hr : p.1 ∈ reach
    · simp only [hr, if_true]
      have hb := hany p hp
      rw [Bool.not_eq_true, Bool.and_eq_false_iff] at hb
      rcases hb with hb | hb
      · simp [hr] at hb
      · rw [Bool.or_eq_false_iff] at hb
        obtain ⟨h0, h1⟩ := hb
        have e0 : replPtr repl p.2.next0 = p.2.next0 := by
          cases hn : p.2.next0 with
          | none => rfl
          | some j =>
              rw [hn] at h0
              simp only [Option.some_bind] at h0
              have hln : repl.lookup j = none := by
                cases hj : repl.lookup j with
                | none => rfl
                | some k => rw [hj] at h0; simp at h0
              simp [replPtr, hln]
        have e1 : replPtr repl p.2.next1 = p.2.next1 := by
          cases hn : p.2.next1 with
          | none => rfl
          | some j =>
              rw [hn] at h1
              simp only [Option.some_bind] at h1
              have hln : repl.lookup j = none := by
                cases hj : repl.lookup j with
                | none => rfl
                | some k => rw [hj] at h1; simp at h1
              simp [replPtr, hln]
        rw [e0, e1]
    · simp [hr]
  rw [hstates, hent2]

/-- C6: `compress()` is idempotent: whenever a `compress` call reaches
its fixpoint and returns (`compressLoop fuel m = some mFix`), a second
call in a row performs a single pass that replaces no state, rewrites
no transition and leaves the entry unchanged (`onePass mFix =
(mFix, false)`), and therefore returns immediately with the machine
unchanged. -/
theorem claim_C6 (fuel : Nat) (m mFix : MachineG)
    (h : compressLoop fuel m = some mFix) :
    onePass mFix = (mFix, false) ∧ compressLoop 1 mFix = some mFix := by
  induction fuel generalizing m with
  | zero => exact absurd h (by simp [compressLoop])
  | succ f ih =>
    rw [compressLoop] at h
    cases hop : onePass m with
    | mk mNew did =>
      rw [hop] at h
      cases did with
      | true =>
          simp only [if_true] at h
          exact ih mNew h
      | false =>
          simp only [Bool.false_eq_true, if_false, Option.some_inj] at h
          have hfst : mNew = m := by
            have h2 := onePass_snd_false m (by rw [hop])
            rw [hop] at h2
            exact h2
          have hfix : onePass mFix = (mFix, false) := by
            rw [← h, hfst, hop, hfst]
          refine ⟨hfix, ?_⟩
          rw [compressLoop, hfix]
          simp

/-- C6 witness: `cexMachine` compresses in three passes, and the result
is a fixpoint. -/
theorem claim_C6_witness :
    compressLoop 3 cexMachine = some cexMachineFix ∧
    onePass cexMachineFix = (cexMachineFix, false) ∧
    compressLoop 1 cexMachineFix = some cexMachineFix :=
  ⟨by decide, claim_C6 3 cexMachine cexMachineFix (by decide)⟩



/-- C4: for every non-empty operation sequence accepted by `makesub`,
the returned Subroutine occupies exactly `2^order` program-counter
slots (`placedChain 0 _ (2^order)`: the resolved parts, including the
alignment and padding noops, tile `[0, 2^order)` contiguously), with
`2^order` at least the sum of the constituent parts' sizes, and every
constituent part placed at an offset that is a multiple of its own
size. -/
theorem claim_C4 (nextreg : Nat) (noCfg relJumps : Bool)
    (parts parts₂ : List MPart) (name : String) (ctr : Nat)
    (r : SubFull × Nat)
    (heff : effectiveParts nextreg noCfg parts name = some parts₂)
    (hE : makesubE nextreg noCfg relJumps parts name ctr = some r) :
    (parts₂.map MPart.size).sum ≤ 2 ^ r.1.order ∧
    placedChain 0 r.1.placed (2 ^ r.1.order) := by
  simp only [makesubE] at hE
  cases hlay : makesubLayout nextreg noCfg relJumps parts name with
  | none =>
      simp only [hlay] at hE
      exact Option.noConfusion hE
  | some trip =>
      obtain ⟨order, cm, placed⟩ := trip
      simp only [hlay] at hE
      cases hd : makeDispatcher cm name order ctr with
      | none => simp only [hd] at hE; exact Option.noConfusion hE
      | some ec =>
          obtain ⟨e, cF⟩ := ec
          simp only [hd, Option.some_inj] at hE
          obtain ⟨h1, h2, h3⟩ :=
            makesubLayout_main nextreg noCfg relJumps parts name order cm
              placed hlay
          rw [← hE]
          exact ⟨h2 parts₂ heff, h1⟩

/-- C4 witness: the misaligned two-part sequence (order 0 then order 1)
gets order 2, one alignment noop and one padding noop, a tiled
placement of `[0, 4)`, and `4` is at least the summed part sizes
`1 + 2`. -/
theorem claim_C4_witness :
    effectiveParts 0 true cexMisParts "u" = some cexMisParts ∧
    makesubE 0 true false cexMisParts "u" 100 = some cexMisR ∧
    ((cexMisParts.map MPart.size).sum ≤ 2 ^ cexMisR.1.order ∧
      placedChain 0 cexMisR.1.placed (2 ^ cexMisR.1.order)) :=
  ⟨by decide, by decide,
    claim_C4 0 true false cexMisParts cexMisParts "u" 100 cexMisR
      (by decide) (by decide)⟩

/-- C5: for every Subroutine of order `n` built by `makesub`, each
length-`n` bit string has exactly one child-map key as a prefix
(coverage and exclusivity of the dispatch tree). -/
theorem claim_C5 (nextreg : Nat) (noCfg relJumps : Bool)
    (parts : List MPart) (name : String) (ctr : Nat) (r : SubFull × Nat)
    (hE : makesubE nextreg noCfg relJumps parts name ctr = some r) :
    ∀ bs : List Bool, bs.length = r.1.order →
      ∃ k info, (k, info) ∈ r.1.childMap ∧ k <+: bs ∧
        ∀ k2 info2, (k2, info2) ∈ r.1.childMap → k2 <+: bs → k2 = k := by
  simp only [makesubE] at hE
  cases hlay : makesubLayout nextreg noCfg relJumps parts name with
  | none =>
      simp only [hlay] at hE
      exact Option.noConfusion hE
  | some trip =>
      obtain ⟨order, cm, placed⟩ := trip
      simp only [hlay] at hE
      cases hd : makeDispatcher cm name order ctr with
      | none => simp only [hd] at hE; exact Option.noConfusion hE
      | some ec =>
          obtain ⟨e, cF⟩ := ec
          simp only [hd, Option.some_inj] at hE
          obtain ⟨h1, h2, h3⟩ :=
            makesubLayout_main nextreg noCfg relJumps parts name order cm
              placed hlay
          rw [← hE]
          exact h3

/-- C5 witness: in the order-2 Subroutine built from the misaligned
sequence, the bit string `[false, true]` (PC slot 1, the alignment
noop) is matched by exactly one child-map key. -/
theorem claim_C5_witness :
    makesubE 0 true false cexMisParts "u" 100 = some cexMisR ∧
    ([false, true] : List Bool).length = cexMisR.1.order ∧
    (∃ k info, (k, info) ∈ cexMisR.1.childMap ∧ k <+: [false, true] ∧
      ∀ k2 info2, (k2, info2) ∈ cexMisR.1.childMap →
        k2 <+: [false, true] → k2 = k) :=
  ⟨by decide, by decide,
    claim_C5 0 true false cexMisParts "u" 100 cexMisR (by decide)
      [false, true] (by decide)⟩

/-- C8: in prefix-patch branch-resolution mode, for an operation
sequence whose gotos all name labels bound in the same sequence (and
with at least one real part), the jump-order search succeeds for every
`Goto` (`requiredJumps` returns `some`), every collected
`(jump_order, rel)` pair has `jump_order` not exceeding the
subprogram's order and satisfies the `jump` precondition
`rel < 2^(jump_order+1)`, and the whole prefix-mode `makesub` run
succeeds — the failure branch after the search is unreachable. -/
theorem claim_C8 (nextreg : Nat) (noCfg : Bool) (parts parts₂ : List MPart)
    (name : String) (ctr : Nat)
    (heff : effectiveParts nextreg noCfg parts name = some parts₂)
    (hglab : ∀ g, CfgPart.goto g ∈ parts₂ → CfgPart.label g ∈ parts₂)
    (hne : ∃ p ∈ parts₂, p.isLabel = false) :
    ∃ req, requiredJumps (layoutWalk parts₂).labelOffsets
        ((layoutWalk parts₂).real ++
          (padChunks (2 ^ ordOf (layoutWalk parts₂).offset)
            (layoutWalk parts₂).offset).map
              fun k => CfgPart.part (noopE k)) 0 = some req ∧
      (∀ jr ∈ req, jr.1 ≤ ordOf (layoutWalk parts₂).offset ∧
        jr.2 < 2 ^ (jr.1 + 1)) ∧
      ∃ r, makesubE nextreg noCfg false parts name ctr = some r := by
  obtain ⟨p0, hp0, hp0l⟩ := hne
  have hoffpos := walk_offset_pos parts₂ p0 hp0 hp0l
  set st := layoutWalk parts₂ with hst
  set ord2 := ordOf st.offset with hord2
  set padded := st.real ++
    (padChunks (2 ^ ord2) st.offset).map
      (fun k => CfgPart.part (noopE k)) with hpad
  have hbound : ∀ g, CfgPart.goto g ∈ padded →
      (st.labelOffsets.lookup g).isSome := by
    intro g hg
    have hreal : CfgPart.goto g ∈ st.real := by
      rw [hpad] at hg
      rcases List.mem_append.mp hg with hh | hh
      · exact hh
      · exfalso
        obtain ⟨k, _, he⟩ := List.mem_map.mp hh
        exact CfgPart.noConfusion he
    refine walk_goto_mem
      (fun g2 => ((layoutWalk parts₂).labelOffsets.lookup g2).isSome = true)
      parts₂ ⟨[], [], [], [], 0⟩ ?_ ?_ g hreal
    · intro g2 hg2
      cases hg2
    · intro g2 hg2
      obtain ⟨off, hoff⟩ :=
        walk_label_bound parts₂ ⟨[], [], [], [], 0⟩ g2
          (Or.inl (hglab g2 hg2))
      exact mem_lookup_isSome _ g2 off hoff
  obtain ⟨req, hreq⟩ := requiredJumps_isSome st.labelOffsets padded 0 hbound
  obtain ⟨hwchain, hwlab⟩ := layoutWalk_inv parts₂
  rw [← hst] at hwchain hwlab
  have hfin : st.offset ≤ 2 ^ ord2 := by
    rw [hord2]
    exact le_pow_ordOf st.offset
  have hpchain : chainTo 0 padded (2 ^ ord2) := by
    rw [hpad]
    exact chainTo_append _ _ 0 st.offset _ hwchain
      (padChunks_chain ord2 st.offset hfin)
  have hjrb := requiredJumps_le_order st.labelOffsets ord2
    (fun pr hpr => le_trans (hwlab pr hpr) hfin) padded 0 req hpchain hreq
  have hvalid := requiredJumps_valid st.labelOffsets padded 0 req hreq
  obtain ⟨placed, hres, hchainP⟩ :=
    resolveParts_spec st.labelOffsets req ord2 name hvalid
      (fun pr hpr => le_trans (hwlab pr hpr) hfin) padded 0 (2 ^ ord2) req
      hpchain (le_refl _) hreq (fun x hx => hx)
  have hcmspec := buildChildMap_spec st.labelMap st.gotoMap ord2 placed 0
    hchainP
  have hlay : makesubLayout nextreg noCfg false parts name =
      some (ord2, placed.map (fun pr =>
        (keyOf ord2 pr,
          ⟨pr.2, st.labelMap.lookup pr.1, st.gotoMap.lookup pr.1⟩)),
        placed) := by
    rw [makesubLayout, heff]
    simp only [Option.bind_eq_bind, Option.some_bind]
    rw [← hst, ← hord2, ← hpad]
    rw [if_neg (by omega)]
    rw [hreq]
    simp only [Option.some_bind]
    rw [hres]
    simp only [Option.some_bind]
    rw [hcmspec]
    simp only [Option.some_bind, Option.pure_def]
  have hcov : ∀ bs : List Bool, bs.length = ord2 →
      ∃ k info, (k, info) ∈ placed.map (fun pr =>
        (keyOf ord2 pr,
          (⟨pr.2, st.labelMap.lookup pr.1,
            st.gotoMap.lookup pr.1⟩ : InsnInfo))) ∧ k <+: bs := by
    intro bs hlen
    obtain ⟨pr, hpr, hkpref⟩ := placed_covers ord2 placed hchainP bs hlen
    exact ⟨keyOf ord2 pr,
      ⟨pr.2, st.labelMap.lookup pr.1, st.gotoMap.lookup pr.1⟩,
      List.mem_map_of_mem _ hpr, hkpref⟩
  obtain ⟨rd, hrd⟩ := mdg_isSome _ name ord2 hcov (ord2 + 2) [] ctr
    (Nat.zero_le _) (by simp) (fun k info hm hp => List.prefix_nil.mp hp)
  obtain ⟨e, cF⟩ := rd
  have hmd : makeDispatcher (placed.map (fun pr =>
      (keyOf ord2 pr,
        (⟨pr.2, st.labelMap.lookup pr.1,
          st.gotoMap.lookup pr.1⟩ : InsnInfo)))) name ord2 ctr =
      some (e, cF) := by
    rw [makeDispatcher]
    exact hrd
  refine ⟨req, hreq, hjrb, ?_⟩
  refine ⟨(⟨e, ord2, name, placed.map (fun pr =>
    (keyOf ord2 pr,
      (⟨pr.2, st.labelMap.lookup pr.1,
        st.gotoMap.lookup pr.1⟩ : InsnInfo))), placed⟩, cF), ?_⟩
  simp only [makesubE, hlay, hmd]

/-- C8 witness: the sequence `[Label "L", inc part, Goto "L"]` has its
goto's label bound; the search and the whole prefix-mode construction
succeed on it. -/
theorem claim_C8_witness :
    ∃ req, requiredJumps (layoutWalk cexGParts).labelOffsets
        ((layoutWalk cexGParts).real ++
          (padChunks (2 ^ ordOf (layoutWalk cexGParts).offset)
            (layoutWalk cexGParts).offset).map
              fun k => CfgPart.part (noopE k)) 0 = some req ∧
      (∀ jr ∈ req, jr.1 ≤ ordOf (layoutWalk cexGParts).offset ∧
        jr.2 < 2 ^ (jr.1 + 1)) ∧
      ∃ r, makesubE 0 true false cexGParts "g" 77 = some r := by
  apply claim_C8 0 true cexGParts cexGParts "g" 77
  · decide
  · intro g hg
    simp only [cexGParts, List.mem_cons, List.mem_singleton,
      List.not_mem_nil, or_false] at hg
    rcases hg with he | he | he
    · exact CfgPart.noConfusion he
    · exact CfgPart.noConfusion he
    · have hge : g = "L" := by injection he
      rw [hge]
      decide
  · exact ⟨.part cexA, by decide, by decide⟩

end MTM
